import Mathlib

/-!
# UQ-1: experiment registry, evaluation round, statistics layer and bisection search

A shallow embedding of `src/src/ExperimentManager.cpp` (serial build, i.e. the
`#else` branch of `BL_USE_MPI`).

* `Real` (a C++ `double`) is embedded as `ℚ`: every statement below is a statement
  over exact arithmetic.
* `std::vector<T>` / `Array<T>` are embedded as `List T`; `v.resize(n)` is `vresize`.
  Reads `v[i]` are `v.getD i _` and writes `v[i] = x` are `v.set i x`; the theorems
  carry the size facts under which every index used is in range.
* A `SimulatedExperiment` is embedded by the three virtual methods the manager calls.
* Fatal exits (`BoxLib::Abort`, a failed `BL_ASSERT`) are the `none` of an `Option`.
-/

namespace UQ

/-- The `std::vector::resize(n, fill)` operation: keep the first `n` entries, pad with `fill`. -/
def vresize {α : Type} (v : List α) (n : Nat) (fill : α) : List α :=
  v.take n ++ List.replicate (n - v.length) fill

/-- The plugin interface `SimulatedExperiment` as used by the manager.
`GetMeasurements pm buf` is the call `GetMeasurements(buf)` made while the parameter
store holds the values `pm`: it returns the success flag and the buffer as the call
leaves it.  `GetMeasurementError buf` is the buffer after `GetMeasurementError(buf)`.
Solver state kept inside a plugin is not part of the embedding: a plugin answers as a
function of the parameter values and of the buffer it is handed. -/
structure SimulatedExperiment where
  NumMeasuredValues : Nat
  GetMeasurements : List ℚ → List ℚ → Bool × List ℚ
  GetMeasurementError : List ℚ → List ℚ

/-- The data members of `ExperimentManager` that the embedded methods touch.
`parameter_manager` holds the current values of the active parameters;
`calls` and `rounds` are ghost fields: `calls` logs the indices of the experiments
whose `GetMeasurements` was invoked, in invocation order, and `rounds` counts the
invocations of `GenerateTestMeasurements`. -/
structure ExperimentManager where
  use_synthetic_data : Bool
  parameter_manager : List ℚ
  expts : List SimulatedExperiment
  raw_data : List (List ℚ)
  data_offsets : List Nat
  num_expt_data : Nat
  expt_map : List (String × Nat)
  expt_name : List String
  true_data : List ℚ
  true_std : List ℚ
  perturbed_data : List ℚ
  calls : List Nat
  rounds : Nat

/-- What `GenerateTestMeasurements` hands back: the returned flag, the caller's
`test_measurements` vector, and the manager afterwards. -/
structure Round where
  ok : Bool
  test_measurements : List ℚ
  em : ExperimentManager

/-- What `isgoodParamVal` hands back: the returned flag, the caller's `pvals`
vector, and the manager afterwards. -/
structure Verdict where
  res : Bool
  pvals : List ℚ
  em : ExperimentManager

/-- The locals `k1`, `k2` at the exit of a bisection loop, with `pvals` and the manager. -/
structure Bracket where
  k1 : ℚ
  k2 : ℚ
  pvals : List ℚ
  em : ExperimentManager

/-- The values behind the pointers `kmin`, `kmax`, `ktyp` when `get_param_limits`
returns, with `pvals` and the manager. -/
structure Limits where
  kmin : ℚ
  kmax : ℚ
  ktyp : ℚ
  pvals : List ℚ
  em : ExperimentManager

/-- Modelled from the spec: the BoxLib macro BL_ASSERT, whose header is not among the
sources.  The spec treats a violated assertion as fatal ("fails (fatal) ... if
testData length ≠ total", "invoking it twice ... is a fatal error"), so a false
condition ends the call with no value. -/
def BL_ASSERT (cond : Bool) : Option Unit := if cond then some () else none

/-- A `Real` (a double) that has been computed with a division, as far as the embedding
tracks it: a finite number, held exactly, or a non-finite one (`inf` or `NaN`), which is
what a division by zero leaves. -/
inductive Double where
  | finite (value : ℚ) : Double
  | nonfinite : Double

/-- Equality of tracked doubles is decidable. -/
instance Double.instDecidableEq : DecidableEq Double := fun a b =>
  match a, b with
  | Double.finite x, Double.finite y =>
    if h : x = y then isTrue (by rw [h]) else isFalse (fun hab => h (Double.finite.inj hab))
  | Double.finite _, Double.nonfinite => isFalse (fun hab => Double.noConfusion hab)
  | Double.nonfinite, Double.finite _ => isFalse (fun hab => Double.noConfusion hab)
  | Double.nonfinite, Double.nonfinite => isTrue rfl

/-- The operator `+` on doubles: exact on finite numbers; a non-finite operand gives a
non-finite sum. -/
def Double.add : Double → Double → Double
  | Double.finite a, Double.finite b => Double.finite (a + b)
  | _, _ => Double.nonfinite

/-- The operator `/` on doubles, with a finite divisor: exact when the divisor is not zero;
a zero divisor gives `inf` or `NaN`, and a non-finite dividend stays non-finite. -/
def Double.div : Double → ℚ → Double
  | Double.finite a, b => if b = 0 then Double.nonfinite else Double.finite (a / b)
  | Double.nonfinite, _ => Double.nonfinite

namespace ParameterManager

end ParameterManager

namespace ExperimentManager

/-- `ExperimentManager::NumExptData`. -/
def NumExptData (em : ExperimentManager) : Nat := em.num_expt_data

/-- `ExperimentManager::Clear` (lines 85-93); `expt_name` is not touched there. -/
def Clear (em : ExperimentManager) : ExperimentManager :=
  { em with
    expts := []
    raw_data := []
    data_offsets := []
    num_expt_data := 0
    expt_map := [] }

/-- The assignment `expt_map[expt_id] = i` on a `std::map`. -/
def mapAssign (m : List (String × Nat)) (expt_id : String) (i : Nat) : List (String × Nat) :=
  (expt_id, i) :: m.filter (fun kv => kv.1 != expt_id)

/-- `ExperimentManager::AddExperiment` (lines 95-110). -/
def AddExperiment (em : ExperimentManager) (expt : SimulatedExperiment) (expt_id : String) :
    ExperimentManager :=
  let num_expts_old := em.expts.length
  let expts := em.expts ++ [expt]
  let num_new_values := expt.NumMeasuredValues
  let raw_data := vresize em.raw_data (num_expts_old + 1) (List.replicate num_new_values (0 : ℚ))
  let data_offsets := vresize em.data_offsets (num_expts_old + 1) 0
  let data_offsets := data_offsets.set num_expts_old
    (if num_expts_old = 0 then 0
     else data_offsets.getD (num_expts_old - 1) 0 + (raw_data.getD (num_expts_old - 1) []).length)
  let num_expt_data := data_offsets.getD num_expts_old 0 + num_new_values
  { em with
    expts := expts
    raw_data := raw_data
    data_offsets := data_offsets
    num_expt_data := num_expt_data
    expt_map := mapAssign em.expt_map expt_id num_expts_old
    expt_name := em.expt_name ++ [expt_id] }

/-- A sequence of `AddExperiment` calls, in order. -/
def AddExperiments (em : ExperimentManager) (regs : List (SimulatedExperiment × String)) :
    ExperimentManager :=
  regs.foldl (fun s r => s.AddExperiment r.1 r.2) em

/-- The measured-value counts `n[i]` of the registered experiments. -/
def counts (em : ExperimentManager) : List Nat := em.expts.map (·.NumMeasuredValues)

/-- The loop `parameter_manager[i] = test_params[i]` of lines 188-194, for a vector
`test_params` that is no longer than the store.  What `parameter_manager[i]` does at an
index past the end of the store is not in the sources (`ParameterManager::operator[]` is
declared elsewhere); here such a write is dropped, and no statement below is made about
an input with `test_params` longer than the store. -/
def installParams (pm test_params : List ℚ) : List ℚ :=
  (List.range test_params.length).foldl (fun pm i => pm.set i (test_params.getD i 0)) pm

/-- The inner loop of lines 437-439 for a successful experiment:
`test_measurements[offset + j] = raw_data[i][j]` for `j < n`. -/
def copyOut (test_measurements : List ℚ) (offset : Nat) (raw : List ℚ) (n : Nat) : List ℚ :=
  (List.range n).foldl (fun t j => t.set (offset + j) (raw.getD j 0)) test_measurements

/-- The serial loop of lines 434-440, entered with `ok = true`.  The first argument is
the part `expts[i], expts[i+1], …` of the registry still to be visited. -/
def serialTasks : List SimulatedExperiment → Nat → ExperimentManager → List ℚ → Round
  | [], _, em, test_measurements => ⟨true, test_measurements, em⟩
  | e :: rest, i, em, test_measurements =>
    let r := e.GetMeasurements em.parameter_manager (em.raw_data.getD i [])
    let em1 := { em with raw_data := em.raw_data.set i r.2, calls := em.calls ++ [i] }
    let offset := em1.data_offsets.getD i 0
    if r.1 then
      serialTasks rest (i + 1) em1
        (copyOut test_measurements offset (em1.raw_data.getD i []) e.NumMeasuredValues)
    else ⟨false, test_measurements, em1⟩

/-- `ExperimentManager::GenerateTestMeasurements` (lines 178-199 and 433-443), serial build. -/
def GenerateTestMeasurements (em : ExperimentManager) (test_params test_measurements : List ℚ) :
    Round :=
  let em1 := { em with
    parameter_manager := installParams em.parameter_manager test_params
    rounds := em.rounds + 1 }
  let test_measurements := vresize test_measurements em1.NumExptData 0
  serialTasks em1.expts 0 em1 test_measurements

/-- `ExperimentManager::isgoodParamVal` (lines 462-475). -/
def isgoodParamVal (em : ExperimentManager) (k : ℚ) (pvals : List ℚ) (idx : Nat) : Verdict :=
  let num_dvals := em.NumExptData
  let dvals := List.replicate num_dvals (0 : ℚ)
  let pvals := pvals.set idx k
  let r := em.GenerateTestMeasurements pvals dvals
  let res := (List.range num_dvals).foldl
    (fun res id => if r.test_measurements.getD id 0 < 0 then false else res) true
  ⟨res, pvals, r.em⟩

/-- `ExperimentManager::ComputeLikelihood` (lines 446-459).  The additions, subtractions
and products are exact; the division by `true_std[ii] * true_std[ii]` is that of doubles,
so a zero `true_std[ii]` makes the result non-finite. -/
def ComputeLikelihood (em : ExperimentManager) (test_data : List ℚ) : Option Double := do
  BL_ASSERT (test_data.length == em.num_expt_data)
  if em.perturbed_data.length == 0 then none
  else
    some ((List.range em.num_expt_data).foldl
      (fun L ii =>
        let n := em.perturbed_data.getD ii 0 - test_data.getD ii 0
        L.add ((Double.finite (0.5 * n * n)).div
          (em.true_std.getD ii 0 * em.true_std.getD ii 0))) (Double.finite 0))

/-- `ExperimentManager::GenerateExptData` (lines 156-176); `randn ii` is the value the
call of `randn()` in pass `ii` of the loop returns. -/
def GenerateExptData (em : ExperimentManager) (randn : Nat → ℚ) : Option ExperimentManager := do
  BL_ASSERT (em.perturbed_data.length == 0)
  let perturbed_data := vresize em.perturbed_data em.num_expt_data 0
  BL_ASSERT (em.true_std.length == em.num_expt_data)
  BL_ASSERT (em.true_data.length == em.num_expt_data)
  -- `Real mult = 1; … mult = 0;`
  let mult : ℚ := 0
  let perturbed_data := (List.range em.num_expt_data).foldl
    (fun p ii =>
      let small := em.true_std.getD ii 0
      p.set ii (max small (em.true_data.getD ii 0 + em.true_std.getD ii 0 * randn ii * mult)))
    perturbed_data
  some { em with perturbed_data := perturbed_data }

/-- The loop `do … while (delt > tol)` of lines 487-496, entered with the locals `k1`, `k2`;
`fuel` bounds the number of passes, and running out of it gives `none`. -/
def bisect_kmax (idx : Nat) (tol : ℚ) : Nat → ℚ → ℚ → List ℚ → ExperimentManager → Option Bracket
  | 0, _, _, _, _ => none
  | fuel + 1, k1, k2, pvals, em =>
    let ktest := (k2 + k1) * 0.5
    let r := em.isgoodParamVal ktest pvals idx
    let k1 := if r.res then ktest else k1
    let k2 := if r.res then k2 else ktest
    let delt := k2 - k1
    if delt > tol then bisect_kmax idx tol fuel k1 k2 r.pvals r.em
    else some ⟨k1, k2, r.pvals, r.em⟩

/-- The loop `do … while (delt > tol)` of lines 503-512, entered with the locals `k1`, `k2`;
`fuel` bounds the number of passes, and running out of it gives `none`. -/
def bisect_kmin (idx : Nat) (tol : ℚ) : Nat → ℚ → ℚ → List ℚ → ExperimentManager → Option Bracket
  | 0, _, _, _, _ => none
  | fuel + 1, k1, k2, pvals, em =>
    let ktest := (k2 + k1) * 0.5
    let r := em.isgoodParamVal ktest pvals idx
    let k2 := if r.res then ktest else k2
    let k1 := if r.res then k1 else ktest
    let delt := k2 - k1
    if delt > tol then bisect_kmin idx tol fuel k1 k2 r.pvals r.em
    else some ⟨k1, k2, r.pvals, r.em⟩

/-- The first half of `get_param_limits` (lines 484-498): the value of `*kmax` afterwards,
with `pvals` and the manager. -/
def limit_kmax (em : ExperimentManager) (kmax ktyp tol : ℚ) (pvals : List ℚ) (idx fuel : Nat) :
    Option (ℚ × List ℚ × ExperimentManager) :=
  let r := em.isgoodParamVal kmax pvals idx
  if !r.res then
    (bisect_kmax idx tol fuel ktyp kmax r.pvals r.em).map (fun b => (b.k1, b.pvals, b.em))
  else some (kmax, r.pvals, r.em)

/-- The second half of `get_param_limits` (lines 500-515): the value of `*kmin` afterwards,
with `pvals` and the manager. -/
def limit_kmin (em : ExperimentManager) (kmin ktyp tol : ℚ) (pvals : List ℚ) (idx fuel : Nat) :
    Option (ℚ × List ℚ × ExperimentManager) :=
  let r := em.isgoodParamVal kmin pvals idx
  if !r.res then
    (bisect_kmin idx tol fuel kmin ktyp r.pvals r.em).map (fun b => (b.k2, b.pvals, b.em))
  else some (kmin, r.pvals, r.em)

/-- `ExperimentManager::get_param_limits` (lines 477-517).  Each of the two loops may make
at most `fuel` passes. -/
def get_param_limits (em : ExperimentManager) (kmin kmax ktyp tol : ℚ) (pvals : List ℚ)
    (idx fuel : Nat) : Option Limits :=
  match em.limit_kmax kmax ktyp tol pvals idx fuel with
  | none => none
  | some (kmax1, pvals1, em1) =>
    match em1.limit_kmin kmin ktyp tol pvals1 idx fuel with
    | none => none
    | some (kmin2, pvals2, em2) => some ⟨kmin2, kmax1, ktyp, pvals2, em2⟩

/-- The states `(manager, pvals)` that calls of `isgoodParamVal` with index `idx` can
lead to from `(em, pvals)`. -/
inductive Reach (em : ExperimentManager) (pvals : List ℚ) (idx : Nat) :
    ExperimentManager → List ℚ → Prop
  | start : Reach em pvals idx em pvals
  | call (e : ExperimentManager) (p : List ℚ) (k : ℚ) :
      Reach em pvals idx e p →
      Reach em pvals idx (e.isgoodParamVal k p idx).em (e.isgoodParamVal k p idx).pvals

/-- The oracle `isgoodParamVal(·, pvals, idx)` is deterministic with verdicts `valid`:
however many calls have gone before, the call at `k` returns `valid k`. -/
def DeterministicOracle (em : ExperimentManager) (pvals : List ℚ) (idx : Nat)
    (valid : ℚ → Bool) : Prop :=
  ∀ e p, Reach em pvals idx e p → ∀ k, (e.isgoodParamVal k p idx).res = valid k

/-- The registry invariant of the data model: buffer `i` has `n[i]` entries, there is one
offset per descriptor with `o[i] = n[0] + … + n[i-1]`, and `total` is the sum of all counts. -/
structure Registered (em : ExperimentManager) : Prop where
  raw_len : em.raw_data.map List.length = em.counts
  offsets : em.data_offsets = (List.range em.expts.length).map (fun i => (em.counts.take i).sum)
  total : em.num_expt_data = em.counts.sum

/-- The outcome of the call `expts[i].GetMeasurements(raw_data[i])` that a round at
`test_params` makes for the experiment `e = expts[i]`: the returned flag and the buffer
the plugin leaves. -/
def measured (em : ExperimentManager) (test_params : List ℚ) (i : Nat) (e : SimulatedExperiment) :
    Bool × List ℚ :=
  e.GetMeasurements (installParams em.parameter_manager test_params) (em.raw_data.getD i [])

/-- An example plugin shaped like `ZeroDReactor`: `n` measured values, each the first
parameter; the call fails when that value is not above `lo`. -/
def demoExpt (n : Nat) (lo : ℚ) : SimulatedExperiment :=
  { NumMeasuredValues := n
    GetMeasurements := fun pm buf =>
      if lo < pm.getD 0 0 then (true, List.replicate n (pm.getD 0 0)) else (false, vresize buf n 0)
    GetMeasurementError := fun buf => List.replicate n 1 ++ buf.drop n }

/-- An example plugin shaped like `PREMIXReactor`: one measured value, the first parameter
when it lies in `[1, 10]`, and the value `-1` with a `true` flag otherwise. -/
def demoPremix : SimulatedExperiment :=
  { NumMeasuredValues := 1
    GetMeasurements := fun pm _ =>
      if 1 ≤ pm.getD 0 0 ∧ pm.getD 0 0 ≤ 10 then (true, [pm.getD 0 0]) else (true, [-1])
    GetMeasurementError := fun buf => buf.set 0 1 }

/-- A manager with nothing registered and every vector empty. -/
def blank : ExperimentManager :=
  { use_synthetic_data := true
    parameter_manager := []
    expts := []
    raw_data := []
    data_offsets := []
    num_expt_data := 0
    expt_map := []
    expt_name := []
    true_data := []
    true_std := []
    perturbed_data := []
    calls := []
    rounds := 0 }

/-- The example registry: a cleared manager with one parameter, then two `AddExperiment`
calls with counts `3` and `2`. -/
def demoRegistry : ExperimentManager :=
  ({ blank with parameter_manager := [1] }).Clear.AddExperiments
    [(demoExpt 3 0, "a"), (demoExpt 2 10, "b")]

/-- A second example registry: a cleared manager with one parameter and the single
experiment `demoPremix`. -/
def premixRegistry : ExperimentManager :=
  ({ blank with parameter_manager := [1] }).Clear.AddExperiments [(demoPremix, "flame")]

/-- The statistics of the scenario in the spec: five measurements, true data
`[1, 2, 3, 4, 5]`, observation std `[1, 1, 1, 1, 1]`, perturbed data not generated yet. -/
def demoStats : ExperimentManager :=
  { demoRegistry with
    true_data := [1, 2, 3, 4, 5]
    true_std := [1, 1, 1, 1, 1]
    perturbed_data := [] }

/-- The verdicts of the oracle on a registry with nothing to measure: every value valid. -/
def allValid (_ : ℚ) : Bool := true

/-- The verdicts of the oracle on `premixRegistry`: valid exactly on `[1, 10]`. -/
def premixValid (k : ℚ) : Bool := decide (1 ≤ k ∧ k ≤ 10)

/-- The vector `v + d`: the constant `d` added to every component of `v`. -/
def shifted (v : List ℚ) (d : ℚ) : List ℚ := v.map (· + d)

/-- A variant of `demoStats` whose first true value `1/2` lies below its std `1`. -/
def lowStats : ExperimentManager :=
  { demoRegistry with
    true_data := [1 / 2, 2, 3, 4, 5]
    true_std := [1, 1, 1, 1, 1]
    perturbed_data := [] }

/-- One pass of the loop of lines 128-152 of `InitializeTrueData`, for `e = expts[i]`. -/
def trueDataStep (e : SimulatedExperiment) (i : Nat) (em : ExperimentManager) :
    Option ExperimentManager := do
  let n := e.NumMeasuredValues
  BL_ASSERT (decide (n ≤ (em.raw_data.getD i []).length))
  let em1 :=
    if em.use_synthetic_data then
      { em with
        raw_data := em.raw_data.set i
          (e.GetMeasurements em.parameter_manager (em.raw_data.getD i [])).2
        calls := em.calls ++ [i] }
    else em
  let offset := em1.data_offsets.getD i 0
  let nd := (em1.raw_data.getD i []).length
  let em2 :=
    if em1.use_synthetic_data then
      { em1 with true_data := copyOut em1.true_data offset (em1.raw_data.getD i []) nd }
    else em1
  let em3 := { em2 with
    raw_data := em2.raw_data.set i (e.GetMeasurementError (em2.raw_data.getD i [])) }
  some { em3 with true_std := copyOut em3.true_std offset (em3.raw_data.getD i []) nd }

/-- The loop of lines 128-152 of `InitializeTrueData`.  The first argument is the part
`expts[i], expts[i+1], …` of the registry still to be visited. -/
def trueDataLoop : List SimulatedExperiment → Nat → ExperimentManager → Option ExperimentManager
  | [], _, em => some em
  | e :: rest, i, em => (trueDataStep e i em).bind (trueDataLoop rest (i + 1))

/-- `ExperimentManager::InitializeTrueData` (lines 120-154). -/
def InitializeTrueData (em : ExperimentManager) (true_parameters : List ℚ) :
    Option ExperimentManager := do
  let em1 :=
    if em.use_synthetic_data then
      let r := em.GenerateTestMeasurements true_parameters em.true_data
      { r.em with true_data := r.test_measurements }
    else em
  let em2 := { em1 with true_std := vresize em1.true_std em1.NumExptData 0 }
  let em3 ← trueDataLoop em2.expts 0 em2
  some { em3 with perturbed_data := vresize em3.perturbed_data 0 0 }

/-- The buffer `raw_data[i]` that `InitializeTrueData(true_parameters)` hands to the call
`expts[i].GetMeasurementError(raw_data[i])` for `e = expts[i]`: in synthetic mode what the
call of `GetMeasurements` at line 136 has left, otherwise the buffer as it was. -/
def errorBuffer (em : ExperimentManager) (true_parameters : List ℚ) (i : Nat)
    (e : SimulatedExperiment) : List ℚ :=
  if em.use_synthetic_data then
    (e.GetMeasurements (installParams em.parameter_manager true_parameters)
      ((em.GenerateTestMeasurements true_parameters em.true_data).em.raw_data.getD i [])).2
  else em.raw_data.getD i []

/-- The buffer one pass of the loop of `InitializeTrueData` hands to
`expts[i].GetMeasurementError` when it starts from the manager `em`. -/
def errorInput (e : SimulatedExperiment) (i : Nat) (em : ExperimentManager) : List ℚ :=
  if em.use_synthetic_data then
    (e.GetMeasurements em.parameter_manager (em.raw_data.getD i [])).2
  else em.raw_data.getD i []

/-- The plugin contract of the interface: every call of `GetMeasurements` leaves a buffer of
`NumMeasuredValues()` entries (`ZeroDReactor` and `PREMIXReactor` resize it first). -/
def FillsBuffers (em : ExperimentManager) : Prop :=
  ∀ e ∈ em.expts, ∀ (pm buf : List ℚ), (e.GetMeasurements pm buf).2.length = e.NumMeasuredValues

/-- The plugins of the registry are deterministic: what `GetMeasurements` returns and
leaves depends on the parameter values only, not on what the buffer held before. -/
def DeterministicPlugins (em : ExperimentManager) : Prop :=
  ∀ e ∈ em.expts, ∀ (pm b1 b2 : List ℚ), e.GetMeasurements pm b1 = e.GetMeasurements pm b2

/-- The loop `do … while (delt < tol)` of lines 553-564 of `get_param_interesting`, entered
with the locals `k1`, `dlast`; `fuel` bounds the number of passes, and running out of it
gives `none`.  It returns `k1` at the exit, with `pvals` and the manager. -/
def walk_kmax (idx : Nat) (tol dk : ℚ) :
    Nat → ℚ → ℚ → List ℚ → ExperimentManager → Option (ℚ × List ℚ × ExperimentManager)
  | 0, _, _, _, _ => none
  | fuel + 1, k1, dlast, pvals, em =>
    let num_dvals := em.NumExptData
    let dvals := List.replicate num_dvals (0 : ℚ)
    let pvals := pvals.set idx (k1 - dk)
    let r := em.GenerateTestMeasurements pvals dvals
    let delt := |dlast - r.test_measurements.getD 0 0|
    let dlast := r.test_measurements.getD 0 0
    let k1 := if delt < tol then k1 - dk else k1
    if delt < tol then walk_kmax idx tol dk fuel k1 dlast pvals r.em
    else some (k1, pvals, r.em)

/-- Lines 519-566 of `get_param_interesting`: the upper bisection (the text of lines
526-540 is that of lines 484-498 of `get_param_limits`) and the walk.  It returns the value
of `*kmax` after line 566, the value the local `tol` then has, `pvals` and the manager.
Each loop may make at most `fuel` passes. -/
def interesting_kmax (em : ExperimentManager) (kmax ktyp tol : ℚ) (pvals : List ℚ)
    (idx fuel : Nat) : Option (ℚ × ℚ × List ℚ × ExperimentManager) :=
  match em.limit_kmax kmax ktyp tol pvals idx fuel with
  | none => none
  | some (kmax1, pvals1, em1) =>
    let num_dvals := em1.NumExptData
    let dvals := List.replicate num_dvals (0 : ℚ)
    let pvals2 := pvals1.set idx kmax1
    let r := em1.GenerateTestMeasurements pvals2 dvals
    let dmag := r.test_measurements.getD 0 0
    let dlast := dmag
    let k1 := kmax1
    let tol := dmag * 0.1
    let dk := kmax1 * 0.01
    match walk_kmax idx tol dk fuel k1 dlast pvals2 r.em with
    | none => none
    | some (k1, pvals3, em3) => some (k1, tol, pvals3, em3)

/-- `ExperimentManager::get_param_interesting` (lines 519-588): `interesting_kmax`, then the
lower bisection of lines 571-586 (the text of lines 500-515 of `get_param_limits`), run
with the value the local `tol` has by then. -/
def get_param_interesting (em : ExperimentManager) (kmin kmax ktyp tol : ℚ) (pvals : List ℚ)
    (idx fuel : Nat) : Option Limits :=
  match em.interesting_kmax kmax ktyp tol pvals idx fuel with
  | none => none
  | some (kmax2, tol2, pvals3, em3) =>
    match em3.limit_kmin kmin ktyp tol2 pvals3 idx fuel with
    | none => none
    | some (kmin2, pvals4, em4) => some ⟨kmin2, kmax2, ktyp, pvals4, em4⟩

/-- The first measurement `dvals[0]` of the round that `get_param_interesting` runs at the
parameter value `k` (`pvals[idx] = k`, a zeroed vector of `NumExptData()` entries). -/
def firstMeasurement (em : ExperimentManager) (pvals : List ℚ) (idx : Nat) (k : ℚ) : ℚ :=
  (em.GenerateTestMeasurements (pvals.set idx k)
    (List.replicate em.NumExptData 0)).test_measurements.getD 0 0

/-- The first measurement is deterministic with values `f`: however many rounds have gone
before, the round at `k` measures `f k`. -/
def DeterministicMeasure (em : ExperimentManager) (pvals : List ℚ) (idx : Nat)
    (f : ℚ → ℚ) : Prop :=
  ∀ e p, Reach em pvals idx e p → ∀ k, firstMeasurement e p idx k = f k

/-- An example plugin with a steep onset: one measured value, `-1` (with a `true` flag)
outside `[1, 10]`, `1` below `197/20` and `2` from there on. -/
def demoOnset : SimulatedExperiment :=
  { NumMeasuredValues := 1
    GetMeasurements := fun pm _ =>
      if pm.getD 0 0 < 1 ∨ 10 < pm.getD 0 0 then (true, [-1])
      else if pm.getD 0 0 < 197 / 20 then (true, [1]) else (true, [2])
    GetMeasurementError := fun buf => buf.set 0 1 }

/-- A third example registry: a cleared manager with one parameter and the single
experiment `demoOnset`. -/
def onsetRegistry : ExperimentManager :=
  ({ blank with parameter_manager := [1] }).Clear.AddExperiments [(demoOnset, "onset")]

/-- The first measurement on `onsetRegistry` as a function of the parameter value. -/
def onsetValue (k : ℚ) : ℚ :=
  if k < 1 ∨ 10 < k then -1 else if k < 197 / 20 then 1 else 2

/-- What a worker rank has outstanding on the control channel, as the master finds it: the
`READY` it sends at the top of its loop, a `HAVE_RESULTS` followed on the data channel by
the experiment index, the flag `intok` and the buffer, or nothing more once it has been
told to `STOP`. -/
inductive Worker where
  | ready : Worker
  | results (exp_num : Nat) (intok : Int) (buf : List ℚ) : Worker
  | stopped : Worker

/-- The commands of `workercommand_t`; `WORK` is listed with the experiment index the
master sends after it on the data channel. -/
inductive Command where
  | WORK (exp_num : Nat) : Command
  | STOP : Command

/-- The locals of the master branch of `GenerateTestMeasurements` (lines 288-415) with the
master's manager, the state of the workers, and a ghost log `sent` of the commands sent,
each with the worker it went to. -/
structure Master where
  em : ExperimentManager
  test_measurements : List ℚ
  ok : Bool
  intok : Int
  Nexperiments_dispatched : Nat
  Nexperiments_finished : Nat
  workers : List Worker
  sent : List (Nat × Command)

/-- The `HAVE_RESULTS` branch (lines 331-355, and again lines 372-393): the master receives
`exp_num`, `intok` and the buffer into `raw_data[exp_num]`, sets `ok = false` on a negative
flag, and copies the buffer to its offset when `intok == 1`.  An `exp_num` that is not a
registered experiment gives `none`. -/
def receiveResults (m : Master) (exp_num : Nat) (intok : Int) (buf : List ℚ) : Option Master :=
  match m.em.expts[exp_num]? with
  | none => none
  | some e =>
    let ok := if intok < 0 then false else m.ok
    let n := e.NumMeasuredValues
    let em := { m.em with raw_data := m.em.raw_data.set exp_num buf }
    let offset := em.data_offsets.getD exp_num 0
    let test_measurements :=
      if intok = 1 then copyOut m.test_measurements offset (em.raw_data.getD exp_num []) n
      else m.test_measurements
    some { m with
      em := em
      test_measurements := test_measurements
      ok := ok
      intok := intok
      Nexperiments_finished := m.Nexperiments_finished + 1 }

/-- The `WORK` branch of the worker loop (lines 247-279) for the experiment `which`: the
worker runs `GetMeasurements` on its own copy `wbuf` of `raw_data[which]`, under the
parameter values `pm` every rank has installed, and answers with `HAVE_RESULTS`. -/
def workerRun (e : SimulatedExperiment) (pm : List ℚ) (which : Nat) (wbuf : List ℚ) : Worker :=
  let r := e.GetMeasurements pm wbuf
  Worker.results which (if r.1 then 1 else -1) r.2

/-- One pass of the master loop of lines 296-360 in which the message found by `MPI_Probe`
comes from `current_worker`.  `wraw w` is worker `w`'s own copy of `raw_data`.  The pass
gives `none` when that worker has nothing outstanding, and when `READY` is answered with an
experiment index outside the registry. -/
def masterStep (wraw : Nat → List (List ℚ)) (m : Master) (current_worker : Nat) :
    Option Master :=
  match m.workers[current_worker]? with
  | some Worker.ready =>
    match m.em.expts[m.Nexperiments_dispatched]? with
    | none => none
    | some e =>
      some { m with
        workers := m.workers.set current_worker
          (workerRun e m.em.parameter_manager m.Nexperiments_dispatched
            ((wraw current_worker).getD m.Nexperiments_dispatched []))
        sent := m.sent ++ [(current_worker, Command.WORK m.Nexperiments_dispatched)]
        Nexperiments_dispatched := m.Nexperiments_dispatched + 1 }
  | some (Worker.results exp_num intok buf) =>
    (receiveResults m exp_num intok buf).map
      (fun m1 => { m1 with workers := m1.workers.set current_worker Worker.ready })
  | _ => none

/-- The loop `do … while (Nexperiments_dispatched < expts.size() && ok)` of lines 296-360.
The first argument is the schedule: the workers whose messages `MPI_Probe` finds, pass by
pass.  A schedule that ends while the master still waits gives `none`. -/
def dispatchLoop (wraw : Nat → List (List ℚ)) : List Nat → Master → Option Master
  | [], _ => none
  | current_worker :: schedule, m =>
    match masterStep wraw m current_worker with
    | none => none
    | some m1 =>
      if m1.Nexperiments_dispatched < m1.em.expts.length && m1.ok then
        dispatchLoop wraw schedule m1
      else some m1

/-- One pass of the clean-up loop of lines 364-403, for worker `i`: a `READY` is answered
with `STOP`; a `HAVE_RESULTS` is processed, then the worker's next `READY` is received and
answered with `STOP`. -/
def drainWorker (m : Master) (i : Nat) : Option Master :=
  match m.workers[i]? with
  | some Worker.ready =>
    some { m with
      workers := m.workers.set i Worker.stopped
      sent := m.sent ++ [(i, Command.STOP)] }
  | some (Worker.results exp_num intok buf) =>
    (receiveResults m exp_num intok buf).map
      (fun m1 => { m1 with
        workers := m1.workers.set i Worker.stopped
        sent := m1.sent ++ [(i, Command.STOP)] })
  | _ => none

/-- The clean-up loop of lines 364-403 over the workers listed. -/
def drainLoop : List Nat → Master → Option Master
  | [], m => some m
  | i :: rest, m => (drainWorker m i).bind (drainLoop rest)

/-- `ExperimentManager::GenerateTestMeasurements` in the `BL_USE_MPI` build (lines 178-431),
as the master rank runs it with `nworkers` worker ranks (worker `w` is rank `w + 1`).  Every
rank installs the broadcast parameters; every worker starts by sending `READY`; `schedule`
lists the workers whose messages the master's `MPI_Probe` finds; the vector the master has
assembled is what the final broadcast hands to every rank, and the reduced flag is the
master's `ok` (a worker never changes its own). -/
def GenerateTestMeasurementsMPI (em : ExperimentManager)
    (test_params test_measurements : List ℚ) (nworkers : Nat)
    (wraw : Nat → List (List ℚ)) (schedule : List Nat) : Option Round :=
  let em1 := { em with
    parameter_manager := installParams em.parameter_manager test_params
    rounds := em.rounds + 1 }
  let test_measurements := vresize test_measurements em1.NumExptData 0
  let m0 : Master :=
    { em := em1
      test_measurements := test_measurements
      ok := true
      intok := -1
      Nexperiments_dispatched := 0
      Nexperiments_finished := 0
      workers := List.replicate nworkers Worker.ready
      sent := [] }
  match dispatchLoop wraw schedule m0 with
  | none => none
  | some m1 =>
    match drainLoop (List.range nworkers) m1 with
    | none => none
    | some m2 => some ⟨m2.ok, m2.test_measurements, m2.em⟩

/-- An example of a deterministic plugin that can fail: `n` measured values, each the first
parameter; when that value is not above `lo` the call fails and leaves zeros, whatever the
buffer held. -/
def demoSteady (n : Nat) (lo : ℚ) : SimulatedExperiment :=
  { NumMeasuredValues := n
    GetMeasurements := fun pm _ =>
      if lo < pm.getD 0 0 then (true, List.replicate n (pm.getD 0 0))
      else (false, List.replicate n 0)
    GetMeasurementError := fun buf => List.replicate n 1 ++ buf.drop n }

/-- A registry of two deterministic plugins: at the parameter value `5` experiment `0`
fails and experiment `1` succeeds. -/
def failFirstRegistry : ExperimentManager :=
  ({ blank with parameter_manager := [1] }).Clear.AddExperiments
    [(demoSteady 3 10, "a"), (demoSteady 2 0, "b")]

/-- A registry of two deterministic plugins that always succeed. -/
def twinRegistry : ExperimentManager :=
  ({ blank with parameter_manager := [1] }).Clear.AddExperiments
    [(demoPremix, "flame"), (demoOnset, "onset")]

/-- Slice `i` of the vector `tm` holds the buffer experiment `i` produces in a round at
`test_params`. -/
def SliceDone (em : ExperimentManager) (test_params : List ℚ) (tm : List ℚ) (i : Nat) : Prop :=
  ∀ e, em.expts[i]? = some e → ∀ j, j < e.NumMeasuredValues →
    tm[em.data_offsets.getD i 0 + j]? = some ((em.measured test_params i e).2.getD j 0)

/-- The worker has a `HAVE_RESULTS` outstanding. -/
def Worker.busy : Worker → Prop
  | Worker.results _ _ _ => True
  | _ => False

/-- The invariant of the master in a round at `test_params` in which every experiment
succeeds: the registry is that of `em`, `ok` is still `true`, every outstanding result is
the successful result of a dispatched experiment, and every dispatched experiment either
has its slice in place or is outstanding at some worker. -/
structure MasterInv (em : ExperimentManager) (test_params : List ℚ) (m : Master) : Prop where
  expts : m.em.expts = em.expts
  offsets : m.em.data_offsets = em.data_offsets
  params : m.em.parameter_manager = installParams em.parameter_manager test_params
  raw_len : m.em.raw_data.length = em.raw_data.length
  ok : m.ok = true
  len : m.test_measurements.length = em.num_expt_data
  bound : m.Nexperiments_dispatched ≤ em.expts.length
  pending : ∀ (w i : Nat) (k : Int) (b : List ℚ),
    m.workers[w]? = some (Worker.results i k b) →
      i < m.Nexperiments_dispatched ∧ k = 1 ∧
        ∃ e, em.expts[i]? = some e ∧ b = (em.measured test_params i e).2
  done : ∀ i, i < m.Nexperiments_dispatched →
    SliceDone em test_params m.test_measurements i ∨
      ∃ (w : Nat) (k : Int) (b : List ℚ), m.workers[w]? = some (Worker.results i k b)

/-- The number of workers with a `HAVE_RESULTS` outstanding. -/
def outstanding : List Worker → Nat
  | [] => 0
  | Worker.results _ _ _ :: ws => outstanding ws + 1
  | Worker.ready :: ws => outstanding ws
  | Worker.stopped :: ws => outstanding ws

/-- No worker has been sent `STOP`. -/
def Alive (ws : List Worker) : Prop := ∀ (w : Nat), ws[w]? ≠ some Worker.stopped

/-- The state in which the master enters its loop (lines 187-198 and 289-294), every worker
having sent its first `READY`. -/
def masterInit (em : ExperimentManager) (test_params test_measurements : List ℚ)
    (nworkers : Nat) : Master :=
  let em1 := { em with
    parameter_manager := installParams em.parameter_manager test_params
    rounds := em.rounds + 1 }
  { em := em1
    test_measurements := vresize test_measurements em1.NumExptData 0
    ok := true
    intok := -1
    Nexperiments_dispatched := 0
    Nexperiments_finished := 0
    workers := List.replicate nworkers Worker.ready
    sent := [] }

/-- The master loop of lines 296-360 as `dispatchLoop` runs it, listing the state of the
master after every pass. -/
def dispatchTrace (wraw : Nat → List (List ℚ)) : List Nat → Master → Option (List Master)
  | [], _ => none
  | current_worker :: schedule, m =>
    match masterStep wraw m current_worker with
    | none => none
    | some m1 =>
      if m1.Nexperiments_dispatched < m1.em.expts.length && m1.ok then
        (dispatchTrace wraw schedule m1).map (fun t => m1 :: t)
      else some [m1]

/-- The clean-up loop of lines 364-403 as `drainLoop` runs it, listing the state of the
master after every pass. -/
def drainTrace : List Nat → Master → Option (List Master)
  | [], _ => some []
  | i :: rest, m =>
    (drainWorker m i).bind (fun m1 => (drainTrace rest m1).map (fun t => m1 :: t))

/-- The successive states of the master in a round of `GenerateTestMeasurementsMPI`: the
state at the entry of the master loop, then the state after every pass of that loop, then
the state after every pass of the clean-up loop. -/
def masterTrace (em : ExperimentManager) (test_params test_measurements : List ℚ)
    (nworkers : Nat) (wraw : Nat → List (List ℚ)) (schedule : List Nat) :
    Option (List Master) :=
  let m0 := masterInit em test_params test_measurements nworkers
  (dispatchTrace wraw schedule m0).bind (fun t1 =>
    (drainTrace (List.range nworkers) (t1.getLastD m0)).map (fun t2 => m0 :: (t1 ++ t2)))

/-- The experiment index a `WORK` command carries. -/
def Command.index : Command → Option Nat
  | Command.WORK exp_num => some exp_num
  | Command.STOP => none

/-- The experiment indices of the `WORK` commands of a log, in the order sent. -/
def workLog (sent : List (Nat × Command)) : List Nat := sent.filterMap (fun c => c.2.index)

/-- Between the states `a` and `b` of the master nothing but `STOP` commands were sent. -/
def StopsOnly (a b : Master) : Prop :=
  ∃ stops : List (Nat × Command), b.sent = a.sent ++ stops ∧ ∀ c ∈ stops, c.2 = Command.STOP

/-- What every pass of the master keeps true on a registry of `N` experiments, whatever
the plugins return: the dispatch counter is at most `N`, every outstanding result is that
of a registered experiment, every dispatched experiment is finished or outstanding, and
the `WORK` commands sent so far carry the indices `0, 1, …` in order. -/
structure MasterWf (N : Nat) (m : Master) : Prop where
  expts : m.em.expts.length = N
  bound : m.Nexperiments_dispatched ≤ N
  pending : ∀ (w i : Nat) (k : Int) (b : List ℚ),
    m.workers[w]? = some (Worker.results i k b) → i < N
  count : m.Nexperiments_finished + outstanding m.workers = m.Nexperiments_dispatched
  works : workLog m.sent = List.range m.Nexperiments_dispatched

/-- A registry of three deterministic plugins with one measured value each: at the
parameter value `5` experiment `0` fails and the other two succeed. -/
def tripleRegistry : ExperimentManager :=
  ({ blank with parameter_manager := [1] }).Clear.AddExperiments
    [(demoSteady 1 10, "a"), (demoSteady 1 0, "b"), (demoSteady 1 0, "c")]

/-- An example plugin that is valid everywhere: one measured value, always `1`. -/
def demoFlat : SimulatedExperiment :=
  { NumMeasuredValues := 1
    GetMeasurements := fun _ _ => (true, [1])
    GetMeasurementError := fun buf => buf.set 0 1 }

/-- An example registry on which every parameter value is valid: a cleared manager with
one parameter and the single experiment `demoFlat`. -/
def flatRegistry : ExperimentManager :=
  ({ blank with parameter_manager := [1] }).Clear.AddExperiments [(demoFlat, "flat")]

end ExperimentManager

/-! ## The flame-speed plugin -/

/-- `PremixSol` (declared outside the sources) as far as `PREMIXReactor` uses it: the
solution array `solvec`, read at one index, and the number of grid points `ngp`. -/
structure PremixSol where
  solvec : Int → ℚ
  ngp : Int

/-- The data members of `PREMIXReactor` that `GetMeasurements` touches.  `premix_` stands
for the external Fortran solver of this reactor: `premix_ pm lrstrtflag lregrid sol` is
the solution it leaves behind the pointers `savesol`, `solsz` when called with those
values of the restart flag and of the regrid size, from the solution `sol`, while the
parameter store holds `pm`.  The pointers `premix_sol`, `savesol`, `solsz` are taken to be
non-null, so the assertions of lines 836, 862 and 863 hold. -/
inductive PREMIXReactor where
  | mk (nmax ncomp lrstrtflag : Int) (premix_sol : PremixSol)
      (premix_ : List ℚ → Int → Int → PremixSol → PremixSol)
      (prereq_reactors : List PREMIXReactor) : PREMIXReactor

namespace PREMIXReactor

/-- The member `lrstrtflag`. -/
def lrstrtflag : PREMIXReactor → Int
  | mk _ _ lrstrtflag _ _ _ => lrstrtflag

/-- The solution behind the member `premix_sol`. -/
def premix_sol : PREMIXReactor → PremixSol
  | mk _ _ _ premix_sol _ _ => premix_sol

/-- `PREMIXReactor::ValidMeasurement` (lines 762-767). -/
def ValidMeasurement (data : ℚ) : Bool := decide (data > 0 ∧ data < 100000)

mutual
/-- The body of `PREMIXReactor::GetMeasurements` (lines 770-953) for a reactor whose
members `lrstrtflag` and `*premix_sol` hold the values given as the second and third
arguments.  `PREMIX_RESTART` tells whether that macro is defined (line 783).  The result
is the returned flag, the buffer `simulated_observations`, and the reactor afterwards. -/
def GetMeasurementsWith (PREMIX_RESTART : Bool) (pm : List ℚ) :
    PREMIXReactor → Int → PremixSol → List ℚ → Bool × List ℚ × PREMIXReactor
  | mk nmax ncomp _ _ premix_ prereq_reactors, lrstrtflag, premix_sol,
      simulated_observations =>
    let simulated_observations := vresize simulated_observations 1 0
    let lrstrtflag := if PREMIX_RESTART then lrstrtflag else 0
    let pre :=
      if lrstrtflag = 0 then prereqLoop PREMIX_RESTART pm prereq_reactors 0 premix_sol
      else (true, premix_sol, prereq_reactors)
    if ! pre.1 then
      (false, simulated_observations, mk nmax ncomp lrstrtflag pre.2.1 premix_ pre.2.2)
    else
      let premix_sol := pre.2.1
      let lrstrtflag1 := if lrstrtflag = 0 ∧ prereq_reactors.length > 0 then 1 else lrstrtflag
      let lregrid : Int := if lrstrtflag = 0 then -1 else 1
      let lregrid : Int :=
        if lregrid > 0 then
          let regrid_sz := premix_sol.ngp.tdiv 4
          if max 24 regrid_sz > premix_sol.ngp then -1 else max 24 regrid_sz
        else lregrid
      let sol := premix_ pm lrstrtflag1 lregrid premix_sol
      if sol.ngp > 0 then
        let v := sol.solvec (sol.ngp + nmax * (ncomp - 1) - 1 + 3)
        if ! ValidMeasurement v then
          (false, simulated_observations.set 0 v, mk nmax ncomp lrstrtflag1 sol premix_ pre.2.2)
        else (true, simulated_observations.set 0 v, mk nmax ncomp 1 sol premix_ pre.2.2)
      else (true, simulated_observations.set 0 (-1), mk nmax ncomp 0 sol premix_ pre.2.2)
/-- The loop over `prereq_reactors` of lines 802-820, entered with the local `lrstrt` and
the solution `*premix_sol` of the reactor that runs it.  The result is `false` when a
prerequisite failed (line 818), with the solution as the loop leaves it and the
prerequisites afterwards. -/
def prereqLoop (PREMIX_RESTART : Bool) (pm : List ℚ) :
    List PREMIXReactor → Int → PremixSol → Bool × PremixSol × List PREMIXReactor
  | [], _, premix_sol => (true, premix_sol, [])
  | pr :: rest, lrstrt, premix_sol =>
    let r :=
      if lrstrt = 1 then GetMeasurementsWith PREMIX_RESTART pm pr 1 premix_sol []
      else GetMeasurementsWith PREMIX_RESTART pm pr 0 pr.premix_sol []
    if ! r.1 then (false, premix_sol, r.2.2 :: rest)
    else
      let out := prereqLoop PREMIX_RESTART pm rest 1 r.2.2.premix_sol
      (out.1, out.2.1, r.2.2 :: out.2.2)
end

/-- `PREMIXReactor::GetMeasurements` (lines 770-953). -/
def GetMeasurements (PREMIX_RESTART : Bool) (pm : List ℚ) (r : PREMIXReactor)
    (simulated_observations : List ℚ) : Bool × List ℚ × PREMIXReactor :=
  GetMeasurementsWith PREMIX_RESTART pm r r.lrstrtflag r.premix_sol simulated_observations

end PREMIXReactor

/-! ## Registry -/

namespace ExperimentManager

theorem vresize_succ_of_length {α : Type} (v : List α) (fill : α) :
    vresize v (v.length + 1) fill = v ++ [fill] := by
  simp [vresize]

theorem registered_Clear (em : ExperimentManager) : Registered em.Clear :=
  ⟨by simp [Clear, counts], by simp [Clear], by simp [Clear, counts]⟩

theorem counts_AddExperiment (em : ExperimentManager) (e : SimulatedExperiment) (id : String) :
    (em.AddExperiment e id).counts = em.counts ++ [e.NumMeasuredValues] := by
  simp [AddExperiment, counts]

theorem registered_AddExperiment (em : ExperimentManager) (e : SimulatedExperiment) (id : String)
    (h : Registered em) : Registered (em.AddExperiment e id) := by
  have hrl : em.raw_data.length = em.expts.length := by
    have := congrArg List.length h.raw_len
    simpa [counts] using this
  have hol : em.data_offsets.length = em.expts.length := by
    have := congrArg List.length h.offsets
    simpa using this
  have hcl : em.counts.length = em.expts.length := by simp [counts]
  have hraw : vresize em.raw_data (em.expts.length + 1) (List.replicate e.NumMeasuredValues (0 : ℚ))
      = em.raw_data ++ [List.replicate e.NumMeasuredValues (0 : ℚ)] := by
    rw [← hrl]; exact vresize_succ_of_length _ _
  have hoff : vresize em.data_offsets (em.expts.length + 1) 0 = em.data_offsets ++ [0] := by
    rw [← hol]; exact vresize_succ_of_length _ _
  have hlast : (if em.expts.length = 0 then 0
      else (em.data_offsets ++ [0]).getD (em.expts.length - 1) 0 +
        ((em.raw_data ++ [List.replicate e.NumMeasuredValues (0 : ℚ)]).getD
          (em.expts.length - 1) []).length) = em.counts.sum := by
    split
    · next h0 =>
      have : em.counts = [] := by
        apply List.eq_nil_of_length_eq_zero; omega
      simp [this]
    · next h0 =>
      have hlt : em.expts.length - 1 < em.expts.length := by omega
      have h1 : (em.data_offsets ++ [0]).getD (em.expts.length - 1) 0
          = (em.counts.take (em.expts.length - 1)).sum := by
        rw [List.getD_eq_getElem?_getD, List.getElem?_append_left (by omega), h.offsets]
        simp [hlt]
      have h2 : ((em.raw_data ++ [List.replicate e.NumMeasuredValues (0 : ℚ)]).getD
          (em.expts.length - 1) []).length = em.counts.getD (em.expts.length - 1) 0 := by
        rw [List.getD_eq_getElem?_getD, List.getElem?_append_left (by omega), ← h.raw_len]
        simp [List.getD_eq_getElem?_getD, hrl, hlt]
      rw [h1, h2]
      have h3 : em.counts.take (em.expts.length - 1) ++ [em.counts.getD (em.expts.length - 1) 0]
          = em.counts := by
        have hlt2 : em.expts.length - 1 < em.counts.length := by omega
        have h4 : em.counts.take (em.expts.length - 1 + 1) = em.counts := by
          apply List.take_of_length_le; omega
        rw [List.take_succ, List.getElem?_eq_getElem hlt2] at h4
        rw [List.getD_eq_getElem?_getD, List.getElem?_eq_getElem hlt2]
        simpa using h4
      calc (em.counts.take (em.expts.length - 1)).sum + em.counts.getD (em.expts.length - 1) 0
          = (em.counts.take (em.expts.length - 1) ++
              [em.counts.getD (em.expts.length - 1) 0]).sum := by simp
        _ = em.counts.sum := by rw [h3]
  have hset : (em.data_offsets ++ [0]).set em.expts.length em.counts.sum
      = em.data_offsets ++ [em.counts.sum] := by
    rw [← hol]; simp
  refine ⟨?_, ?_, ?_⟩
  · rw [counts_AddExperiment]
    simp only [AddExperiment, hraw]
    simp [h.raw_len]
  · rw [counts_AddExperiment]
    simp only [AddExperiment, hraw, hoff, hlast, hset]
    rw [List.length_append, List.length_singleton, List.range_succ, List.map_append, h.offsets]
    congr 1
    · apply List.map_congr_left
      intro i hi
      rw [List.mem_range] at hi
      rw [List.take_append_of_le_length (by omega)]
    · simp [← hcl]
  · rw [counts_AddExperiment]
    simp only [AddExperiment, hraw, hoff, hlast, hset]
    rw [← hol]
    simp [List.getD_eq_getElem?_getD]

theorem registered_AddExperiments (regs : List (SimulatedExperiment × String))
    (em : ExperimentManager) (h : Registered em) :
    Registered (em.AddExperiments regs) ∧
      (em.AddExperiments regs).counts = em.counts ++ regs.map (fun r => r.1.NumMeasuredValues) := by
  induction regs generalizing em with
  | nil => simpa [AddExperiments] using h
  | cons r rest ih =>
    have := ih (em.AddExperiment r.1 r.2) (registered_AddExperiment em r.1 r.2 h)
    simp only [AddExperiments, List.foldl_cons] at this ⊢
    refine ⟨this.1, ?_⟩
    rw [this.2, counts_AddExperiment]
    simp

theorem registered_offset (em : ExperimentManager) (h : Registered em) (i : Nat)
    (hi : i < em.expts.length) : em.data_offsets.getD i 0 = (em.counts.take i).sum := by
  rw [h.offsets, List.getD_eq_getElem?_getD]
  simp [hi]

theorem registered_offsets_length (em : ExperimentManager) (h : Registered em) :
    em.data_offsets.length = em.expts.length := by
  have := congrArg List.length h.offsets
  simpa using this

/-- C1: after any sequence of `AddExperiment` calls on a registry emptied by `Clear`, with
measured-value counts `n`, there is one offset per experiment, `o[0] = 0`,
`o[i+1] = o[i] + n[i]`, and `NumExptData()` is the sum of all `n[i]`. -/
theorem AddExperiment_offsets (em0 : ExperimentManager)
    (regs : List (SimulatedExperiment × String)) :
    ((em0.Clear.AddExperiments regs).data_offsets.length = regs.length) ∧
    ((em0.Clear.AddExperiments regs).data_offsets.getD 0 0 = 0) ∧
    (∀ i, i + 1 < regs.length →
      (em0.Clear.AddExperiments regs).data_offsets.getD (i + 1) 0 =
        (em0.Clear.AddExperiments regs).data_offsets.getD i 0 +
          (regs.map (fun r => r.1.NumMeasuredValues)).getD i 0) ∧
    ((em0.Clear.AddExperiments regs).NumExptData =
      (regs.map (fun r => r.1.NumMeasuredValues)).sum) := by
  obtain ⟨hreg, hcounts⟩ := registered_AddExperiments regs em0.Clear (registered_Clear em0)
  have hc0 : em0.Clear.counts = [] := by simp [Clear, counts]
  rw [hc0, List.nil_append] at hcounts
  have hlen : (em0.Clear.AddExperiments regs).expts.length = regs.length := by
    have := congrArg List.length hcounts
    simpa [counts] using this
  refine ⟨?_, ?_, ?_, ?_⟩
  · rw [registered_offsets_length _ hreg, hlen]
  · by_cases h0 : 0 < regs.length
    · rw [registered_offset _ hreg 0 (by omega)]; simp
    · rw [List.getD_eq_getElem?_getD, List.getElem?_eq_none]
      · rfl
      · rw [registered_offsets_length _ hreg, hlen]; omega
  · intro i hi
    rw [registered_offset _ hreg (i + 1) (by omega), registered_offset _ hreg i (by omega),
      hcounts, List.take_succ]
    have hi2 : i < (regs.map (fun r => r.1.NumMeasuredValues)).length := by
      rw [List.length_map]; omega
    rw [List.getD_eq_getElem?_getD, List.getElem?_eq_getElem hi2]
    simp
  · rw [NumExptData, hreg.total, hcounts]

/-- C1, the scenario of the spec: counts `[3, 2]` give offsets `[0, 3]` and total `5`. -/
theorem AddExperiment_offsets_witness :
    (blank.Clear.AddExperiments [(demoExpt 3 0, "a"), (demoExpt 2 10, "b")]).data_offsets = [0, 3] ∧
    (blank.Clear.AddExperiments [(demoExpt 3 0, "a"), (demoExpt 2 10, "b")]).NumExptData = 5 ∧
    (blank.Clear.AddExperiments [(demoExpt 3 0, "a"), (demoExpt 2 10, "b")]).data_offsets.getD (0 + 1) 0
      = (blank.Clear.AddExperiments [(demoExpt 3 0, "a"), (demoExpt 2 10, "b")]).data_offsets.getD 0 0
        + ([(demoExpt 3 0, "a"), (demoExpt 2 10, "b")].map (fun r => r.1.NumMeasuredValues)).getD 0 0 :=
  ⟨by decide, by decide,
    (AddExperiment_offsets blank [(demoExpt 3 0, "a"), (demoExpt 2 10, "b")]).2.2.1 0 (by decide)⟩

/-! ## Evaluation round, serial build -/

theorem copyOut_succ (tm : List ℚ) (offset : Nat) (raw : List ℚ) (n : Nat) :
    copyOut tm offset raw (n + 1) = (copyOut tm offset raw n).set (offset + n) (raw.getD n 0) := by
  simp [copyOut, List.range_succ, List.foldl_append]

theorem copyOut_length (tm : List ℚ) (offset : Nat) (raw : List ℚ) (n : Nat) :
    (copyOut tm offset raw n).length = tm.length := by
  induction n with
  | zero => simp [copyOut]
  | succ n ih => rw [copyOut_succ, List.length_set, ih]

theorem copyOut_outside (tm : List ℚ) (offset : Nat) (raw : List ℚ) (n p : Nat)
    (hp : p < offset ∨ offset + n ≤ p) : (copyOut tm offset raw n)[p]? = tm[p]? := by
  induction n with
  | zero => simp [copyOut]
  | succ n ih =>
    rw [copyOut_succ, List.getElem?_set_ne (by omega)]
    exact ih (by omega)

theorem copyOut_inside (tm : List ℚ) (offset : Nat) (raw : List ℚ) (n j : Nat)
    (hj : j < n) (hlen : offset + j < tm.length) :
    (copyOut tm offset raw n)[offset + j]? = some (raw.getD j 0) := by
  induction n with
  | zero => omega
  | succ n ih =>
    rw [copyOut_succ]
    by_cases hjn : j = n
    · subst hjn
      rw [List.getElem?_set_self]
      rw [copyOut_length]; exact hlen
    · rw [List.getElem?_set_ne (by omega)]
      exact ih (by omega)

theorem vresize_length {α : Type} (v : List α) (n : Nat) (fill : α) :
    (vresize v n fill).length = n := by
  simp [vresize]; omega

theorem getD_set_ne {α : Type} (l : List α) (i k : Nat) (x d : α) (h : i ≠ k) :
    (l.set i x).getD k d = l.getD k d := by
  rw [List.getD_eq_getElem?_getD, List.getD_eq_getElem?_getD, List.getElem?_set_ne h]

theorem getD_set_self {α : Type} (l : List α) (i : Nat) (x d : α) (h : i < l.length) :
    (l.set i x).getD i d = x := by
  rw [List.getD_eq_getElem?_getD, List.getElem?_set_self h]; rfl

/-- When every remaining experiment succeeds, the serial loop returns `true`, leaves the
entries below the first offset alone and puts each produced buffer at its offset. -/
theorem serialTasks_all_ok (rest : List SimulatedExperiment) :
    ∀ (i : Nat) (em : ExperimentManager) (tm : List ℚ) (base : Nat),
    (∀ k, k < rest.length → em.data_offsets.getD (i + k) 0
        = base + ((rest.map (·.NumMeasuredValues)).take k).sum) →
    i + rest.length ≤ em.raw_data.length →
    base + (rest.map (·.NumMeasuredValues)).sum ≤ tm.length →
    (∀ (k : Nat) (e : SimulatedExperiment), rest[k]? = some e →
      (e.GetMeasurements em.parameter_manager (em.raw_data.getD (i + k) [])).1 = true) →
    (serialTasks rest i em tm).ok = true ∧
    (serialTasks rest i em tm).test_measurements.length = tm.length ∧
    (∀ p, p < base → (serialTasks rest i em tm).test_measurements[p]? = tm[p]?) ∧
    (∀ (k : Nat) (e : SimulatedExperiment), rest[k]? = some e → ∀ j, j < e.NumMeasuredValues →
      (serialTasks rest i em tm).test_measurements[
          base + ((rest.map (·.NumMeasuredValues)).take k).sum + j]?
        = some ((e.GetMeasurements em.parameter_manager
            (em.raw_data.getD (i + k) [])).2.getD j 0)) := by
  induction rest with
  | nil =>
    intro i em tm base _ _ _ _
    simp [serialTasks]
  | cons e rest ih =>
    intro i em tm base hoff hraw hfit hsucc
    have hok : (e.GetMeasurements em.parameter_manager (em.raw_data.getD i [])).1 = true := by
      simpa using hsucc 0 e (by simp)
    have hbase : em.data_offsets.getD i 0 = base := by
      simpa using hoff 0 (by simp)
    have hi : i < em.raw_data.length := by
      simp only [List.length_cons] at hraw; omega
    simp only [List.map_cons, List.sum_cons, List.length_cons] at hfit hraw
    simp only [serialTasks, hok, if_true, hbase, getD_set_self _ _ _ _ hi]
    generalize hbuf : (e.GetMeasurements em.parameter_manager (em.raw_data.getD i [])).2 = buf
    have hstep := ih (i + 1)
      { em with raw_data := em.raw_data.set i buf, calls := em.calls ++ [i] }
      (copyOut tm base buf e.NumMeasuredValues) (base + e.NumMeasuredValues)
      (by
        intro k hk
        have := hoff (k + 1) (by simp; omega)
        simp only [List.map_cons, List.take_succ_cons, List.sum_cons] at this
        rw [show i + 1 + k = i + (k + 1) by omega, this]; omega)
      (by simp only [List.length_set]; omega)
      (by rw [copyOut_length]; omega)
      (by
        intro k e1 hk
        have := hsucc (k + 1) e1 (by simpa using hk)
        simp only [getD_set_ne _ _ _ _ _ (show i ≠ i + 1 + k by omega)]
        rw [show i + 1 + k = i + (k + 1) by omega]; exact this)
    obtain ⟨h1, h2, h3, h4⟩ := hstep
    refine ⟨h1, ?_, ?_, ?_⟩
    · rw [h2, copyOut_length]
    · intro p hp
      rw [h3 p (by omega), copyOut_outside _ _ _ _ _ (Or.inl hp)]
    · intro k e1 hk j hj
      cases k with
      | zero =>
        simp only [List.getElem?_cons_zero, Option.some.injEq] at hk
        subst hk
        simp only [List.take_zero, List.sum_nil, Nat.add_zero]
        rw [h3 _ (by omega), copyOut_inside _ _ _ _ _ hj (by omega), hbuf]
      | succ k =>
        have := h4 k e1 (by simpa using hk) j hj
        simp only [getD_set_ne _ _ _ _ _ (show i ≠ i + 1 + k by omega)] at this
        simp only [List.map_cons, List.take_succ_cons, List.sum_cons]
        rw [show i + (k + 1) = i + 1 + k by omega, ← this]
        congr 1
        omega

/-- When experiment `f` of the remaining ones is the first to fail, the serial loop returns
`false` after invoking exactly the experiments up to and including it, in order. -/
theorem serialTasks_first_failure (rest : List SimulatedExperiment) :
    ∀ (i : Nat) (em : ExperimentManager) (tm : List ℚ) (f : Nat) (e : SimulatedExperiment),
    rest[f]? = some e →
    (e.GetMeasurements em.parameter_manager (em.raw_data.getD (i + f) [])).1 = false →
    (∀ (k : Nat) (e1 : SimulatedExperiment), k < f → rest[k]? = some e1 →
      (e1.GetMeasurements em.parameter_manager (em.raw_data.getD (i + k) [])).1 = true) →
    (serialTasks rest i em tm).ok = false ∧
    (serialTasks rest i em tm).em.calls = em.calls ++ List.range' i (f + 1) := by
  induction rest with
  | nil => intro i em tm f e hf; simp at hf
  | cons e0 rest ih =>
    intro i em tm f e hf hfail hbefore
    cases f with
    | zero =>
      simp only [List.getElem?_cons_zero, Option.some.injEq] at hf
      subst hf
      simp only [Nat.add_zero] at hfail
      simp only [serialTasks, hfail]
      simp
    | succ f =>
      have hok : (e0.GetMeasurements em.parameter_manager (em.raw_data.getD i [])).1 = true := by
        simpa using hbefore 0 e0 (by omega) (by simp)
      simp only [serialTasks, hok, if_true]
      have hstep := ih (i + 1)
        { em with
          raw_data := em.raw_data.set i
            (e0.GetMeasurements em.parameter_manager (em.raw_data.getD i [])).2
          calls := em.calls ++ [i] }
        (copyOut tm (em.data_offsets.getD i 0)
          ((em.raw_data.set i
            (e0.GetMeasurements em.parameter_manager (em.raw_data.getD i [])).2).getD i [])
          e0.NumMeasuredValues) f e (by simpa using hf)
        (by
          simp only [getD_set_ne _ _ _ _ _ (show i ≠ i + 1 + f by omega)]
          rw [show i + 1 + f = i + (f + 1) by omega]; exact hfail)
        (by
          intro k e1 hk hk1
          simp only [getD_set_ne _ _ _ _ _ (show i ≠ i + 1 + k by omega)]
          rw [show i + 1 + k = i + (k + 1) by omega]
          exact hbefore (k + 1) e1 (by omega) (by simpa using hk1))
      refine ⟨hstep.1, ?_⟩
      rw [hstep.2]
      simp [List.range'_succ]

theorem installParams_length (test_params : List ℚ) (pm : List ℚ) :
    (installParams pm test_params).length = pm.length := by
  unfold installParams
  generalize List.range test_params.length = is
  induction is generalizing pm with
  | nil => rfl
  | cons i is ih => rw [List.foldl_cons, ih, List.length_set]

/-- C2: in the serial build, on a registry satisfying the registry invariant, when every
plugin call of the round succeeds, `GenerateTestMeasurements` returns `true` and a vector
of length `NumExptData()` whose entry `o[i] + j` is entry `j` of the buffer plugin `i`
produced, for every experiment `i` and every `j < n[i]`. -/
theorem GenerateTestMeasurements_copies (em : ExperimentManager) (hreg : Registered em)
    (test_params test_measurements : List ℚ)
    (hsucc : ∀ (i : Nat) (e : SimulatedExperiment), em.expts[i]? = some e →
      (em.measured test_params i e).1 = true) :
    (em.GenerateTestMeasurements test_params test_measurements).ok = true ∧
    (em.GenerateTestMeasurements test_params test_measurements).test_measurements.length
      = em.NumExptData ∧
    (∀ (i : Nat) (e : SimulatedExperiment), em.expts[i]? = some e →
      ∀ (j : Nat) (v : ℚ), j < e.NumMeasuredValues →
        (em.measured test_params i e).2[j]? = some v →
        (em.GenerateTestMeasurements test_params test_measurements).test_measurements[
          em.data_offsets.getD i 0 + j]? = some v) := by
  have hrl : em.raw_data.length = em.expts.length := by
    have := congrArg List.length hreg.raw_len
    simpa [counts] using this
  have hmain := serialTasks_all_ok em.expts 0
    { em with
      parameter_manager := installParams em.parameter_manager test_params
      rounds := em.rounds + 1 }
    (vresize test_measurements em.num_expt_data 0) 0
    (by
      intro k hk
      simp only [Nat.zero_add]
      exact registered_offset em hreg k hk)
    (by simp only [Nat.zero_add]; omega)
    (by
      rw [vresize_length, hreg.total]
      simp [counts])
    (by
      intro k e hk
      simp only [Nat.zero_add]
      exact hsucc k e hk)
  obtain ⟨h1, h2, _, h4⟩ := hmain
  refine ⟨h1, ?_, ?_⟩
  · simp only [GenerateTestMeasurements, NumExptData]
    rw [h2, vresize_length]
  · intro i e hi j v hj hv
    have hil : i < em.expts.length := by
      by_contra hcon
      rw [List.getElem?_eq_none (by omega)] at hi
      exact Option.noConfusion hi
    have := h4 i e hi j hj
    simp only [Nat.zero_add] at this
    rw [registered_offset em hreg i hil]
    simp only [GenerateTestMeasurements, NumExptData, counts]
    rw [this]
    simp only [measured] at hv
    rw [List.getD_eq_getElem?_getD, hv]
    rfl

/-- C3: in the serial build, when `f` is the smallest index of an experiment whose
`GetMeasurements` call returns `false`, `GenerateTestMeasurements` returns `false` and the
plugin invocations of the round are exactly those of experiments `0, 1, …, f`, in that order. -/
theorem GenerateTestMeasurements_first_failure (em : ExperimentManager)
    (test_params test_measurements : List ℚ) (f : Nat) (e : SimulatedExperiment)
    (hf : em.expts[f]? = some e)
    (hfail : (em.measured test_params f e).1 = false)
    (hfirst : ∀ (k : Nat) (e1 : SimulatedExperiment), k < f → em.expts[k]? = some e1 →
      (em.measured test_params k e1).1 = true) :
    (em.GenerateTestMeasurements test_params test_measurements).ok = false ∧
    (em.GenerateTestMeasurements test_params test_measurements).em.calls
      = em.calls ++ List.range (f + 1) := by
  have hmain := serialTasks_first_failure em.expts 0
    { em with
      parameter_manager := installParams em.parameter_manager test_params
      rounds := em.rounds + 1 }
    (vresize test_measurements em.num_expt_data 0) f e hf
    (by simpa only [Nat.zero_add] using hfail)
    (by
      intro k e1 hk hk1
      simp only [Nat.zero_add]
      exact hfirst k e1 hk hk1)
  rw [List.range_eq_range']
  exact hmain

theorem demoRegistry_expts : demoRegistry.expts = [demoExpt 3 0, demoExpt 2 10] := rfl

theorem demoRegistry_registered : Registered demoRegistry :=
  (registered_AddExperiments _ _ (registered_Clear _)).1

theorem demoRegistry_measured (x : ℚ) (i : Nat) (e : SimulatedExperiment) :
    demoRegistry.measured [x] i e = e.GetMeasurements [x] (demoRegistry.raw_data.getD i []) := by
  have : installParams demoRegistry.parameter_manager [x] = [x] := by
    simp [installParams, demoRegistry, AddExperiments, AddExperiment, Clear, blank, List.range_succ]
  rw [measured, this]

/-- C2 at the example registry with the parameter value `20`, where both experiments
succeed: the round returns `true` and a vector of `NumExptData()` entries. -/
theorem GenerateTestMeasurements_copies_witness :
    (demoRegistry.GenerateTestMeasurements [20] []).ok = true ∧
    (demoRegistry.GenerateTestMeasurements [20] []).test_measurements.length
      = demoRegistry.NumExptData :=
  have h := GenerateTestMeasurements_copies demoRegistry demoRegistry_registered [20] []
    (by
      intro i e hi
      rw [demoRegistry_measured]
      rw [demoRegistry_expts] at hi
      match i, hi with
      | 0, hi =>
        simp only [List.getElem?_cons_zero, Option.some.injEq] at hi
        subst hi
        norm_num [demoExpt]
      | 1, hi =>
        simp only [List.getElem?_cons_succ, List.getElem?_cons_zero, Option.some.injEq] at hi
        subst hi
        norm_num [demoExpt]
      | (k + 2), hi => simp at hi)
  ⟨h.1, h.2.1⟩

/-- C3 at the example registry with the parameter value `5`, where experiment `0` succeeds
and experiment `1` fails: the round returns `false` after invoking experiments `0` and `1`. -/
theorem GenerateTestMeasurements_first_failure_witness :
    (demoRegistry.GenerateTestMeasurements [5] []).ok = false ∧
    (demoRegistry.GenerateTestMeasurements [5] []).em.calls
      = demoRegistry.calls ++ List.range (1 + 1) :=
  GenerateTestMeasurements_first_failure demoRegistry [5] [] 1 (demoExpt 2 10) rfl
    (by rw [demoRegistry_measured]; norm_num [demoExpt])
    (by
      intro k e1 hk hk1
      have hk0 : k = 0 := by omega
      subst hk0
      rw [demoRegistry_expts] at hk1
      simp only [List.getElem?_cons_zero, Option.some.injEq] at hk1
      subst hk1
      rw [demoRegistry_measured]
      norm_num [demoExpt])

/-- The serial loop changes only `raw_data` and the invocation log of the manager, and
keeps the length of the measurement vector. -/
theorem serialTasks_frame (rest : List SimulatedExperiment) :
    ∀ (i : Nat) (em : ExperimentManager) (tm : List ℚ),
    (serialTasks rest i em tm).test_measurements.length = tm.length ∧
    (serialTasks rest i em tm).em.rounds = em.rounds ∧
    (serialTasks rest i em tm).em.expts = em.expts ∧
    (serialTasks rest i em tm).em.data_offsets = em.data_offsets ∧
    (serialTasks rest i em tm).em.num_expt_data = em.num_expt_data ∧
    (serialTasks rest i em tm).em.parameter_manager = em.parameter_manager ∧
    (serialTasks rest i em tm).em.raw_data.length = em.raw_data.length := by
  induction rest with
  | nil => intro i em tm; simp [serialTasks]
  | cons e rest ih =>
    intro i em tm
    simp only [serialTasks]
    split
    · obtain ⟨h1, h2, h3, h4, h5, h6, h7⟩ := ih (i + 1)
        { em with
          raw_data := em.raw_data.set i
            (e.GetMeasurements em.parameter_manager (em.raw_data.getD i [])).2
          calls := em.calls ++ [i] }
        (copyOut tm (em.data_offsets.getD i 0)
          ((em.raw_data.set i
            (e.GetMeasurements em.parameter_manager (em.raw_data.getD i [])).2).getD i [])
          e.NumMeasuredValues)
      refine ⟨?_, h2, h3, h4, h5, h6, ?_⟩
      · rw [h1, copyOut_length]
      · rw [h7, List.length_set]
    · simp

theorem GenerateTestMeasurements_length (em : ExperimentManager)
    (test_params test_measurements : List ℚ) :
    (em.GenerateTestMeasurements test_params test_measurements).test_measurements.length
      = em.num_expt_data := by
  simp only [GenerateTestMeasurements, NumExptData]
  rw [(serialTasks_frame _ _ _ _).1, vresize_length]

theorem GenerateTestMeasurements_rounds (em : ExperimentManager)
    (test_params test_measurements : List ℚ) :
    (em.GenerateTestMeasurements test_params test_measurements).em.rounds = em.rounds + 1 := by
  simp only [GenerateTestMeasurements]
  rw [(serialTasks_frame _ _ _ _).2.1]

/-- The scan of lines 469-472 answers `true` exactly when no scanned entry is negative. -/
theorem scan_true_iff (dvals : List ℚ) (n : Nat) :
    (List.range n).foldl (fun res id => if dvals.getD id 0 < 0 then false else res) true = true
      ↔ ∀ id, id < n → 0 ≤ dvals.getD id 0 := by
  induction n with
  | zero => simp
  | succ n ih =>
    rw [List.range_succ, List.foldl_append]
    simp only [List.foldl_cons, List.foldl_nil]
    constructor
    · intro h id hid
      by_cases hneg : dvals.getD n 0 < 0
      · rw [if_pos hneg] at h
        exact absurd h (by decide)
      · rw [if_neg hneg] at h
        by_cases hidn : id = n
        · subst hidn; exact not_lt.mp hneg
        · exact ih.mp h id (by omega)
    · intro h
      rw [if_neg (not_lt.mpr (h n (by omega)))]
      exact ih.mpr (fun id hid => h id (by omega))

theorem forall_getD_iff_forall_mem (dvals : List ℚ) :
    (∀ id, id < dvals.length → 0 ≤ dvals.getD id 0) ↔ ∀ d ∈ dvals, 0 ≤ d := by
  constructor
  · intro h d hd
    obtain ⟨id, hid, rfl⟩ := List.getElem_of_mem hd
    have := h id hid
    rwa [List.getD_eq_getElem?_getD, List.getElem?_eq_getElem hid] at this
  · intro h id hid
    rw [List.getD_eq_getElem?_getD, List.getElem?_eq_getElem hid]
    exact h _ (List.getElem_mem hid)

theorem isgoodParamVal_res (em : ExperimentManager) (k : ℚ) (pvals : List ℚ) (idx : Nat) :
    (em.isgoodParamVal k pvals idx).res = true ↔
      ∀ d ∈ (em.GenerateTestMeasurements (pvals.set idx k)
          (List.replicate em.NumExptData 0)).test_measurements, 0 ≤ d := by
  simp only [isgoodParamVal]
  rw [scan_true_iff, ← forall_getD_iff_forall_mem, GenerateTestMeasurements_length]
  rfl

/-- C4: `isgoodParamVal(k, pvals, idx)` stores `k` in `pvals[idx]`, runs one round of
`GenerateTestMeasurements` on `pvals` (into a zeroed vector of `NumExptData()` entries),
and returns `true` exactly when every entry of the vector the round leaves is `≥ 0`. -/
theorem isgoodParamVal_iff (em : ExperimentManager) (k : ℚ) (pvals : List ℚ) (idx : Nat)
    (hidx : idx < pvals.length) :
    (em.isgoodParamVal k pvals idx).pvals = pvals.set idx k ∧
    (em.isgoodParamVal k pvals idx).pvals[idx]? = some k ∧
    (em.isgoodParamVal k pvals idx).em =
      (em.GenerateTestMeasurements (pvals.set idx k) (List.replicate em.NumExptData 0)).em ∧
    (em.isgoodParamVal k pvals idx).em.rounds = em.rounds + 1 ∧
    ((em.isgoodParamVal k pvals idx).res = true ↔
      ∀ d ∈ (em.GenerateTestMeasurements (pvals.set idx k)
          (List.replicate em.NumExptData 0)).test_measurements, 0 ≤ d) := by
  refine ⟨rfl, ?_, rfl, ?_, ?_⟩
  · simp only [isgoodParamVal]
    rw [List.getElem?_set_self hidx]
  · simp only [isgoodParamVal]
    exact GenerateTestMeasurements_rounds _ _ _
  · exact isgoodParamVal_res em k pvals idx

/-- C4 at the example registry: with `pvals = [1]`, `idx = 0` and `k = 20` the call stores
`20`, runs one round and returns `true`, every measurement being `20`. -/
theorem isgoodParamVal_iff_witness :
    (demoRegistry.isgoodParamVal 20 [1] 0).pvals = [20] ∧
    (demoRegistry.isgoodParamVal 20 [1] 0).em.rounds = demoRegistry.rounds + 1 ∧
    ((demoRegistry.isgoodParamVal 20 [1] 0).res = true ↔
      ∀ d ∈ (demoRegistry.GenerateTestMeasurements ([1].set 0 20)
          (List.replicate demoRegistry.NumExptData 0)).test_measurements, 0 ≤ d) :=
  have h := isgoodParamVal_iff demoRegistry 20 [1] 0 (by decide)
  ⟨h.1, h.2.2.2.1, h.2.2.2.2⟩

/-- When experiment `f` of the remaining ones is the first to fail, the serial loop has
written the buffers of the experiments before it at their offsets and nothing else. -/
theorem serialTasks_first_failure_vector (rest : List SimulatedExperiment) :
    ∀ (i : Nat) (em : ExperimentManager) (tm : List ℚ) (base f : Nat) (e : SimulatedExperiment),
    (∀ k, k < rest.length → em.data_offsets.getD (i + k) 0
        = base + ((rest.map (·.NumMeasuredValues)).take k).sum) →
    i + rest.length ≤ em.raw_data.length →
    base + (rest.map (·.NumMeasuredValues)).sum ≤ tm.length →
    rest[f]? = some e →
    (e.GetMeasurements em.parameter_manager (em.raw_data.getD (i + f) [])).1 = false →
    (∀ (k : Nat) (e1 : SimulatedExperiment), k < f → rest[k]? = some e1 →
      (e1.GetMeasurements em.parameter_manager (em.raw_data.getD (i + k) [])).1 = true) →
    (∀ p, p < base ∨ base + ((rest.map (·.NumMeasuredValues)).take f).sum ≤ p →
      (serialTasks rest i em tm).test_measurements[p]? = tm[p]?) ∧
    (∀ (k : Nat) (e1 : SimulatedExperiment), k < f → rest[k]? = some e1 →
      ∀ j, j < e1.NumMeasuredValues →
      (serialTasks rest i em tm).test_measurements[
          base + ((rest.map (·.NumMeasuredValues)).take k).sum + j]?
        = some ((e1.GetMeasurements em.parameter_manager
            (em.raw_data.getD (i + k) [])).2.getD j 0)) := by
  induction rest with
  | nil => intro i em tm base f e _ _ _ hf; simp at hf
  | cons e0 rest ih =>
    intro i em tm base f e hoff hraw hfit hf hfail hbefore
    cases f with
    | zero =>
      simp only [List.getElem?_cons_zero, Option.some.injEq] at hf
      subst hf
      simp only [Nat.add_zero] at hfail
      simp only [serialTasks, hfail]
      refine ⟨fun p _ => by simp, fun k e1 hk => by omega⟩
    | succ f =>
      have hok : (e0.GetMeasurements em.parameter_manager (em.raw_data.getD i [])).1 = true := by
        simpa using hbefore 0 e0 (by omega) (by simp)
      have hbase : em.data_offsets.getD i 0 = base := by
        simpa using hoff 0 (by simp)
      have hi : i < em.raw_data.length := by
        simp only [List.length_cons] at hraw; omega
      simp only [List.map_cons, List.sum_cons, List.length_cons] at hfit hraw
      simp only [serialTasks, hok, if_true, hbase, getD_set_self _ _ _ _ hi]
      generalize hbuf : (e0.GetMeasurements em.parameter_manager (em.raw_data.getD i [])).2 = buf
      have hstep := ih (i + 1)
        { em with raw_data := em.raw_data.set i buf, calls := em.calls ++ [i] }
        (copyOut tm base buf e0.NumMeasuredValues) (base + e0.NumMeasuredValues) f e
        (by
          intro k hk
          have := hoff (k + 1) (by simp; omega)
          simp only [List.map_cons, List.take_succ_cons, List.sum_cons] at this
          rw [show i + 1 + k = i + (k + 1) by omega, this]; omega)
        (by simp only [List.length_set]; omega)
        (by rw [copyOut_length]; omega)
        (by simpa using hf)
        (by
          simp only [getD_set_ne _ _ _ _ _ (show i ≠ i + 1 + f by omega)]
          rw [show i + 1 + f = i + (f + 1) by omega]; exact hfail)
        (by
          intro k e1 hk hk1
          simp only [getD_set_ne _ _ _ _ _ (show i ≠ i + 1 + k by omega)]
          rw [show i + 1 + k = i + (k + 1) by omega]
          exact hbefore (k + 1) e1 (by omega) (by simpa using hk1))
      obtain ⟨h1, h2⟩ := hstep
      simp only [List.map_cons, List.take_succ_cons, List.sum_cons]
      refine ⟨?_, ?_⟩
      · intro p hp
        rw [h1 p (by omega), copyOut_outside _ _ _ _ _ (by omega)]
      · intro k e1 hk hk1 j hj
        cases k with
        | zero =>
          simp only [List.getElem?_cons_zero, Option.some.injEq] at hk1
          subst hk1
          simp only [List.take_zero, List.sum_nil, Nat.add_zero]
          rw [h1 _ (by omega), copyOut_inside _ _ _ _ _ hj (by omega), hbuf]
        | succ k =>
          have := h2 k e1 (by omega) (by simpa using hk1) j hj
          simp only [getD_set_ne _ _ _ _ _ (show i ≠ i + 1 + k by omega)] at this
          simp only [List.take_succ_cons, List.sum_cons]
          rw [show i + (k + 1) = i + 1 + k by omega, ← this]
          congr 1
          omega

/-- Every position below the sum of the first `f` counts lies in the slice of one of the
first `f` experiments. -/
theorem slice_of_lt (ns : List Nat) (f p : Nat) (hp : p < (ns.take f).sum) :
    ∃ i j, i < f ∧ i < ns.length ∧ j < ns.getD i 0 ∧ p = (ns.take i).sum + j := by
  induction f with
  | zero => simp at hp
  | succ f ih =>
    by_cases hlt : p < (ns.take f).sum
    · obtain ⟨i, j, hi, hil, hj, hpe⟩ := ih hlt
      exact ⟨i, j, by omega, hil, hj, hpe⟩
    · by_cases hf : f < ns.length
      · rw [List.take_succ, List.getElem?_eq_getElem hf] at hp
        simp only [Option.toList_some, List.sum_append, List.sum_cons, List.sum_nil,
          Nat.add_zero] at hp
        refine ⟨f, p - (ns.take f).sum, by omega, hf, ?_, by omega⟩
        rw [List.getD_eq_getElem?_getD, List.getElem?_eq_getElem hf]
        simp only [Option.getD_some]
        omega
      · rw [List.take_of_length_le (by omega)] at hp
        rw [List.take_of_length_le (by omega)] at hlt
        exact absurd hp hlt

theorem counts_getD (em : ExperimentManager) (i : Nat) (e : SimulatedExperiment)
    (h : em.expts[i]? = some e) : em.counts.getD i 0 = e.NumMeasuredValues := by
  simp [counts, List.getD_eq_getElem?_getD, h]

/-- C5, as the code has it in the sequential build (without `BL_USE_MPI`, where the round
is the serial loop of lines 434-440): `isgoodParamVal` does not look at the flag the round
returns.  On a registry satisfying the registry invariant, when experiment `f` is the first
whose `GetMeasurements` call returns `false`, the serial round reports `ok = false` and
`isgoodParamVal` returns `true` exactly when every value measured by the experiments
before `f` is `≥ 0`. -/
theorem isgoodParamVal_failed_round (em : ExperimentManager) (hreg : Registered em)
    (k : ℚ) (pvals : List ℚ) (idx f : Nat) (e : SimulatedExperiment)
    (hf : em.expts[f]? = some e)
    (hfail : (em.measured (pvals.set idx k) f e).1 = false)
    (hfirst : ∀ (i : Nat) (e1 : SimulatedExperiment), i < f → em.expts[i]? = some e1 →
      (em.measured (pvals.set idx k) i e1).1 = true) :
    (em.GenerateTestMeasurements (pvals.set idx k) (List.replicate em.NumExptData 0)).ok = false ∧
    ((em.isgoodParamVal k pvals idx).res = true ↔
      ∀ (i : Nat) (e1 : SimulatedExperiment), i < f → em.expts[i]? = some e1 →
        ∀ j, j < e1.NumMeasuredValues → 0 ≤ (em.measured (pvals.set idx k) i e1).2.getD j 0) := by
  have hrl : em.raw_data.length = em.expts.length := by
    have := congrArg List.length hreg.raw_len
    simpa [counts] using this
  have hfail1 : (e.GetMeasurements (installParams em.parameter_manager (pvals.set idx k))
      (em.raw_data.getD (0 + f) [])).1 = false := by
    simpa only [Nat.zero_add] using hfail
  have hfirst1 : ∀ (i : Nat) (e1 : SimulatedExperiment), i < f → em.expts[i]? = some e1 →
      (e1.GetMeasurements (installParams em.parameter_manager (pvals.set idx k))
        (em.raw_data.getD (0 + i) [])).1 = true := by
    intro i e1 hi hi1
    simp only [Nat.zero_add]
    exact hfirst i e1 hi hi1
  have hok := (serialTasks_first_failure em.expts 0
    { em with
      parameter_manager := installParams em.parameter_manager (pvals.set idx k)
      rounds := em.rounds + 1 }
    (vresize (List.replicate em.num_expt_data 0) em.num_expt_data 0) f e hf hfail1 hfirst1).1
  have hvec := serialTasks_first_failure_vector em.expts 0
    { em with
      parameter_manager := installParams em.parameter_manager (pvals.set idx k)
      rounds := em.rounds + 1 }
    (vresize (List.replicate em.num_expt_data 0) em.num_expt_data 0) 0 f e
    (by
      intro i hi
      simp only [Nat.zero_add]
      exact registered_offset em hreg i hi)
    (by simp only [Nat.zero_add]; omega)
    (by
      rw [vresize_length, hreg.total]
      simp [counts])
    hf hfail1 hfirst1
  obtain ⟨hout, hin⟩ := hvec
  simp only [Nat.zero_add] at hout hin
  refine ⟨hok, ?_⟩
  rw [isgoodParamVal_res]
  constructor
  · intro h i e1 hi hi1 j hj
    have := hin i e1 hi hi1 j hj
    exact h _ (List.getElem?_mem this)
  · intro h d hd
    obtain ⟨p, hget⟩ := List.mem_iff_getElem?.mp hd
    simp only [GenerateTestMeasurements, NumExptData] at hget
    by_cases hlt : p < ((em.expts.map (·.NumMeasuredValues)).take f).sum
    · obtain ⟨i, j, hi, hil, hj, hpe⟩ := slice_of_lt _ f p hlt
      rw [List.length_map] at hil
      have hi1 : em.expts[i]? = some em.expts[i] := List.getElem?_eq_getElem hil
      have hn : (em.expts.map (·.NumMeasuredValues)).getD i 0 = em.expts[i].NumMeasuredValues :=
        counts_getD em i _ hi1
      rw [hn] at hj
      have h1 := hin i _ hi hi1 j hj
      rw [← hpe, hget] at h1
      have h2 := h i _ hi hi1 j hj
      rw [Option.some.inj h1]
      exact h2
    · have h1 := hout p (Or.inr (by omega))
      rw [hget] at h1
      have hp1 : p < em.num_expt_data := by
        by_contra hcon
        rw [List.getElem?_eq_none (by rw [vresize_length]; omega)] at h1
        exact Option.noConfusion h1
      have h0 : (vresize (List.replicate em.num_expt_data (0 : ℚ)) em.num_expt_data 0)[p]?
          = some 0 := by
        simp [vresize, hp1]
      rw [h0] at h1
      rw [Option.some.inj h1]

/-- C5 as amended, at the example registry with `k = 5` in the sequential build:
experiment `1` is the first to fail, the round reports `ok = false`, and the verdict is
decided by the values of experiment `0` alone. -/
theorem isgoodParamVal_failed_round_witness :
    (demoRegistry.GenerateTestMeasurements ([1].set 0 5)
      (List.replicate demoRegistry.NumExptData 0)).ok = false ∧
    ((demoRegistry.isgoodParamVal 5 [1] 0).res = true ↔
      ∀ (i : Nat) (e1 : SimulatedExperiment), i < 1 → demoRegistry.expts[i]? = some e1 →
        ∀ j, j < e1.NumMeasuredValues →
          0 ≤ (demoRegistry.measured ([1].set 0 5) i e1).2.getD j 0) :=
  isgoodParamVal_failed_round demoRegistry demoRegistry_registered 5 [1] 0 1 (demoExpt 2 10) rfl
    (by
      rw [show ([1] : List ℚ).set 0 5 = [5] from rfl, demoRegistry_measured]
      norm_num [demoExpt])
    (by
      intro i e1 hi hi1
      have hi0 : i = 0 := by omega
      subst hi0
      rw [demoRegistry_expts] at hi1
      simp only [List.getElem?_cons_zero, Option.some.injEq] at hi1
      subst hi1
      rw [show ([1] : List ℚ).set 0 5 = [5] from rfl, demoRegistry_measured]
      norm_num [demoExpt])

/-- C5, the claim as stated fails in the sequential build: at the example registry with
`k = 5` experiment `0` succeeds with the values `5, 5, 5`, experiment `1` fails, the round
reports `ok = false`, and `isgoodParamVal` returns `true`. -/
theorem isgoodParamVal_failed_round_counterexample :
    ¬ (∀ (em : ExperimentManager) (k : ℚ) (pvals : List ℚ) (idx : Nat),
        (em.GenerateTestMeasurements (pvals.set idx k)
          (List.replicate em.NumExptData 0)).ok = false →
        (em.isgoodParamVal k pvals idx).res = false) := by
  intro h
  have hok : (demoRegistry.GenerateTestMeasurements ([1].set 0 5)
      (List.replicate demoRegistry.NumExptData 0)).ok = false := by
    norm_num [GenerateTestMeasurements, serialTasks, demoRegistry_expts, demoExpt, installParams,
      demoRegistry, AddExperiments, AddExperiment, Clear, blank, List.range_succ]
  have hres : (demoRegistry.isgoodParamVal 5 [1] 0).res = true := by
    norm_num [isgoodParamVal, GenerateTestMeasurements, serialTasks, demoExpt, installParams,
      demoRegistry, AddExperiments, AddExperiment, Clear, blank, List.range_succ, copyOut,
      vresize, NumExptData]
  rw [h demoRegistry 5 [1] 0 hok] at hres
  exact absurd hres (by decide)

/-! ## Bisection search -/

theorem reach_call (em : ExperimentManager) (pvals : List ℚ) (idx : Nat)
    (e : ExperimentManager) (p : List ℚ) (k : ℚ) (h : Reach em pvals idx e p) :
    Reach em pvals idx (e.isgoodParamVal k p idx).em (e.isgoodParamVal k p idx).pvals :=
  Reach.call e p k h

/-- The upper loop, entered with a valid `k1` and an invalid `k2`, leaves a bracket with a
valid `k1`, an invalid `k2` and width at most `tol`, once `fuel` passes suffice to halve
the starting width down to `tol`. -/
theorem bisect_kmax_spec (em : ExperimentManager) (pvals : List ℚ) (idx : Nat)
    (valid : ℚ → Bool) (hdet : DeterministicOracle em pvals idx valid) (tol : ℚ) :
    ∀ (fuel : Nat) (k1 k2 : ℚ) (p : List ℚ) (e : ExperimentManager),
    Reach em pvals idx e p → valid k1 = true → valid k2 = false →
    1 ≤ fuel → k2 - k1 ≤ tol * 2 ^ fuel →
    ∃ b, bisect_kmax idx tol fuel k1 k2 p e = some b ∧ valid b.k1 = true ∧
      valid b.k2 = false ∧ b.k2 - b.k1 ≤ tol ∧ Reach em pvals idx b.em b.pvals := by
  intro fuel
  induction fuel with
  | zero => intro k1 k2 p e _ _ _ h1; omega
  | succ fuel ih =>
    intro k1 k2 p e hr hk1 hk2 _ hw
    have hres := hdet e p hr ((k2 + k1) * 0.5)
    have hr1 := reach_call em pvals idx e p ((k2 + k1) * 0.5) hr
    have hhalf : (k2 - k1) / 2 ≤ tol * 2 ^ fuel := by
      rw [pow_succ] at hw; linarith
    have hfuel : ∀ d : ℚ, d ≤ tol * 2 ^ fuel → d > tol → 1 ≤ fuel := by
      intro d hd hgt
      by_contra hcon
      have : fuel = 0 := by omega
      subst this
      simp only [pow_zero, mul_one] at hd
      linarith
    simp only [bisect_kmax, hres]
    cases hv : valid ((k2 + k1) * 0.5)
    · have hd : (k2 + k1) * 0.5 - k1 = (k2 - k1) / 2 := by norm_num; ring
      simp only [Bool.false_eq_true, if_false]
      split
      · next hgt =>
        exact ih k1 ((k2 + k1) * 0.5) _ _ hr1 hk1 hv
          (hfuel _ (by rw [hd]; exact hhalf) hgt) (by rw [hd]; exact hhalf)
      · next hle =>
        exact ⟨_, rfl, hk1, hv, not_lt.mp hle, hr1⟩
    · have hd : k2 - (k2 + k1) * 0.5 = (k2 - k1) / 2 := by norm_num; ring
      simp only [if_true]
      split
      · next hgt =>
        exact ih ((k2 + k1) * 0.5) k2 _ _ hr1 hv hk2
          (hfuel _ (by rw [hd]; exact hhalf) hgt) (by rw [hd]; exact hhalf)
      · next hle =>
        exact ⟨_, rfl, hv, hk2, not_lt.mp hle, hr1⟩

/-- The lower loop, entered with an invalid `k1` and a valid `k2`, leaves a bracket with an
invalid `k1`, a valid `k2` and width at most `tol`, once `fuel` passes suffice to halve
the starting width down to `tol`. -/
theorem bisect_kmin_spec (em : ExperimentManager) (pvals : List ℚ) (idx : Nat)
    (valid : ℚ → Bool) (hdet : DeterministicOracle em pvals idx valid) (tol : ℚ) :
    ∀ (fuel : Nat) (k1 k2 : ℚ) (p : List ℚ) (e : ExperimentManager),
    Reach em pvals idx e p → valid k1 = false → valid k2 = true →
    1 ≤ fuel → k2 - k1 ≤ tol * 2 ^ fuel →
    ∃ b, bisect_kmin idx tol fuel k1 k2 p e = some b ∧ valid b.k1 = false ∧
      valid b.k2 = true ∧ b.k2 - b.k1 ≤ tol ∧ Reach em pvals idx b.em b.pvals := by
  intro fuel
  induction fuel with
  | zero => intro k1 k2 p e _ _ _ h1; omega
  | succ fuel ih =>
    intro k1 k2 p e hr hk1 hk2 _ hw
    have hres := hdet e p hr ((k2 + k1) * 0.5)
    have hr1 := reach_call em pvals idx e p ((k2 + k1) * 0.5) hr
    have hhalf : (k2 - k1) / 2 ≤ tol * 2 ^ fuel := by
      rw [pow_succ] at hw; linarith
    have hfuel : ∀ d : ℚ, d ≤ tol * 2 ^ fuel → d > tol → 1 ≤ fuel := by
      intro d hd hgt
      by_contra hcon
      have : fuel = 0 := by omega
      subst this
      simp only [pow_zero, mul_one] at hd
      linarith
    simp only [bisect_kmin, hres]
    cases hv : valid ((k2 + k1) * 0.5)
    · have hd : k2 - (k2 + k1) * 0.5 = (k2 - k1) / 2 := by norm_num; ring
      simp only [Bool.false_eq_true, if_false]
      split
      · next hgt =>
        exact ih ((k2 + k1) * 0.5) k2 _ _ hr1 hv hk2
          (hfuel _ (by rw [hd]; exact hhalf) hgt) (by rw [hd]; exact hhalf)
      · next hle =>
        exact ⟨_, rfl, hv, hk2, not_lt.mp hle, hr1⟩
    · have hd : (k2 + k1) * 0.5 - k1 = (k2 - k1) / 2 := by norm_num; ring
      simp only [if_true]
      split
      · next hgt =>
        exact ih k1 ((k2 + k1) * 0.5) _ _ hr1 hk1 hv
          (hfuel _ (by rw [hd]; exact hhalf) hgt) (by rw [hd]; exact hhalf)
      · next hle =>
        exact ⟨_, rfl, hk1, hv, not_lt.mp hle, hr1⟩

/-- For a positive `tol` some number of halvings brings any width down to `tol`, and so
does every larger number. -/
theorem exists_fuel (w tol : ℚ) (htol : 0 < tol) :
    ∃ N : Nat, 1 ≤ N ∧ ∀ fuel, N ≤ fuel → w ≤ tol * 2 ^ fuel := by
  obtain ⟨n, hn⟩ := pow_unbounded_of_one_lt (w / tol) (one_lt_two : (1 : ℚ) < 2)
  refine ⟨n + 1, by omega, ?_⟩
  intro fuel hfuel
  have h1 : (2 : ℚ) ^ n ≤ 2 ^ fuel := pow_le_pow_right₀ (by norm_num) (by omega)
  have h2 : w / tol < 2 ^ fuel := lt_of_lt_of_le hn h1
  rw [div_lt_iff₀ htol] at h2
  linarith

/-- The first half of `get_param_limits` from a reachable state, with `ktyp` valid: it
returns, a valid `kmax` is left alone, and an invalid one is replaced by the valid end `k1`
of a bracket whose other end `k2` is invalid and at most `tol` away. -/
theorem limit_kmax_spec (em : ExperimentManager) (pvals : List ℚ) (idx : Nat)
    (valid : ℚ → Bool) (hdet : DeterministicOracle em pvals idx valid) (kmax ktyp tol : ℚ)
    (hktyp : valid ktyp = true) (fuel : Nat) (hfuel : 1 ≤ fuel)
    (hw : kmax - ktyp ≤ tol * 2 ^ fuel) (e : ExperimentManager) (p : List ℚ)
    (hr : Reach em pvals idx e p) :
    ∃ out, e.limit_kmax kmax ktyp tol p idx fuel = some out ∧
      Reach em pvals idx out.2.2 out.2.1 ∧
      (valid kmax = true → out.1 = kmax) ∧
      (valid kmax = false → valid out.1 = true ∧
        ∃ k2, valid k2 = false ∧ k2 - out.1 ≤ tol) := by
  have hres := hdet e p hr kmax
  have hr1 := reach_call em pvals idx e p kmax hr
  simp only [limit_kmax, hres]
  cases hv : valid kmax
  · obtain ⟨b, hb, hb1, hb2, hb3, hb4⟩ := bisect_kmax_spec em pvals idx valid hdet tol fuel
      ktyp kmax _ _ hr1 hktyp hv hfuel hw
    simp only [Bool.not_false, if_true, hb, Option.map_some']
    exact ⟨_, rfl, hb4, fun h => absurd h (by decide), fun _ => ⟨hb1, b.k2, hb2, hb3⟩⟩
  · simp only [Bool.not_true, Bool.false_eq_true, if_false]
    exact ⟨_, rfl, hr1, fun _ => rfl, fun h => absurd h (by decide)⟩

/-- The second half of `get_param_limits` from a reachable state, with `ktyp` valid: it
returns, a valid `kmin` is left alone, and an invalid one is replaced by the valid end `k2`
of the bracket the lower loop exits with, whose other end `k1` is invalid and at most `tol`
away. -/
theorem limit_kmin_spec (em : ExperimentManager) (pvals : List ℚ) (idx : Nat)
    (valid : ℚ → Bool) (hdet : DeterministicOracle em pvals idx valid) (kmin ktyp tol : ℚ)
    (hktyp : valid ktyp = true) (fuel : Nat) (hfuel : 1 ≤ fuel)
    (hw : ktyp - kmin ≤ tol * 2 ^ fuel) (e : ExperimentManager) (p : List ℚ)
    (hr : Reach em pvals idx e p) :
    ∃ out, e.limit_kmin kmin ktyp tol p idx fuel = some out ∧
      Reach em pvals idx out.2.2 out.2.1 ∧
      (valid kmin = true → out.1 = kmin) ∧
      (valid kmin = false → valid out.1 = true ∧
        ∃ b e1 p1, Reach em pvals idx e1 p1 ∧
          bisect_kmin idx tol fuel kmin ktyp p1 e1 = some b ∧ out.1 = b.k2 ∧
          valid b.k1 = false ∧ b.k2 - b.k1 ≤ tol) := by
  have hres := hdet e p hr kmin
  have hr1 := reach_call em pvals idx e p kmin hr
  simp only [limit_kmin, hres]
  cases hv : valid kmin
  · obtain ⟨b, hb, hb1, hb2, hb3, hb4⟩ := bisect_kmin_spec em pvals idx valid hdet tol fuel
      kmin ktyp _ _ hr1 hv hktyp hfuel hw
    simp only [Bool.not_false, if_true, hb, Option.map_some']
    exact ⟨_, rfl, hb4, fun h => absurd h (by decide),
      fun _ => ⟨hb2, b, _, _, hr1, hb, rfl, hb1, hb3⟩⟩
  · simp only [Bool.not_true, Bool.false_eq_true, if_false]
    exact ⟨_, rfl, hr1, fun _ => rfl, fun h => absurd h (by decide)⟩

/-- With a deterministic oracle, `ktyp` valid and `tol > 0`, `get_param_limits` returns once
the fuel suffices for both loops, and its two results are those of its two halves. -/
theorem get_param_limits_spec (em : ExperimentManager) (kmin kmax ktyp tol : ℚ)
    (pvals : List ℚ) (idx : Nat) (valid : ℚ → Bool)
    (hdet : DeterministicOracle em pvals idx valid) (htol : 0 < tol)
    (hktyp : valid ktyp = true) :
    ∃ N : Nat, ∀ fuel, N ≤ fuel →
      ∃ L, em.get_param_limits kmin kmax ktyp tol pvals idx fuel = some L ∧
        L.ktyp = ktyp ∧
        (valid kmax = true → L.kmax = kmax) ∧
        (valid kmax = false → valid L.kmax = true ∧
          ∃ k2, valid k2 = false ∧ k2 - L.kmax ≤ tol) ∧
        (valid kmin = true → L.kmin = kmin) ∧
        (valid kmin = false → valid L.kmin = true ∧
          ∃ b e1 p1, Reach em pvals idx e1 p1 ∧
            bisect_kmin idx tol fuel kmin ktyp p1 e1 = some b ∧ L.kmin = b.k2 ∧
            valid b.k1 = false ∧ b.k2 - b.k1 ≤ tol) := by
  obtain ⟨N1, hN1, hf1⟩ := exists_fuel (kmax - ktyp) tol htol
  obtain ⟨N2, hN2, hf2⟩ := exists_fuel (ktyp - kmin) tol htol
  refine ⟨max N1 N2, ?_⟩
  intro fuel hfuel
  have h1 : N1 ≤ fuel := le_trans (le_max_left _ _) hfuel
  have h2 : N2 ≤ fuel := le_trans (le_max_right _ _) hfuel
  obtain ⟨out1, ho1, hr1, ha1, hb1⟩ := limit_kmax_spec em pvals idx valid hdet kmax ktyp tol
    hktyp fuel (by omega) (hf1 fuel h1) em pvals Reach.start
  obtain ⟨out2, ho2, _, ha2, hb2⟩ := limit_kmin_spec em pvals idx valid hdet kmin ktyp tol
    hktyp fuel (by omega) (hf2 fuel h2) out1.2.2 out1.2.1 hr1
  refine ⟨⟨out2.1, out1.1, ktyp, out2.2.1, out2.2.2⟩, ?_, rfl, ha1, hb1, ha2, hb2⟩
  simp only [get_param_limits, ho1, ho2]

/-- With nothing to measure (`NumExptData() = 0`) the oracle answers `true` at every value. -/
theorem deterministic_of_no_data (em : ExperimentManager) (pvals : List ℚ) (idx : Nat)
    (h0 : em.num_expt_data = 0) : DeterministicOracle em pvals idx allValid := by
  have hinv : ∀ e p, Reach em pvals idx e p → e.num_expt_data = 0 := by
    intro e p hr
    induction hr with
    | start => exact h0
    | call e1 p1 k _ ih =>
      simp only [isgoodParamVal, GenerateTestMeasurements]
      rw [(serialTasks_frame _ _ _ _).2.2.2.2.1]
      exact ih
  intro e p hr k
  simp [isgoodParamVal, NumExptData, hinv e p hr, allValid]

/-- What every state reachable from `premixRegistry` with `pvals = [5]`, `idx = 0` looks like. -/
theorem premix_reach (e : ExperimentManager) (p : List ℚ)
    (hr : Reach premixRegistry [5] 0 e p) :
    e.expts = [demoPremix] ∧ e.data_offsets = [0] ∧ e.num_expt_data = 1 ∧
      e.raw_data.length = 1 ∧ e.parameter_manager.length = 1 ∧ p.length = 1 := by
  induction hr with
  | start => exact ⟨rfl, rfl, rfl, rfl, rfl, rfl⟩
  | call e1 p1 k _ ih =>
    obtain ⟨h1, h2, h3, h4, h5, h6⟩ := ih
    obtain ⟨_, _, f3, f4, f5, f6, f7⟩ := serialTasks_frame e1.expts 0
      { e1 with
        parameter_manager := installParams e1.parameter_manager (p1.set 0 k)
        rounds := e1.rounds + 1 }
      (vresize (List.replicate e1.num_expt_data 0) e1.num_expt_data 0)
    simp only [isgoodParamVal, GenerateTestMeasurements, NumExptData]
    refine ⟨f3.trans h1, f4.trans h2, f5.trans h3, f7.trans h4, ?_, ?_⟩
    · rw [f6]
      simp only [installParams_length]
      exact h5
    · rw [List.length_set]; exact h6

/-- The oracle on `premixRegistry` is deterministic with the verdicts `premixValid`. -/
theorem premix_deterministic : DeterministicOracle premixRegistry [5] 0 premixValid := by
  intro e p hr k
  obtain ⟨h1, h2, h3, h4, h5, h6⟩ := premix_reach e p hr
  obtain ⟨x, hx⟩ := List.length_eq_one.mp h6
  obtain ⟨y, hy⟩ := List.length_eq_one.mp h5
  obtain ⟨b, hb⟩ := List.length_eq_one.mp h4
  subst hx
  by_cases hk : 1 ≤ k ∧ k ≤ 10
  · have hk0 : ¬ k < 0 := by linarith [hk.1]
    simp [isgoodParamVal, GenerateTestMeasurements, NumExptData, serialTasks, installParams,
      copyOut, vresize, demoPremix, premixValid, h1, h2, h3, hy, hb, hk, hk0, List.range_succ]
  · simp [isgoodParamVal, GenerateTestMeasurements, NumExptData, serialTasks, installParams,
      copyOut, vresize, demoPremix, premixValid, h1, h2, h3, hy, hb, hk, List.range_succ]

/-- What oracle calls leave alone: the registry, the offsets, the total and the sizes of
the buffers, of the parameter store and of `pvals`. -/
theorem reach_frame (em : ExperimentManager) (pvals : List ℚ) (idx : Nat)
    (e : ExperimentManager) (p : List ℚ) (hr : Reach em pvals idx e p) :
    e.expts = em.expts ∧ e.data_offsets = em.data_offsets ∧
      e.num_expt_data = em.num_expt_data ∧ e.raw_data.length = em.raw_data.length ∧
      e.parameter_manager.length = em.parameter_manager.length ∧ p.length = pvals.length := by
  induction hr with
  | start => exact ⟨rfl, rfl, rfl, rfl, rfl, rfl⟩
  | call e1 p1 k _ ih =>
    obtain ⟨h1, h2, h3, h4, h5, h6⟩ := ih
    obtain ⟨_, _, f3, f4, f5, f6, f7⟩ := serialTasks_frame e1.expts 0
      { e1 with
        parameter_manager := installParams e1.parameter_manager (p1.set idx k)
        rounds := e1.rounds + 1 }
      (vresize (List.replicate e1.num_expt_data 0) e1.num_expt_data 0)
    simp only [isgoodParamVal, GenerateTestMeasurements, NumExptData]
    refine ⟨f3.trans h1, f4.trans h2, f5.trans h3, f7.trans h4, ?_, ?_⟩
    · rw [f6]
      simp only [installParams_length]
      exact h5
    · rw [List.length_set]; exact h6

/-- The oracle on `flatRegistry` is deterministic and accepts every value. -/
theorem flat_oracle : DeterministicOracle flatRegistry [5] 0 allValid := by
  intro e p hr k
  obtain ⟨h1, h2, h3, h4, h5, h6⟩ := reach_frame flatRegistry [5] 0 e p hr
  have g1 : e.expts = [demoFlat] := h1
  have g2 : e.data_offsets = [0] := h2
  have g3 : e.num_expt_data = 1 := h3
  obtain ⟨x, hx⟩ := List.length_eq_one.mp (h6.trans rfl)
  obtain ⟨y, hy⟩ := List.length_eq_one.mp (h5.trans rfl)
  obtain ⟨b, hb⟩ := List.length_eq_one.mp (h4.trans rfl)
  subst hx
  simp [isgoodParamVal, GenerateTestMeasurements, NumExptData, serialTasks, installParams,
    copyOut, vresize, demoFlat, allValid, g1, g2, g3, hy, hb, List.range_succ]

/-- Whatever the oracle answers, the upper loop entered with `k1 < k2` leaves a bracket of
positive width inside `[k1, k2]`. -/
theorem bisect_kmax_pos (idx : Nat) (tol : ℚ) :
    ∀ (fuel : Nat) (k1 k2 : ℚ) (p : List ℚ) (e : ExperimentManager) (b : Bracket),
    k1 < k2 → bisect_kmax idx tol fuel k1 k2 p e = some b →
    b.k1 < b.k2 ∧ k1 ≤ b.k1 ∧ b.k2 ≤ k2 := by
  intro fuel
  induction fuel with
  | zero => intro k1 k2 p e b _ h; simp [bisect_kmax] at h
  | succ fuel ih =>
    intro k1 k2 p e b hlt h
    have hm1 : k1 < (k2 + k1) * 0.5 := by norm_num; linarith
    have hm2 : (k2 + k1) * 0.5 < k2 := by norm_num; linarith
    rw [bisect_kmax] at h
    cases hres : (e.isgoodParamVal ((k2 + k1) * 0.5) p idx).res <;>
      simp only [hres, if_true, Bool.false_eq_true, if_false] at h
    · split at h
      · obtain ⟨g1, g2, g3⟩ := ih _ _ _ _ _ hm1 h
        exact ⟨g1, g2, le_trans g3 (le_of_lt hm2)⟩
      · obtain rfl := Option.some.inj h
        exact ⟨hm1, le_refl _, le_of_lt hm2⟩
    · split at h
      · obtain ⟨g1, g2, g3⟩ := ih _ _ _ _ _ hm2 h
        exact ⟨g1, le_trans (le_of_lt hm1) g2, g3⟩
      · obtain rfl := Option.some.inj h
        exact ⟨hm2, le_of_lt hm1, le_refl _⟩

/-- Whatever the oracle answers, the lower loop entered with `k1 < k2` leaves a bracket of
positive width inside `[k1, k2]`. -/
theorem bisect_kmin_pos (idx : Nat) (tol : ℚ) :
    ∀ (fuel : Nat) (k1 k2 : ℚ) (p : List ℚ) (e : ExperimentManager) (b : Bracket),
    k1 < k2 → bisect_kmin idx tol fuel k1 k2 p e = some b →
    b.k1 < b.k2 ∧ k1 ≤ b.k1 ∧ b.k2 ≤ k2 := by
  intro fuel
  induction fuel with
  | zero => intro k1 k2 p e b _ h; simp [bisect_kmin] at h
  | succ fuel ih =>
    intro k1 k2 p e b hlt h
    have hm1 : k1 < (k2 + k1) * 0.5 := by norm_num; linarith
    have hm2 : (k2 + k1) * 0.5 < k2 := by norm_num; linarith
    rw [bisect_kmin] at h
    cases hres : (e.isgoodParamVal ((k2 + k1) * 0.5) p idx).res <;>
      simp only [hres, if_true, Bool.false_eq_true, if_false] at h
    · split at h
      · obtain ⟨g1, g2, g3⟩ := ih _ _ _ _ _ hm2 h
        exact ⟨g1, le_trans (le_of_lt hm1) g2, g3⟩
      · obtain rfl := Option.some.inj h
        exact ⟨hm2, le_of_lt hm1, le_refl _⟩
    · split at h
      · obtain ⟨g1, g2, g3⟩ := ih _ _ _ _ _ hm1 h
        exact ⟨g1, g2, le_trans g3 (le_of_lt hm2)⟩
      · obtain rfl := Option.some.inj h
        exact ⟨hm1, le_refl _, le_of_lt hm2⟩

/-- C6, as the code has it: over exact arithmetic, with a deterministic oracle, `tol > 0`,
`ktyp ≤ kmax`, `ktyp` valid and the incoming `kmax` invalid (and `pvals` no longer than the
parameter store), `get_param_limits` returns, given enough passes, a valid `kmax`: it is
the end `k1` of the bracket `[k1, k2]` the upper loop exits with, whose end `k2` is
invalid, and `eps = k2 - k1` satisfies `0 < eps ≤ tol` with `kmax + eps` invalid. -/
theorem get_param_limits_kmax (em : ExperimentManager) (kmin kmax ktyp tol : ℚ)
    (pvals : List ℚ) (idx : Nat) (valid : ℚ → Bool)
    (hdet : DeterministicOracle em pvals idx valid) (htol : 0 < tol)
    (hktyp : valid ktyp = true) (hbad : valid kmax = false) (hle : ktyp ≤ kmax)
    (hstore : pvals.length ≤ em.parameter_manager.length) :
    ∃ N : Nat, ∀ fuel, N ≤ fuel →
      ∃ L, em.get_param_limits kmin kmax ktyp tol pvals idx fuel = some L ∧
        valid L.kmax = true ∧
        ∃ b e1 p1, Reach em pvals idx e1 p1 ∧
          bisect_kmax idx tol fuel ktyp kmax p1 e1 = some b ∧ L.kmax = b.k1 ∧
          valid b.k1 = true ∧ valid b.k2 = false ∧
          ∃ eps, eps = b.k2 - b.k1 ∧ 0 < eps ∧ eps ≤ tol ∧ valid (L.kmax + eps) = false := by
  have hlt : ktyp < kmax := by
    rcases lt_or_eq_of_le hle with h | h
    · exact h
    · rw [h, hbad] at hktyp
      exact absurd hktyp (by decide)
  obtain ⟨N1, hN1, hf1⟩ := exists_fuel (kmax - ktyp) tol htol
  obtain ⟨N2, hN2, hf2⟩ := exists_fuel (ktyp - kmin) tol htol
  refine ⟨max N1 N2, fun fuel hfuel => ?_⟩
  have h1 : N1 ≤ fuel := le_trans (le_max_left _ _) hfuel
  have h2 : N2 ≤ fuel := le_trans (le_max_right _ _) hfuel
  have hres := hdet em pvals Reach.start kmax
  have hr1 := reach_call em pvals idx em pvals kmax Reach.start
  obtain ⟨b, hb, hb1, hb2, hb3, hb4⟩ := bisect_kmax_spec em pvals idx valid hdet tol fuel
    ktyp kmax _ _ hr1 hktyp hbad (by omega) (hf1 fuel h1)
  obtain ⟨hpos, _, _⟩ := bisect_kmax_pos idx tol fuel ktyp kmax _ _ b hlt hb
  have hlim : em.limit_kmax kmax ktyp tol pvals idx fuel = some (b.k1, b.pvals, b.em) := by
    simp only [limit_kmax, hres, hbad, Bool.not_false, if_true, hb, Option.map_some']
  obtain ⟨out2, ho2, _⟩ := limit_kmin_spec em pvals idx valid hdet kmin ktyp tol
    hktyp fuel (by omega) (hf2 fuel h2) b.em b.pvals hb4
  refine ⟨⟨out2.1, b.k1, ktyp, out2.2.1, out2.2.2⟩, ?_, hb1, b, _, _, hr1, hb, rfl, hb1, hb2,
    b.k2 - b.k1, rfl, by linarith, hb3, ?_⟩
  · simp only [get_param_limits, hlim, ho2]
  · show valid (b.k1 + (b.k2 - b.k1)) = false
    rw [add_sub_cancel]
    exact hb2

/-- C6 as amended, at `premixRegistry` (valid range `[1, 10]`) with `kmin = 0`, `kmax = 20`,
`ktyp = 5`, `tol = 1`: the search returns `kmax = 155/16`. -/
theorem get_param_limits_kmax_witness :
    (premixRegistry.get_param_limits 0 20 5 1 [5] 0 4).map (·.kmax) = some (155 / 16) ∧
    ∃ N : Nat, ∀ fuel, N ≤ fuel →
      ∃ L, premixRegistry.get_param_limits 0 20 5 1 [5] 0 fuel = some L ∧
        premixValid L.kmax = true ∧
        ∃ b e1 p1, Reach premixRegistry [5] 0 e1 p1 ∧
          bisect_kmax 0 1 fuel 5 20 p1 e1 = some b ∧ L.kmax = b.k1 ∧
          premixValid b.k1 = true ∧ premixValid b.k2 = false ∧
          ∃ eps, eps = b.k2 - b.k1 ∧ 0 < eps ∧ eps ≤ 1 ∧
            premixValid (L.kmax + eps) = false :=
  ⟨by decide!,
    get_param_limits_kmax premixRegistry 0 20 5 1 [5] 0 premixValid premix_deterministic
      (by norm_num) (by norm_num [premixValid]) (by norm_num [premixValid]) (by norm_num)
      (by decide)⟩

/-- C6, the claim as stated fails: on `flatRegistry`, a registry with one parameter and
one experiment, every value is valid; `get_param_limits` with `kmin = 0`, `kmax = 2`,
`ktyp = 1`, `tol = 1/2` leaves `kmax = 2`, and no `eps` makes `kmax + eps` invalid. -/
theorem get_param_limits_kmax_counterexample :
    DeterministicOracle flatRegistry [5] 0 allValid ∧ (0 : ℚ) < 1 / 2 ∧ allValid 1 = true ∧
    ([5] : List ℚ).length ≤ flatRegistry.parameter_manager.length ∧
    (∀ fuel, (flatRegistry.get_param_limits 0 2 1 (1 / 2) [5] 0 fuel).map (·.kmax) = some 2) ∧
    ¬ ∃ eps : ℚ, eps ≤ 1 / 2 ∧ allValid (2 + eps) = false := by
  refine ⟨flat_oracle, by norm_num, rfl, by decide, ?_, ?_⟩
  · intro fuel
    have h1 := flat_oracle flatRegistry [5] Reach.start 2
    have hr1 := reach_call flatRegistry [5] 0 flatRegistry [5] 2 Reach.start
    have h2 := flat_oracle _ _ hr1 0
    simp only [allValid] at h1 h2
    simp only [get_param_limits, limit_kmax, limit_kmin, h1, h2, Bool.not_true,
      Bool.false_eq_true, if_false, Option.map_some']
  · rintro ⟨eps, _, h⟩
    simp [allValid] at h

/-- C7, as the code has it: over exact arithmetic, with a deterministic oracle, `tol > 0`,
`kmin ≤ ktyp`, `ktyp` valid and the incoming `kmin` invalid (and `pvals` no longer than the
parameter store), `get_param_limits` returns, given enough passes, a valid `kmin`: it is
the upper end `k2` of the bracket `[k1, k2]` the lower loop exits with, whose lower end
`k1` is invalid, and `eps = k2 - k1` satisfies `0 < eps ≤ tol` with `kmin - eps`
invalid. -/
theorem get_param_limits_kmin (em : ExperimentManager) (kmin kmax ktyp tol : ℚ)
    (pvals : List ℚ) (idx : Nat) (valid : ℚ → Bool)
    (hdet : DeterministicOracle em pvals idx valid) (htol : 0 < tol)
    (hktyp : valid ktyp = true) (hbad : valid kmin = false) (hle : kmin ≤ ktyp)
    (hstore : pvals.length ≤ em.parameter_manager.length) :
    ∃ N : Nat, ∀ fuel, N ≤ fuel →
      ∃ L, em.get_param_limits kmin kmax ktyp tol pvals idx fuel = some L ∧
        valid L.kmin = true ∧
        ∃ b e1 p1, Reach em pvals idx e1 p1 ∧
          bisect_kmin idx tol fuel kmin ktyp p1 e1 = some b ∧ L.kmin = b.k2 ∧
          valid b.k2 = true ∧ valid b.k1 = false ∧
          ∃ eps, eps = b.k2 - b.k1 ∧ 0 < eps ∧ eps ≤ tol ∧ valid (L.kmin - eps) = false := by
  have hlt : kmin < ktyp := by
    rcases lt_or_eq_of_le hle with h | h
    · exact h
    · rw [← h, hbad] at hktyp
      exact absurd hktyp (by decide)
  obtain ⟨N, hN⟩ := get_param_limits_spec em kmin kmax ktyp tol pvals idx valid hdet htol hktyp
  refine ⟨N, fun fuel hfuel => ?_⟩
  obtain ⟨L, hL, _, _, _, _, hmin⟩ := hN fuel hfuel
  obtain ⟨hv, b, e1, p1, hr, hb, hk, hk1, hw⟩ := hmin hbad
  obtain ⟨hpos, _, _⟩ := bisect_kmin_pos idx tol fuel kmin ktyp _ _ b hlt hb
  refine ⟨L, hL, hv, b, e1, p1, hr, hb, hk, by rw [← hk]; exact hv, hk1,
    b.k2 - b.k1, rfl, by linarith, hw, ?_⟩
  rw [hk, sub_sub_cancel]
  exact hk1

/-- C7 as amended, at `premixRegistry` (valid range `[1, 10]`) with `kmin = 0`, `kmax = 8`,
`ktyp = 5`, `tol = 1/2`: the search returns `kmin = 5/4`. -/
theorem get_param_limits_kmin_witness :
    (premixRegistry.get_param_limits 0 8 5 (1 / 2) [5] 0 4).map (·.kmin) = some (5 / 4) ∧
    ∃ N : Nat, ∀ fuel, N ≤ fuel →
      ∃ L, premixRegistry.get_param_limits 0 8 5 (1 / 2) [5] 0 fuel = some L ∧
        premixValid L.kmin = true ∧
        ∃ b e1 p1, Reach premixRegistry [5] 0 e1 p1 ∧
          bisect_kmin 0 (1 / 2) fuel 0 5 p1 e1 = some b ∧ L.kmin = b.k2 ∧
          premixValid b.k2 = true ∧ premixValid b.k1 = false ∧
          ∃ eps, eps = b.k2 - b.k1 ∧ 0 < eps ∧ eps ≤ 1 / 2 ∧
            premixValid (L.kmin - eps) = false :=
  ⟨by decide!,
    get_param_limits_kmin premixRegistry 0 8 5 (1 / 2) [5] 0 premixValid premix_deterministic
      (by norm_num) (by norm_num [premixValid]) (by norm_num [premixValid]) (by norm_num)
      (by decide)⟩

/-- C7, the claim as stated fails: on `flatRegistry`, a registry with one parameter and
one experiment, every value is valid; `get_param_limits` with `kmin = -1`, `kmax = 3`,
`ktyp = 1`, `tol = 1/4` leaves `kmin = -1`, and no `eps` makes `kmin - eps` invalid. -/
theorem get_param_limits_kmin_counterexample :
    DeterministicOracle flatRegistry [5] 0 allValid ∧ (0 : ℚ) < 1 / 4 ∧ allValid 1 = true ∧
    ([5] : List ℚ).length ≤ flatRegistry.parameter_manager.length ∧
    (∀ fuel,
      (flatRegistry.get_param_limits (-1) 3 1 (1 / 4) [5] 0 fuel).map (·.kmin)
        = some (-1)) ∧
    ¬ ∃ eps : ℚ, eps ≤ 1 / 4 ∧ allValid (-1 - eps) = false := by
  refine ⟨flat_oracle, by norm_num, rfl, by decide, ?_, ?_⟩
  · intro fuel
    have h1 := flat_oracle flatRegistry [5] Reach.start 3
    have hr1 := reach_call flatRegistry [5] 0 flatRegistry [5] 3 Reach.start
    have h2 := flat_oracle _ _ hr1 (-1)
    simp only [allValid] at h1 h2
    simp only [get_param_limits, limit_kmax, limit_kmin, h1, h2, Bool.not_true,
      Bool.false_eq_true, if_false, Option.map_some']
  · rintro ⟨eps, _, h⟩
    simp [allValid] at h

/-! ## Statistics layer -/

/-- The loop of lines 454-457 computes the sum of the terms `0.5 * n * n / (std * std)`. -/
theorem likelihood_loop (pd td sd : List ℚ) (n : Nat) :
    (List.range n).foldl
      (fun L ii =>
        let r := pd.getD ii 0 - td.getD ii 0
        L + 0.5 * r * r / (sd.getD ii 0 * sd.getD ii 0)) 0
    = ∑ i ∈ Finset.range n, 0.5 * (pd.getD i 0 - td.getD i 0) ^ 2 / (sd.getD i 0) ^ 2 := by
  induction n with
  | zero => simp
  | succ n ih =>
    rw [List.range_succ, List.foldl_append, ih, Finset.sum_range_succ]
    simp only [List.foldl_cons, List.foldl_nil]
    congr 1
    ring

/-- With no zero std among the first `n`, the loop of lines 454-457 never divides by zero:
its result is finite, and is the sum of the terms `0.5 * n * n / (std * std)`. -/
theorem likelihood_loop_double (pd td sd : List ℚ) (n : Nat)
    (hsd : ∀ i, i < n → sd.getD i 0 ≠ 0) :
    (List.range n).foldl
      (fun L ii =>
        let r := pd.getD ii 0 - td.getD ii 0
        Double.add L ((Double.finite (0.5 * r * r)).div (sd.getD ii 0 * sd.getD ii 0)))
      (Double.finite 0)
    = Double.finite
        (∑ i ∈ Finset.range n, 0.5 * (pd.getD i 0 - td.getD i 0) ^ 2 / (sd.getD i 0) ^ 2) := by
  rw [← likelihood_loop]
  induction n with
  | zero => rfl
  | succ n ih =>
    have hn : sd.getD n 0 * sd.getD n 0 ≠ 0 :=
      mul_ne_zero (hsd n (Nat.lt_succ_self n)) (hsd n (Nat.lt_succ_self n))
    rw [List.range_succ, List.foldl_append, List.foldl_append,
      ih (fun i hi => hsd i (Nat.lt_succ_of_lt hi))]
    simp only [List.foldl_cons, List.foldl_nil, Double.div, if_neg hn, Double.add]

/-- A loop `p[ii] = g ii` for `ii < n` keeps the length of `p` and leaves `g i` at every
index `i < n` that exists. -/
theorem set_loop (g : Nat → ℚ) (p : List ℚ) (n : Nat) :
    ((List.range n).foldl (fun q ii => q.set ii (g ii)) p).length = p.length ∧
    ∀ i, i < n → i < p.length →
      ((List.range n).foldl (fun q ii => q.set ii (g ii)) p)[i]? = some (g i) := by
  induction n with
  | zero => exact ⟨rfl, fun i hi => by omega⟩
  | succ n ih =>
    rw [List.range_succ, List.foldl_append]
    simp only [List.foldl_cons, List.foldl_nil]
    refine ⟨by rw [List.length_set, ih.1], ?_⟩
    intro i hi hip
    by_cases hin : i = n
    · subst hin
      rw [List.getElem?_set_self (by rw [ih.1]; exact hip)]
    · rw [List.getElem?_set_ne (by omega)]
      exact ih.2 i (by omega) hip

/-- What a returning call of `GenerateExptData` has checked and what it leaves. -/
theorem GenerateExptData_inv (em0 em : ExperimentManager) (randn : Nat → ℚ)
    (h : em0.GenerateExptData randn = some em) :
    em0.perturbed_data = [] ∧ em0.true_std.length = em0.num_expt_data ∧
    em0.true_data.length = em0.num_expt_data ∧
    em.num_expt_data = em0.num_expt_data ∧ em.true_std = em0.true_std ∧
    em.true_data = em0.true_data ∧
    em.perturbed_data = (List.range em0.num_expt_data).foldl
      (fun p ii => p.set ii (max (em0.true_std.getD ii 0)
        (em0.true_data.getD ii 0 + em0.true_std.getD ii 0 * randn ii * 0)))
      (vresize em0.perturbed_data em0.num_expt_data 0) := by
  simp only [GenerateExptData, BL_ASSERT, Option.bind_eq_bind] at h
  by_cases h1 : em0.perturbed_data.length = 0
  · by_cases h2 : em0.true_std.length = em0.num_expt_data
    · by_cases h3 : em0.true_data.length = em0.num_expt_data
      · simp only [h1, h2, h3, beq_self_eq_true, if_true, Option.some_bind,
          Option.some.injEq] at h
        subst h
        exact ⟨List.eq_nil_of_length_eq_zero h1, h2, h3, rfl, rfl, rfl, rfl⟩
      · simp [h1, h2, h3] at h
    · simp [h1, h2] at h
  · simp [h1] at h

/-- C9: with the perturbed data empty and the true data and observation std of length
`total`, for every sequence of draws `randn`, `GenerateExptData` returns and leaves a
perturbed vector of length `total` with
`perturbed[i] = max(std[i], true[i] + std[i] * randn i * mult)` for every `i < total`, where
`mult` is the `0` the code assigns; so `perturbed[i] = max(std[i], true[i])` whatever
the draws. -/
theorem GenerateExptData_values (em : ExperimentManager) (randn : Nat → ℚ)
    (h0 : em.perturbed_data = [])
    (hs : em.true_std.length = em.num_expt_data)
    (ht : em.true_data.length = em.num_expt_data) :
    ∃ em1, em.GenerateExptData randn = some em1 ∧
      em1.perturbed_data.length = em.num_expt_data ∧
      ∀ i, i < em.num_expt_data →
        em1.perturbed_data[i]? = some (max (em.true_std.getD i 0)
          (em.true_data.getD i 0 + em.true_std.getD i 0 * randn i * 0)) ∧
        em1.perturbed_data[i]? = some (max (em.true_std.getD i 0) (em.true_data.getD i 0)) := by
  have hloop := set_loop
    (fun ii => max (em.true_std.getD ii 0)
      (em.true_data.getD ii 0 + em.true_std.getD ii 0 * randn ii * 0))
    (vresize em.perturbed_data em.num_expt_data 0) em.num_expt_data
  have hex : ∃ em1, em.GenerateExptData randn = some em1 := by
    simp only [GenerateExptData, BL_ASSERT, h0, hs, ht, List.length_nil, beq_self_eq_true,
      if_true, Option.bind_eq_bind, Option.some_bind]
    exact ⟨_, rfl⟩
  obtain ⟨em1, h1⟩ := hex
  obtain ⟨_, _, _, _, _, _, hpd⟩ := GenerateExptData_inv em em1 randn h1
  refine ⟨em1, h1, ?_, ?_⟩
  · rw [hpd, hloop.1, vresize_length]
  · intro i hi
    have := hloop.2 i hi (by rw [vresize_length]; exact hi)
    rw [hpd]
    refine ⟨this, ?_⟩
    rw [this]
    simp

/-- C9 on the scenario of the spec: true data `[1,2,3,4,5]`, std `[1,1,1,1,1]` and draws
all equal to `3` give perturbed data equal to the true data. -/
theorem GenerateExptData_values_witness :
    (∃ em1, demoStats.GenerateExptData (fun _ => 3) = some em1 ∧
      em1.perturbed_data.length = demoStats.num_expt_data ∧
      ∀ i, i < demoStats.num_expt_data →
        em1.perturbed_data[i]? = some (max (demoStats.true_std.getD i 0)
          (demoStats.true_data.getD i 0 + demoStats.true_std.getD i 0 * (fun _ => 3) i * 0)) ∧
        em1.perturbed_data[i]? = some (max (demoStats.true_std.getD i 0)
          (demoStats.true_data.getD i 0))) ∧
    (demoStats.GenerateExptData (fun _ => 3)).map (·.perturbed_data)
      = some demoStats.true_data :=
  ⟨GenerateExptData_values demoStats (fun _ => 3) rfl rfl rfl, by
    norm_num [GenerateExptData, BL_ASSERT, demoStats, demoRegistry, AddExperiments,
      AddExperiment, Clear, blank, demoExpt, vresize, List.range_succ, List.replicate]⟩

/-- C10: `ComputeLikelihood(testData)` ends fatally, returning no value, whenever the
perturbed data is empty (not generated) and whenever the length of `testData` differs
from `total`. -/
theorem ComputeLikelihood_fatal (em : ExperimentManager) (test_data : List ℚ)
    (h : em.perturbed_data = [] ∨ test_data.length ≠ em.num_expt_data) :
    em.ComputeLikelihood test_data = none := by
  by_cases hlen : test_data.length = em.num_expt_data
  · rcases h with h | h
    · simp [ComputeLikelihood, BL_ASSERT, hlen, h]
    · exact absurd hlen h
  · simp [ComputeLikelihood, BL_ASSERT, hlen]

/-- C10 on the scenario of the spec: before `GenerateExptData` the call aborts on a
vector of the right length, and after it the call aborts on a vector of length `4 ≠ 5`. -/
theorem ComputeLikelihood_fatal_witness :
    demoStats.ComputeLikelihood [1, 2, 3, 4, 5] = none ∧
    ({ demoStats with perturbed_data := [1, 2, 3, 4, 5] }).ComputeLikelihood [1, 2, 3, 4] = none :=
  ⟨ComputeLikelihood_fatal demoStats [1, 2, 3, 4, 5] (Or.inl rfl),
    ComputeLikelihood_fatal { demoStats with perturbed_data := [1, 2, 3, 4, 5] } [1, 2, 3, 4]
      (Or.inr (by decide))⟩

/-- The perturbed vector a returning `GenerateExptData` leaves has `total` entries, each the
larger of the std and the true value at its index. -/
theorem GenerateExptData_perturbed (em0 em : ExperimentManager) (randn : Nat → ℚ)
    (h : em0.GenerateExptData randn = some em) :
    em.perturbed_data.length = em.num_expt_data ∧
    ∀ i, i < em.num_expt_data →
      em.perturbed_data[i]? = some (max (em.true_std.getD i 0) (em.true_data.getD i 0)) := by
  obtain ⟨_, _, _, hn, hs, ht, hpd⟩ := GenerateExptData_inv em0 em randn h
  have hloop := set_loop
    (fun ii => max (em0.true_std.getD ii 0)
      (em0.true_data.getD ii 0 + em0.true_std.getD ii 0 * randn ii * 0))
    (vresize em0.perturbed_data em0.num_expt_data 0) em0.num_expt_data
  refine ⟨?_, ?_⟩
  · rw [hpd, hn, hloop.1, vresize_length]
  · intro i hi
    rw [hn] at hi
    have := hloop.2 i hi (by rw [vresize_length]; exact hi)
    rw [hpd, hs, ht, this]
    simp

theorem demoStats_GenerateExptData (z : ℚ) :
    demoStats.GenerateExptData (fun _ => z) =
      some { demoStats with perturbed_data := [1, 2, 3, 4, 5] } := by
  norm_num [GenerateExptData, BL_ASSERT, demoStats, demoRegistry, AddExperiments,
    AddExperiment, Clear, blank, demoExpt, vresize, List.range_succ, List.replicate]

theorem blank_GenerateExptData (z : ℚ) :
    blank.Clear.GenerateExptData (fun _ => z) = some blank.Clear := by
  simp [GenerateExptData, BL_ASSERT, blank, Clear, vresize]

/-- C11, as the code has it: after a returning call of `GenerateExptData`, when
`total > 0` a second call (with nothing in between) is fatal, and `perturbed[i] ≥ std[i]`
holds for every `i < total`. -/
theorem GenerateExptData_single_shot (em0 em : ExperimentManager) (randn : Nat → ℚ)
    (h : em0.GenerateExptData randn = some em) :
    (0 < em.num_expt_data → ∀ randn2, em.GenerateExptData randn2 = none) ∧
    (∀ i, i < em.num_expt_data → em.true_std.getD i 0 ≤ em.perturbed_data.getD i 0) := by
  obtain ⟨hlen, hval⟩ := GenerateExptData_perturbed em0 em randn h
  refine ⟨?_, ?_⟩
  · intro hpos randn2
    have hne : ¬ em.perturbed_data.length = 0 := by omega
    simp [GenerateExptData, BL_ASSERT, hne]
  · intro i hi
    rw [List.getD_eq_getElem?_getD em.perturbed_data, hval i hi]
    exact le_max_left _ _

/-- C11 as amended, on the scenario of the spec (`total = 5`): the first
`GenerateExptData` returns, a second one is fatal, and every perturbed entry is at least
its std. -/
theorem GenerateExptData_single_shot_witness :
    ∃ em, demoStats.GenerateExptData (fun _ => 3) = some em ∧
      (0 < em.num_expt_data → ∀ randn2, em.GenerateExptData randn2 = none) ∧
      (∀ i, i < em.num_expt_data → em.true_std.getD i 0 ≤ em.perturbed_data.getD i 0) :=
  ⟨{ demoStats with perturbed_data := [1, 2, 3, 4, 5] }, demoStats_GenerateExptData 3,
    GenerateExptData_single_shot demoStats _ (fun _ => 3) (demoStats_GenerateExptData 3)⟩

/-- C11, the claim as stated fails when `total = 0`: on the cleared, empty registry the
first `GenerateExptData` leaves the perturbed vector empty, and a second call returns
again instead of ending fatally. -/
theorem GenerateExptData_single_shot_counterexample :
    ∃ em, blank.Clear.GenerateExptData (fun _ => 0) = some em ∧
      em.GenerateExptData (fun _ => 0) = some em :=
  ⟨blank.Clear, blank_GenerateExptData 0, blank_GenerateExptData 0⟩

theorem shifted_getD (v : List ℚ) (d : ℚ) (i : Nat) (hi : i < v.length) :
    (shifted v d).getD i 0 = v.getD i 0 + d := by
  simp [shifted, List.getD_eq_getElem?_getD, List.getElem?_eq_getElem hi]

theorem lowStats_GenerateExptData (z : ℚ) :
    lowStats.GenerateExptData (fun _ => z) =
      some { lowStats with perturbed_data := [1, 2, 3, 4, 5] } := by
  norm_num [GenerateExptData, BL_ASSERT, lowStats, demoRegistry, AddExperiments,
    AddExperiment, Clear, blank, demoExpt, vresize, List.range_succ, List.replicate]

/-- C13, as the code has it: over exact arithmetic, in a state left by `GenerateExptData`
with `total > 0`, no zero among the stds and no true value below its std (so that the
perturbed data equals the true data), for every offset `d` the likelihood of `true + d`
and the likelihood of `true - d` are the same finite value. -/
theorem ComputeLikelihood_symmetric (em0 em : ExperimentManager) (randn : Nat → ℚ)
    (h : em0.GenerateExptData randn = some em) (hpos : 0 < em.num_expt_data)
    (hstd : ∀ i, i < em.num_expt_data → em.true_std.getD i 0 ≠ 0)
    (hfloor : ∀ i, i < em.num_expt_data → em.true_std.getD i 0 ≤ em.true_data.getD i 0)
    (d : ℚ) :
    ∃ L : ℚ, em.ComputeLikelihood (shifted em.true_data d) = some (Double.finite L) ∧
      em.ComputeLikelihood (shifted em.true_data (-d)) = some (Double.finite L) := by
  obtain ⟨_, _, ht0, hn, _, ht, _⟩ := GenerateExptData_inv em0 em randn h
  obtain ⟨hpl, hval⟩ := GenerateExptData_perturbed em0 em randn h
  have htl : em.true_data.length = em.num_expt_data := by rw [ht, hn]; exact ht0
  have hsl : ∀ x : ℚ, (shifted em.true_data x).length = em.num_expt_data := by
    intro x; simp [shifted, htl]
  have hne : ¬ em.num_expt_data = 0 := by omega
  refine ⟨∑ i ∈ Finset.range em.num_expt_data,
    0.5 * (em.perturbed_data.getD i 0 - (shifted em.true_data d).getD i 0) ^ 2
      / (em.true_std.getD i 0) ^ 2, ?_, ?_⟩
  · simp only [ComputeLikelihood, BL_ASSERT, hsl, hpl, beq_self_eq_true, if_true, beq_iff_eq,
      hne, if_false, Option.bind_eq_bind, Option.some_bind]
    rw [likelihood_loop_double _ _ _ _ hstd]
  · simp only [ComputeLikelihood, BL_ASSERT, hsl, hpl, beq_self_eq_true, if_true, beq_iff_eq,
      hne, if_false, Option.bind_eq_bind, Option.some_bind]
    rw [likelihood_loop_double _ _ _ _ hstd]
    congr 2
    apply Finset.sum_congr rfl
    intro i hi
    rw [Finset.mem_range] at hi
    have hp : em.perturbed_data.getD i 0 = em.true_data.getD i 0 := by
      rw [List.getD_eq_getElem?_getD em.perturbed_data, hval i hi]
      exact max_eq_right (hfloor i hi)
    rw [hp, shifted_getD _ _ _ (by omega), shifted_getD _ _ _ (by omega)]
    ring

/-- C13 as amended, on the scenario of the spec (every true value at or above its std),
with `d = 1`: both likelihoods are `5/2`. -/
theorem ComputeLikelihood_symmetric_witness :
    ∃ em, demoStats.GenerateExptData (fun _ => 3) = some em ∧
      em.ComputeLikelihood (shifted em.true_data 1) = some (Double.finite (5 / 2)) ∧
      ∃ L : ℚ, em.ComputeLikelihood (shifted em.true_data 1) = some (Double.finite L) ∧
        em.ComputeLikelihood (shifted em.true_data (-1)) = some (Double.finite L) :=
  ⟨{ demoStats with perturbed_data := [1, 2, 3, 4, 5] }, demoStats_GenerateExptData 3,
    by decide!,
    ComputeLikelihood_symmetric demoStats _ (fun _ => 3) (demoStats_GenerateExptData 3)
      (by decide)
      (by
        intro i hi
        have hi5 : i < 5 := hi
        interval_cases i <;> decide!)
      (by
        intro i hi
        have hi5 : i < 5 := hi
        interval_cases i <;> decide!)
      1⟩

/-- C13, the claim as stated fails: with true data `[1/2, 2, 3, 4, 5]` and std
`[1, 1, 1, 1, 1]` the perturbed data is `[1, 2, 3, 4, 5]`, and with `d = 1` the likelihood
of `true + d` is `17/8` while that of `true - d` is `25/8`. -/
theorem ComputeLikelihood_symmetric_counterexample :
    ∃ em, lowStats.GenerateExptData (fun _ => 0) = some em ∧
      em.ComputeLikelihood (shifted em.true_data 1) = some (Double.finite (17 / 8)) ∧
      em.ComputeLikelihood (shifted em.true_data (-1)) = some (Double.finite (25 / 8)) :=
  ⟨{ lowStats with perturbed_data := [1, 2, 3, 4, 5] }, lowStats_GenerateExptData 0,
    by decide!, by decide!⟩

/-- C18, what the code does at the failing input: `Clear()` empties the descriptor list,
the offsets, the buffers and the name map and zeroes the total, but leaves `expt_name`
alone; after registering `"a"`, clearing and registering `"b"`, the name list is
`["a", "b"]`, where a registry that was empty to begin with has `["b"]`. -/
theorem Clear_leaves_expt_name :
    ((blank.AddExperiment (demoExpt 3 0) "a").Clear).expts.length = 0 ∧
    ((blank.AddExperiment (demoExpt 3 0) "a").Clear).data_offsets = [] ∧
    ((blank.AddExperiment (demoExpt 3 0) "a").Clear).raw_data = [] ∧
    ((blank.AddExperiment (demoExpt 3 0) "a").Clear).expt_map = [] ∧
    ((blank.AddExperiment (demoExpt 3 0) "a").Clear).NumExptData = 0 ∧
    ((blank.AddExperiment (demoExpt 3 0) "a").Clear).expt_name = ["a"] ∧
    ((blank.AddExperiment (demoExpt 3 0) "a").Clear.AddExperiment (demoExpt 2 10) "b").expt_name
      = ["a", "b"] ∧
    (blank.AddExperiment (demoExpt 2 10) "b").expt_name = ["b"] := by
  refine ⟨rfl, rfl, rfl, rfl, rfl, rfl, rfl, rfl⟩

end ExperimentManager

/-! ## Parameter store -/

namespace ParameterManager

end ParameterManager

namespace ExperimentManager

/-! ## True data and observation std -/

/-- The buffer a pass of the loop of `InitializeTrueData` hands to `GetMeasurementError`. -/
theorem trueDataStep_eq (e : SimulatedExperiment) (i : Nat) (em : ExperimentManager)
    (hi : i < em.raw_data.length)
    (hlen : (em.raw_data.getD i []).length = e.NumMeasuredValues)
    (hcon : em.use_synthetic_data = true →
      (e.GetMeasurements em.parameter_manager (em.raw_data.getD i [])).2.length
        = e.NumMeasuredValues) :
    trueDataStep e i em = some
      { em with
        raw_data := em.raw_data.set i (e.GetMeasurementError
          (if em.use_synthetic_data then
            (e.GetMeasurements em.parameter_manager (em.raw_data.getD i [])).2
          else em.raw_data.getD i []))
        calls := if em.use_synthetic_data then em.calls ++ [i] else em.calls
        true_data :=
          if em.use_synthetic_data then
            copyOut em.true_data (em.data_offsets.getD i 0)
              (e.GetMeasurements em.parameter_manager (em.raw_data.getD i [])).2
              e.NumMeasuredValues
          else em.true_data
        true_std := copyOut em.true_std (em.data_offsets.getD i 0)
          (e.GetMeasurementError
            (if em.use_synthetic_data then
              (e.GetMeasurements em.parameter_manager (em.raw_data.getD i [])).2
            else em.raw_data.getD i []))
          e.NumMeasuredValues } := by
  cases hs : em.use_synthetic_data
  · simp only [trueDataStep, BL_ASSERT, hs, hlen, le_refl, decide_True, if_true,
      Bool.false_eq_true, if_false, Option.bind_eq_bind, Option.some_bind,
      getD_set_self _ _ _ _ hi, List.set_set]
  · have hc := hcon hs
    simp only [trueDataStep, BL_ASSERT, hs, hlen, le_refl, decide_True, if_true,
      Option.bind_eq_bind, Option.some_bind, getD_set_self _ _ _ _ hi, List.set_set,
      List.length_set, hc]

/-- What one pass of the loop of `InitializeTrueData` changes. -/
theorem trueDataStep_spec (e : SimulatedExperiment) (i : Nat) (em : ExperimentManager)
    (hi : i < em.raw_data.length)
    (hlen : (em.raw_data.getD i []).length = e.NumMeasuredValues)
    (hcon : em.use_synthetic_data = true →
      (e.GetMeasurements em.parameter_manager (em.raw_data.getD i [])).2.length
        = e.NumMeasuredValues) :
    ∃ em1, trueDataStep e i em = some em1 ∧
      em1.raw_data = em.raw_data.set i (e.GetMeasurementError (errorInput e i em)) ∧
      em1.calls = (if em.use_synthetic_data then em.calls ++ [i] else em.calls) ∧
      em1.true_data =
        (if em.use_synthetic_data then
          copyOut em.true_data (em.data_offsets.getD i 0)
            (e.GetMeasurements em.parameter_manager (em.raw_data.getD i [])).2
            e.NumMeasuredValues
        else em.true_data) ∧
      em1.true_std = copyOut em.true_std (em.data_offsets.getD i 0)
        (e.GetMeasurementError (errorInput e i em)) e.NumMeasuredValues ∧
      em1.data_offsets = em.data_offsets ∧
      em1.parameter_manager = em.parameter_manager ∧
      em1.use_synthetic_data = em.use_synthetic_data ∧
      em1.perturbed_data = em.perturbed_data ∧
      em1.num_expt_data = em.num_expt_data ∧
      em1.expts = em.expts ∧
      em1.rounds = em.rounds :=
  ⟨_, trueDataStep_eq e i em hi hlen hcon, rfl, rfl, rfl, rfl, rfl, rfl, rfl, rfl, rfl, rfl, rfl⟩

theorem set_of_getElem? {α : Type} (l : List α) (i : Nat) (v : α) (h : l[i]? = some v) :
    l.set i v = l := by
  apply List.ext_getElem?
  intro k
  by_cases hk : i = k
  · subst hk
    have hlt : i < l.length := by
      by_contra hcon
      rw [List.getElem?_eq_none (by omega)] at h
      exact Option.noConfusion h
    rw [List.getElem?_set_self hlt, h]
  · rw [List.getElem?_set_ne hk]

/-- Copying values that are already in place changes nothing. -/
theorem copyOut_same (tm : List ℚ) (offset : Nat) (raw : List ℚ) (n : Nat)
    (h : ∀ j, j < n → tm[offset + j]? = some (raw.getD j 0)) :
    copyOut tm offset raw n = tm := by
  induction n with
  | zero => simp [copyOut]
  | succ n ih =>
    rw [copyOut_succ, ih (fun j hj => h j (by omega))]
    exact set_of_getElem? _ _ _ (h n (by omega))

theorem errorInput_congr (e : SimulatedExperiment) (k : Nat) (em em1 : ExperimentManager)
    (h1 : em1.use_synthetic_data = em.use_synthetic_data)
    (h2 : em1.parameter_manager = em.parameter_manager)
    (h3 : em1.raw_data.getD k [] = em.raw_data.getD k []) :
    errorInput e k em1 = errorInput e k em := by
  simp only [errorInput, h1, h2, h3]

/-- The loop of `InitializeTrueData` over the remaining experiments: it returns, writes the
buffer every `GetMeasurementError` call leaves at the offset of its experiment in
`true_std`, leaves `true_data` as it is when the re-measured values are already there,
and logs one more measurement per experiment in synthetic mode. -/
theorem trueDataLoop_spec (rest : List SimulatedExperiment) :
    ∀ (i : Nat) (em : ExperimentManager) (base : Nat),
    (∀ k, k < rest.length → em.data_offsets.getD (i + k) 0
        = base + ((rest.map (·.NumMeasuredValues)).take k).sum) →
    i + rest.length ≤ em.raw_data.length →
    (∀ (k : Nat) (e : SimulatedExperiment), rest[k]? = some e →
      (em.raw_data.getD (i + k) []).length = e.NumMeasuredValues) →
    (em.use_synthetic_data = true → ∀ (k : Nat) (e : SimulatedExperiment), rest[k]? = some e →
      (e.GetMeasurements em.parameter_manager (em.raw_data.getD (i + k) [])).2.length
        = e.NumMeasuredValues) →
    base + (rest.map (·.NumMeasuredValues)).sum ≤ em.true_std.length →
    ∃ em1, trueDataLoop rest i em = some em1 ∧
      em1.true_std.length = em.true_std.length ∧
      (∀ p, p < base → em1.true_std[p]? = em.true_std[p]?) ∧
      (∀ (k : Nat) (e : SimulatedExperiment), rest[k]? = some e →
        ∀ j, j < e.NumMeasuredValues →
          em1.true_std[base + ((rest.map (·.NumMeasuredValues)).take k).sum + j]?
            = some ((e.GetMeasurementError (errorInput e (i + k) em)).getD j 0)) ∧
      em1.perturbed_data = em.perturbed_data ∧
      em1.num_expt_data = em.num_expt_data ∧
      em1.rounds = em.rounds ∧
      em1.calls = em.calls ++
        (if em.use_synthetic_data then List.range' i rest.length else []) ∧
      em1.true_data.length = em.true_data.length ∧
      (em.use_synthetic_data = false → em1.true_data = em.true_data) ∧
      ((∀ (k : Nat) (e : SimulatedExperiment), rest[k]? = some e →
          ∀ j, j < e.NumMeasuredValues →
            em.true_data[base + ((rest.map (·.NumMeasuredValues)).take k).sum + j]?
              = some ((e.GetMeasurements em.parameter_manager
                  (em.raw_data.getD (i + k) [])).2.getD j 0)) →
        em1.true_data = em.true_data) := by
  induction rest with
  | nil =>
    intro i em base _ _ _ _ _
    refine ⟨em, rfl, rfl, fun _ _ => rfl, ?_, rfl, rfl, rfl, ?_, rfl, fun _ => rfl,
      fun _ => rfl⟩
    · intro k e hk; simp at hk
    · simp
  | cons e rest ih =>
    intro i em base hoff hraw hlen hcon hfit
    have hi : i < em.raw_data.length := by
      simp only [List.length_cons] at hraw; omega
    have hbase : em.data_offsets.getD i 0 = base := by
      simpa using hoff 0 (by simp)
    have hlen0 : (em.raw_data.getD i []).length = e.NumMeasuredValues := by
      simpa using hlen 0 e (by simp)
    have hcon0 : em.use_synthetic_data = true →
        (e.GetMeasurements em.parameter_manager (em.raw_data.getD i [])).2.length
          = e.NumMeasuredValues := by
      intro hs
      simpa using hcon hs 0 e (by simp)
    obtain ⟨em1, hstep, hr, hc, htd, hts, hdo, hpm, hsy, hpd, hne, _, hro⟩ :=
      trueDataStep_spec e i em hi hlen0 hcon0
    simp only [List.map_cons, List.sum_cons, List.length_cons] at hfit hraw
    have hrawk : ∀ k, em1.raw_data.getD (i + 1 + k) [] = em.raw_data.getD (i + (k + 1)) [] := by
      intro k
      rw [hr, getD_set_ne _ _ _ _ _ (show i ≠ i + 1 + k by omega),
        show i + 1 + k = i + (k + 1) by omega]
    obtain ⟨em2, hloop, g1, g2, g3, g4, g5, g6, g7, gl, g8, g9⟩ := ih (i + 1) em1
      (base + e.NumMeasuredValues)
      (by
        intro k hk
        have := hoff (k + 1) (by simp; omega)
        simp only [List.map_cons, List.take_succ_cons, List.sum_cons] at this
        rw [hdo, show i + 1 + k = i + (k + 1) by omega, this]; omega)
      (by rw [hr, List.length_set]; omega)
      (by
        intro k e1 hk
        rw [hrawk]
        exact hlen (k + 1) e1 (by simpa using hk))
      (by
        intro hs k e1 hk
        rw [hrawk, hpm]
        exact hcon (hsy ▸ hs) (k + 1) e1 (by simpa using hk))
      (by rw [hts, hbase, copyOut_length]; omega)
    refine ⟨em2, ?_, ?_, ?_, ?_, ?_, ?_, ?_, ?_, ?_, ?_, ?_⟩
    · simp only [trueDataLoop, hstep, Option.some_bind, hloop]
    · rw [g1, hts, copyOut_length]
    · intro p hp
      rw [g2 p (by omega), hts, hbase, copyOut_outside _ _ _ _ _ (Or.inl hp)]
    · intro k e1 hk j hj
      cases k with
      | zero =>
        simp only [List.getElem?_cons_zero, Option.some.injEq] at hk
        subst hk
        simp only [List.take_zero, List.sum_nil, Nat.add_zero]
        rw [g2 _ (by omega), hts, hbase, copyOut_inside _ _ _ _ _ hj (by omega)]
      | succ k =>
        have := g3 k e1 (by simpa using hk) j hj
        have hsame : em1.raw_data.getD (i + 1 + k) [] = em.raw_data.getD (i + 1 + k) [] := by
          rw [hr, getD_set_ne _ _ _ _ _ (show i ≠ i + 1 + k by omega)]
        rw [errorInput_congr e1 (i + 1 + k) em em1 hsy hpm hsame] at this
        simp only [List.map_cons, List.take_succ_cons, List.sum_cons]
        rw [show i + (k + 1) = i + 1 + k by omega, ← this]
        congr 1
        omega
    · rw [g4, hpd]
    · rw [g5, hne]
    · rw [g6, hro]
    · rw [g7, hc, hsy]
      cases em.use_synthetic_data
      · simp
      · simp [List.range'_succ]
    · rw [gl, htd]
      split
      · rw [copyOut_length]
      · rfl
    · intro hs
      rw [g8 (hsy ▸ hs), htd, hs]
      simp
    · intro hsame
      have hstepd : em1.true_data = em.true_data := by
        rw [htd]
        split
        · rw [hbase]
          apply copyOut_same
          intro j hj
          have := hsame 0 e (by simp) j hj
          simpa using this
        · rfl
      rw [← hstepd]
      apply g9
      intro k e1 hk j hj
      have := hsame (k + 1) e1 (by simpa using hk) j hj
      simp only [List.map_cons, List.take_succ_cons, List.sum_cons] at this
      rw [hstepd, hpm, hrawk, ← this]
      congr 1
      omega

theorem map_length_set (l : List (List ℚ)) (i : Nat) (b : List ℚ)
    (h : b.length = (l.getD i []).length) :
    (l.set i b).map List.length = l.map List.length := by
  apply List.ext_getElem?
  intro k
  rw [List.getElem?_map, List.getElem?_map]
  by_cases hk : i = k
  · subst hk
    by_cases hlt : i < l.length
    · rw [List.getElem?_set_self hlt, List.getElem?_eq_getElem hlt]
      rw [List.getD_eq_getElem?_getD, List.getElem?_eq_getElem hlt] at h
      simpa using h
    · rw [List.getElem?_eq_none (by rw [List.length_set]; omega),
        List.getElem?_eq_none (by omega)]
  · rw [List.getElem?_set_ne hk]

/-- With plugins that leave buffers of the size they were handed, the serial loop keeps
the sizes of all buffers. -/
theorem serialTasks_raw_len (rest : List SimulatedExperiment) :
    ∀ (i : Nat) (em : ExperimentManager) (tm : List ℚ),
    (∀ (k : Nat) (e : SimulatedExperiment), rest[k]? = some e →
      (e.GetMeasurements em.parameter_manager (em.raw_data.getD (i + k) [])).2.length
        = (em.raw_data.getD (i + k) []).length) →
    (serialTasks rest i em tm).em.raw_data.map List.length = em.raw_data.map List.length := by
  induction rest with
  | nil => intro i em tm _; simp [serialTasks]
  | cons e rest ih =>
    intro i em tm hcon
    have h0 : (e.GetMeasurements em.parameter_manager (em.raw_data.getD i [])).2.length
        = (em.raw_data.getD i []).length := by
      simpa using hcon 0 e (by simp)
    simp only [serialTasks]
    split
    · rw [ih]
      · exact map_length_set _ _ _ h0
      · intro k e1 hk
        simp only [getD_set_ne _ _ _ _ _ (show i ≠ i + 1 + k by omega)]
        rw [show i + 1 + k = i + (k + 1) by omega]
        exact hcon (k + 1) e1 (by simpa using hk)
    · exact map_length_set _ _ _ h0

theorem registered_raw_getD (em : ExperimentManager) (h : Registered em) (i : Nat)
    (e : SimulatedExperiment) (hi : em.expts[i]? = some e) :
    (em.raw_data.getD i []).length = e.NumMeasuredValues := by
  have h1 : (em.raw_data.map List.length).getD i 0 = em.counts.getD i 0 := by rw [h.raw_len]
  rw [counts_getD em i e hi] at h1
  rw [← h1]
  simp only [List.getD_eq_getElem?_getD, List.getElem?_map]
  cases em.raw_data[i]? <;> rfl

theorem registered_raw_length (em : ExperimentManager) (h : Registered em) :
    em.raw_data.length = em.expts.length := by
  have := congrArg List.length h.raw_len
  simpa [counts] using this

/-- The serial loop leaves the statistics vectors and the mode flag of the manager alone. -/
theorem serialTasks_frame_stats (rest : List SimulatedExperiment) :
    ∀ (i : Nat) (em : ExperimentManager) (tm : List ℚ),
    (serialTasks rest i em tm).em.use_synthetic_data = em.use_synthetic_data ∧
    (serialTasks rest i em tm).em.true_data = em.true_data ∧
    (serialTasks rest i em tm).em.true_std = em.true_std ∧
    (serialTasks rest i em tm).em.perturbed_data = em.perturbed_data := by
  induction rest with
  | nil => intro i em tm; simp [serialTasks]
  | cons e rest ih =>
    intro i em tm
    simp only [serialTasks]
    split
    · obtain ⟨h1, h2, h3, h4⟩ := ih (i + 1)
        { em with
          raw_data := em.raw_data.set i
            (e.GetMeasurements em.parameter_manager (em.raw_data.getD i [])).2
          calls := em.calls ++ [i] }
        (copyOut tm (em.data_offsets.getD i 0)
          ((em.raw_data.set i
            (e.GetMeasurements em.parameter_manager (em.raw_data.getD i [])).2).getD i [])
          e.NumMeasuredValues)
      exact ⟨h1, h2, h3, h4⟩
    · simp

/-- What a round leaves of the manager, on a registry whose plugins fill their buffers. -/
theorem GenerateTestMeasurements_frame (em : ExperimentManager)
    (test_params test_measurements : List ℚ) :
    (em.GenerateTestMeasurements test_params test_measurements).em.expts = em.expts ∧
    (em.GenerateTestMeasurements test_params test_measurements).em.data_offsets
      = em.data_offsets ∧
    (em.GenerateTestMeasurements test_params test_measurements).em.num_expt_data
      = em.num_expt_data ∧
    (em.GenerateTestMeasurements test_params test_measurements).em.parameter_manager
      = installParams em.parameter_manager test_params ∧
    (em.GenerateTestMeasurements test_params test_measurements).em.raw_data.length
      = em.raw_data.length ∧
    (em.GenerateTestMeasurements test_params test_measurements).em.use_synthetic_data
      = em.use_synthetic_data ∧
    (em.GenerateTestMeasurements test_params test_measurements).em.true_std = em.true_std ∧
    (em.GenerateTestMeasurements test_params test_measurements).em.perturbed_data
      = em.perturbed_data := by
  obtain ⟨_, _, f3, f4, f5, f6, f7⟩ := serialTasks_frame em.expts 0
    { em with
      parameter_manager := installParams em.parameter_manager test_params
      rounds := em.rounds + 1 }
    (vresize test_measurements em.num_expt_data 0)
  obtain ⟨s1, _, s3, s4⟩ := serialTasks_frame_stats em.expts 0
    { em with
      parameter_manager := installParams em.parameter_manager test_params
      rounds := em.rounds + 1 }
    (vresize test_measurements em.num_expt_data 0)
  exact ⟨f3, f4, f5, f6, f7, s1, s3, s4⟩

theorem GenerateTestMeasurements_raw_len (em : ExperimentManager) (hreg : Registered em)
    (hfill : FillsBuffers em) (test_params test_measurements : List ℚ) :
    (em.GenerateTestMeasurements test_params test_measurements).em.raw_data.map List.length
      = em.counts := by
  rw [← hreg.raw_len]
  simp only [GenerateTestMeasurements]
  apply serialTasks_raw_len
  intro k e hk
  simp only [Nat.zero_add]
  rw [registered_raw_getD em hreg k e hk]
  exact hfill e (List.getElem?_mem hk) _ _

/-- `InitializeTrueData` on a registry satisfying the registry invariant (in synthetic mode
with plugins that fill their buffers): it returns, and this is what it leaves. -/
theorem InitializeTrueData_run (em : ExperimentManager) (hreg : Registered em)
    (hfill : em.use_synthetic_data = true → FillsBuffers em) (tp : List ℚ) :
    ∃ em1, em.InitializeTrueData tp = some em1 ∧
      em1.true_std.length = em.num_expt_data ∧
      (∀ (i : Nat) (e : SimulatedExperiment), em.expts[i]? = some e →
        ∀ j, j < e.NumMeasuredValues →
          em1.true_std[em.data_offsets.getD i 0 + j]?
            = some ((e.GetMeasurementError (em.errorBuffer tp i e)).getD j 0)) ∧
      em1.perturbed_data = [] ∧
      em1.num_expt_data = em.num_expt_data ∧
      (em.use_synthetic_data = false → em1.true_data = em.true_data ∧ em1.calls = em.calls) ∧
      (em.use_synthetic_data = true →
        em1.true_data.length = em.num_expt_data ∧
        em1.calls = (em.GenerateTestMeasurements tp em.true_data).em.calls
          ++ List.range em.expts.length ∧
        em1.rounds = em.rounds + 1 ∧
        ((∀ (i : Nat) (e : SimulatedExperiment), em.expts[i]? = some e →
            ∀ j, j < e.NumMeasuredValues →
              (em.GenerateTestMeasurements tp em.true_data).test_measurements[
                  em.data_offsets.getD i 0 + j]?
                = some ((e.GetMeasurements (installParams em.parameter_manager tp)
                    ((em.GenerateTestMeasurements tp em.true_data).em.raw_data.getD i [])).2.getD
                      j 0)) →
          em1.true_data = (em.GenerateTestMeasurements tp em.true_data).test_measurements)) := by
  have hsum : (em.expts.map (·.NumMeasuredValues)).sum = em.num_expt_data := by
    rw [hreg.total]; rfl
  cases hs : em.use_synthetic_data
  · obtain ⟨em3, hloop, g1, _, g3, g4, g5, _, g7, _, g8, _⟩ := trueDataLoop_spec em.expts 0
      { em with true_std := vresize em.true_std em.num_expt_data 0 } 0
      (by
        intro k hk
        simp only [Nat.zero_add]
        exact registered_offset em hreg k hk)
      (by simp only [Nat.zero_add]; rw [registered_raw_length em hreg])
      (by
        intro k e hk
        simp only [Nat.zero_add]
        exact registered_raw_getD em hreg k e hk)
      (by intro h; simp only [hs] at h; exact absurd h (by decide))
      (by simp only [Nat.zero_add]; rw [vresize_length, hsum])
    refine ⟨{ em3 with perturbed_data := vresize em3.perturbed_data 0 0 }, ?_, ?_, ?_, ?_, ?_,
      ?_, ?_⟩
    · have hloop2 := hloop
      simp only [hs] at hloop2
      simp only [InitializeTrueData, hs, Bool.false_eq_true, if_false, NumExptData,
        Option.bind_eq_bind, hloop2, Option.some_bind]
    · simp only [g1, vresize_length]
    · intro i e hi j hj
      have := g3 i e hi j hj
      simp only [Nat.zero_add] at this
      rw [registered_offset em hreg i (by
        by_contra hcon
        rw [List.getElem?_eq_none (by omega)] at hi
        exact Option.noConfusion hi)]
      simp only [errorBuffer, hs, Bool.false_eq_true, if_false]
      simp only [errorInput, hs, Bool.false_eq_true, if_false] at this
      exact this
    · simp [vresize]
    · exact g5
    · intro _
      refine ⟨g8 hs, ?_⟩
      simp only [g7, hs, Bool.false_eq_true, if_false, List.append_nil]
    · intro h; exact absurd h (by decide)
  · obtain ⟨r1, r2, r3, r4, r5, r6, r7, r8⟩ :=
      GenerateTestMeasurements_frame em tp em.true_data
    have rlen := GenerateTestMeasurements_length em tp em.true_data
    have rraw := GenerateTestMeasurements_raw_len em hreg (hfill hs) tp em.true_data
    have rround := GenerateTestMeasurements_rounds em tp em.true_data
    have hrawget : ∀ (k : Nat) (e : SimulatedExperiment), em.expts[k]? = some e →
        ((em.GenerateTestMeasurements tp em.true_data).em.raw_data.getD k []).length
          = e.NumMeasuredValues := by
      intro k e hk
      have h1 : (((em.GenerateTestMeasurements tp em.true_data).em.raw_data.map
          List.length).getD k 0) = em.counts.getD k 0 := by rw [rraw]
      rw [counts_getD em k e hk] at h1
      rw [← h1]
      simp only [List.getD_eq_getElem?_getD, List.getElem?_map]
      cases (em.GenerateTestMeasurements tp em.true_data).em.raw_data[k]? <;> rfl
    obtain ⟨em3, hloop, g1, _, g3, g4, g5, g6, g7, gl, _, g9⟩ := trueDataLoop_spec em.expts 0
      { (em.GenerateTestMeasurements tp em.true_data).em with
        true_data := (em.GenerateTestMeasurements tp em.true_data).test_measurements
        true_std := vresize (em.GenerateTestMeasurements tp em.true_data).em.true_std
          em.num_expt_data 0 } 0
      (by
        intro k hk
        simp only [Nat.zero_add, r2]
        exact registered_offset em hreg k hk)
      (by simp only [Nat.zero_add, r5]; rw [registered_raw_length em hreg])
      (by
        intro k e hk
        simp only [Nat.zero_add]
        exact hrawget k e hk)
      (by
        intro _ k e hk
        exact hfill hs e (List.getElem?_mem hk) _ _)
      (by simp only [Nat.zero_add]; rw [vresize_length, hsum])
    refine ⟨{ em3 with perturbed_data := vresize em3.perturbed_data 0 0 }, ?_, ?_, ?_, ?_, ?_,
      ?_, ?_⟩
    · have hloop2 := hloop
      simp only [r1, r3] at hloop2
      simp only [InitializeTrueData, hs, if_true, NumExptData, Option.bind_eq_bind, r1, r3,
        hloop2, Option.some_bind]
    · simp only [g1, vresize_length]
    · intro i e hi j hj
      have := g3 i e hi j hj
      simp only [Nat.zero_add] at this
      rw [registered_offset em hreg i (by
        by_contra hcon
        rw [List.getElem?_eq_none (by omega)] at hi
        exact Option.noConfusion hi)]
      simp only [errorBuffer, hs, if_true]
      simp only [errorInput, r6, hs, if_true, r4] at this
      exact this
    · simp [vresize]
    · simp only [g5, r3]
    · intro h; exact absurd h (by decide)
    · intro _
      refine ⟨?_, ?_, ?_, ?_⟩
      · simp only [gl, rlen]
      · simp only [g7, r6, hs, if_true, List.range_eq_range']
      · simp only [g6, rround]
      · intro hsame
        simp only at g9
        apply g9
        intro k e hk j hj
        have := hsame k e hk j hj
        rw [registered_offset em hreg k (by
          by_contra hcon
          rw [List.getElem?_eq_none (by omega)] at hk
          exact Option.noConfusion hk)] at this
        simp only [Nat.zero_add, r4]
        exact this

theorem GenerateExptData_returns (em : ExperimentManager) (randn : Nat → ℚ)
    (h0 : em.perturbed_data = [])
    (hs : em.true_std.length = em.num_expt_data)
    (ht : em.true_data.length = em.num_expt_data) :
    ∃ em1, em.GenerateExptData randn = some em1 := by
  simp only [GenerateExptData, BL_ASSERT, h0, hs, ht, List.length_nil, beq_self_eq_true,
    if_true, Option.bind_eq_bind, Option.some_bind]
  exact ⟨_, rfl⟩

theorem demoExpt_fills (n : Nat) (lo : ℚ) (pm buf : List ℚ) :
    ((demoExpt n lo).GetMeasurements pm buf).2.length = n := by
  simp only [demoExpt]
  split
  · simp
  · exact vresize_length _ _ _

theorem demoRegistry_fills : FillsBuffers demoRegistry := by
  intro e he pm buf
  rw [demoRegistry_expts] at he
  simp only [List.mem_cons, List.mem_singleton, List.not_mem_nil, or_false] at he
  rcases he with rfl | rfl
  · exact demoExpt_fills _ _ _ _
  · exact demoExpt_fills _ _ _ _

/-- C14: on a registry satisfying the registry invariant (in synthetic mode with plugins
that fill their buffers), `InitializeTrueData` returns and leaves an observation-std
vector of length `total` in which, for every experiment `i` and every `j < n[i]`, entry
`o[i] + j` is entry `j` of the buffer the call `expts[i].GetMeasurementError` leaves; the
perturbed data is empty, and (the true data having `total` entries) a following
`GenerateExptData` returns. -/
theorem InitializeTrueData_std (em : ExperimentManager) (hreg : Registered em)
    (hfill : em.use_synthetic_data = true → FillsBuffers em) (true_parameters : List ℚ) :
    ∃ em1, em.InitializeTrueData true_parameters = some em1 ∧
      em1.true_std.length = em.NumExptData ∧
      (∀ (i : Nat) (e : SimulatedExperiment), em.expts[i]? = some e →
        ∀ (j : Nat) (v : ℚ), j < e.NumMeasuredValues →
          (e.GetMeasurementError (em.errorBuffer true_parameters i e))[j]? = some v →
          em1.true_std[em.data_offsets.getD i 0 + j]? = some v) ∧
      em1.perturbed_data = [] ∧
      ((em.use_synthetic_data = true ∨ em.true_data.length = em.num_expt_data) →
        ∀ randn, ∃ em2, em1.GenerateExptData randn = some em2) := by
  obtain ⟨em1, hrun, h1, h2, h3, h4, h5, h6⟩ := InitializeTrueData_run em hreg hfill true_parameters
  refine ⟨em1, hrun, h1, ?_, h3, ?_⟩
  · intro i e hi j v hj hv
    rw [h2 i e hi j hj, List.getD_eq_getElem?_getD, hv]
    rfl
  · intro hmode randn
    apply GenerateExptData_returns em1 randn h3 (by rw [h1, h4])
    cases hs : em.use_synthetic_data
    · rw [(h5 hs).1, h4]
      rcases hmode with h | h
      · rw [hs] at h; exact absurd h (by decide)
      · exact h
    · rw [(h6 hs).1, h4]

/-- C14 at the example registry (synthetic mode, counts `3` and `2`, both plugins reporting
the error `1`): the std vector has `total = 5` entries and the perturbed data is empty. -/
theorem InitializeTrueData_std_witness :
    (∃ em1, demoRegistry.InitializeTrueData [20] = some em1 ∧
      em1.true_std.length = demoRegistry.NumExptData ∧
      (∀ (i : Nat) (e : SimulatedExperiment), demoRegistry.expts[i]? = some e →
        ∀ (j : Nat) (v : ℚ), j < e.NumMeasuredValues →
          (e.GetMeasurementError (demoRegistry.errorBuffer [20] i e))[j]? = some v →
          em1.true_std[demoRegistry.data_offsets.getD i 0 + j]? = some v) ∧
      em1.perturbed_data = [] ∧
      ((demoRegistry.use_synthetic_data = true ∨
          demoRegistry.true_data.length = demoRegistry.num_expt_data) →
        ∀ randn, ∃ em2, em1.GenerateExptData randn = some em2)) ∧
    (demoRegistry.InitializeTrueData [20]).map (·.true_std) = some [1, 1, 1, 1, 1] :=
  ⟨InitializeTrueData_std demoRegistry demoRegistry_registered (fun _ => demoRegistry_fills)
    [20], by decide!⟩

/-- A pass more than needed does not change what the upper loop returns. -/
theorem bisect_kmax_mono (idx : Nat) (tol : ℚ) :
    ∀ (fuel : Nat) (k1 k2 : ℚ) (p : List ℚ) (e : ExperimentManager) (b : Bracket),
    bisect_kmax idx tol fuel k1 k2 p e = some b →
    bisect_kmax idx tol (fuel + 1) k1 k2 p e = some b := by
  intro fuel
  induction fuel with
  | zero => intro k1 k2 p e b h; simp [bisect_kmax] at h
  | succ fuel ih =>
    intro k1 k2 p e b h
    rw [bisect_kmax] at h ⊢
    cases hres : (e.isgoodParamVal ((k2 + k1) * 0.5) p idx).res <;>
      simp only [hres, if_true, Bool.false_eq_true, if_false] at h ⊢
    · split at h
      · next hgt => rw [if_pos hgt]; exact ih _ _ _ _ _ h
      · next hle => rw [if_neg hle]; exact h
    · split at h
      · next hgt => rw [if_pos hgt]; exact ih _ _ _ _ _ h
      · next hle => rw [if_neg hle]; exact h

/-- The upper loop ends in a state that oracle calls lead to. -/
theorem bisect_kmax_reach (em : ExperimentManager) (pvals : List ℚ) (idx : Nat) (tol : ℚ) :
    ∀ (fuel : Nat) (k1 k2 : ℚ) (p : List ℚ) (e : ExperimentManager) (b : Bracket),
    Reach em pvals idx e p → bisect_kmax idx tol fuel k1 k2 p e = some b →
    Reach em pvals idx b.em b.pvals := by
  intro fuel
  induction fuel with
  | zero => intro k1 k2 p e b _ h; simp [bisect_kmax] at h
  | succ fuel ih =>
    intro k1 k2 p e b hr h
    have hr1 := reach_call em pvals idx e p ((k2 + k1) * 0.5) hr
    rw [bisect_kmax] at h
    cases hres : (e.isgoodParamVal ((k2 + k1) * 0.5) p idx).res <;>
      simp only [hres, if_true, Bool.false_eq_true, if_false] at h
    · split at h
      · exact ih _ _ _ _ _ hr1 h
      · simp only [Option.some.injEq] at h
        subst h
        exact hr1
    · split at h
      · exact ih _ _ _ _ _ hr1 h
      · simp only [Option.some.injEq] at h
        subst h
        exact hr1

/-- Once the first half of the search returns, it returns the same with any more fuel, in
a state that oracle calls lead to. -/
theorem limit_kmax_mono (em : ExperimentManager) (pvals : List ℚ) (idx : Nat)
    (kmax ktyp tol : ℚ) (e : ExperimentManager) (p : List ℚ) (hr : Reach em pvals idx e p)
    (fuel0 : Nat) (out : ℚ × List ℚ × ExperimentManager)
    (h : e.limit_kmax kmax ktyp tol p idx fuel0 = some out) :
    ∀ fuel, fuel0 ≤ fuel →
      e.limit_kmax kmax ktyp tol p idx fuel = some out ∧ Reach em pvals idx out.2.2 out.2.1 := by
  have hr1 := reach_call em pvals idx e p kmax hr
  have hreach : Reach em pvals idx out.2.2 out.2.1 := by
    simp only [limit_kmax] at h
    split at h
    · obtain ⟨b, hb, hout⟩ := Option.map_eq_some'.mp h
      subst hout
      exact bisect_kmax_reach em pvals idx tol fuel0 _ _ _ _ b hr1 hb
    · simp only [Option.some.injEq] at h
      subst h
      exact hr1
  intro fuel hfuel
  refine ⟨?_, hreach⟩
  induction fuel, hfuel using Nat.le_induction with
  | base => exact h
  | succ n _ ih =>
    simp only [limit_kmax] at ih ⊢
    split
    · next hbad =>
      rw [if_pos hbad] at ih
      obtain ⟨b, hb, hout⟩ := Option.map_eq_some'.mp ih
      rw [bisect_kmax_mono idx tol n _ _ _ _ b hb]
      simp only [Option.map_some', hout]
    · next hgood =>
      rw [if_neg hgood] at ih
      exact ih

/-- What every state reachable from `onsetRegistry` with `pvals = [5]`, `idx = 0` looks like. -/
theorem onset_reach (e : ExperimentManager) (p : List ℚ)
    (hr : Reach onsetRegistry [5] 0 e p) :
    e.expts = [demoOnset] ∧ e.data_offsets = [0] ∧ e.num_expt_data = 1 ∧
      e.raw_data.length = 1 ∧ e.parameter_manager.length = 1 ∧ p.length = 1 := by
  induction hr with
  | start => exact ⟨rfl, rfl, rfl, rfl, rfl, rfl⟩
  | call e1 p1 k _ ih =>
    obtain ⟨h1, h2, h3, h4, h5, h6⟩ := ih
    obtain ⟨_, _, f3, f4, f5, f6, f7⟩ := serialTasks_frame e1.expts 0
      { e1 with
        parameter_manager := installParams e1.parameter_manager (p1.set 0 k)
        rounds := e1.rounds + 1 }
      (vresize (List.replicate e1.num_expt_data 0) e1.num_expt_data 0)
    simp only [isgoodParamVal, GenerateTestMeasurements, NumExptData]
    refine ⟨f3.trans h1, f4.trans h2, f5.trans h3, f7.trans h4, ?_, ?_⟩
    · rw [f6]
      simp only [installParams_length]
      exact h5
    · rw [List.length_set]; exact h6

/-- The first measurement on `onsetRegistry` is deterministic with the values `onsetValue`. -/
theorem onset_measure : DeterministicMeasure onsetRegistry [5] 0 onsetValue := by
  intro e p hr k
  obtain ⟨h1, h2, h3, h4, h5, h6⟩ := onset_reach e p hr
  obtain ⟨x, hx⟩ := List.length_eq_one.mp h6
  obtain ⟨y, hy⟩ := List.length_eq_one.mp h5
  obtain ⟨b, hb⟩ := List.length_eq_one.mp h4
  subst hx
  by_cases hk : k < 1 ∨ 10 < k
  · simp [firstMeasurement, GenerateTestMeasurements, NumExptData, serialTasks, installParams,
      copyOut, vresize, demoOnset, onsetValue, h1, h2, h3, hy, hb, hk, List.range_succ]
  · by_cases hk2 : k < 197 / 20
    · simp [firstMeasurement, GenerateTestMeasurements, NumExptData, serialTasks,
        installParams, copyOut, vresize, demoOnset, onsetValue, h1, h2, h3, hy, hb, hk, hk2,
        List.range_succ]
    · simp [firstMeasurement, GenerateTestMeasurements, NumExptData, serialTasks,
        installParams, copyOut, vresize, demoOnset, onsetValue, h1, h2, h3, hy, hb, hk, hk2,
        List.range_succ]

/-- The oracle on `onsetRegistry` is deterministic, valid exactly on `[1, 10]`. -/
theorem onset_oracle : DeterministicOracle onsetRegistry [5] 0 premixValid := by
  intro e p hr k
  have hm := onset_measure e p hr k
  obtain ⟨_, _, h3, _, _, _⟩ := onset_reach e p hr
  have hlen := GenerateTestMeasurements_length e (p.set 0 k) (List.replicate e.NumExptData 0)
  rw [h3] at hlen
  obtain ⟨d, hd⟩ := List.length_eq_one.mp hlen
  simp only [firstMeasurement, hd, List.getD_cons_zero] at hm
  have hres := isgoodParamVal_res e k p 0
  rw [hd] at hres
  simp only [List.mem_singleton, forall_eq] at hres
  rw [hm] at hres
  by_cases hk : k < 1 ∨ 10 < k
  · have hv : premixValid k = false := by
      simp only [premixValid, decide_eq_false_iff_not, not_and_or, not_le]
      exact hk
    have : ¬ (0 : ℚ) ≤ onsetValue k := by simp [onsetValue, hk]
    rw [hv]
    exact Bool.eq_false_iff.mpr (fun h => this (hres.mp h))
  · have hv : premixValid k = true := by
      simp only [premixValid, decide_eq_true_eq]
      simp only [not_or, not_lt] at hk
      exact hk
    have : (0 : ℚ) ≤ onsetValue k := by
      simp only [onsetValue, hk, if_false]
      split <;> norm_num
    rw [hv]
    exact hres.mpr this

/-- C16, what the code does at the failing input: on `onsetRegistry` (deterministic
oracle, valid exactly on `[1, 10]`) with `kmin = 0`, `kmax = 10`, `ktyp = 5` and the
caller's `tol = 1/10`, `get_param_limits` bisects `[kmin, ktyp]` down to width `≤ 1/10`
and returns `kmin = 65/64`, while `get_param_interesting`, whose local `tol` has been
overwritten with `0.1 * dvals[0] = 1/5` at line 550, stops at width `5/32` and returns
`kmin = 35/32`. -/
theorem get_param_interesting_kmin_differs :
    DeterministicOracle onsetRegistry [5] 0 premixValid ∧
    (onsetRegistry.get_param_limits 0 10 5 (1 / 10) [5] 0 20).map (·.kmin) = some (65 / 64) ∧
    (onsetRegistry.get_param_interesting 0 10 5 (1 / 10) [5] 0 20).map (·.kmin)
      = some (35 / 32) ∧
    (onsetRegistry.interesting_kmax 10 5 (1 / 10) [5] 0 20).map (·.2.1) = some (1 / 5) :=
  ⟨onset_oracle, by decide!, by decide!, by decide!⟩

/-! ## Evaluation round, master and workers -/

theorem sum_take_le (ns : List Nat) : ∀ (a b : Nat), a ≤ b → (ns.take a).sum ≤ (ns.take b).sum := by
  induction ns with
  | nil => intro a b _; simp
  | cons n ns ih =>
    intro a b hab
    cases a with
    | zero => simp
    | succ a =>
      cases b with
      | zero => omega
      | succ b =>
        simp only [List.take_succ_cons, List.sum_cons]
        have := ih a b (by omega)
        omega

theorem sum_take_succ_getD (ns : List Nat) (i : Nat) (hi : i < ns.length) :
    (ns.take (i + 1)).sum = (ns.take i).sum + ns.getD i 0 := by
  rw [List.take_succ, List.getElem?_eq_getElem hi, List.getD_eq_getElem?_getD,
    List.getElem?_eq_getElem hi]
  simp only [Option.toList_some, List.sum_append, List.sum_cons, List.sum_nil,
    Option.getD_some, Nat.add_zero]

/-- The slices of two different experiments do not meet. -/
theorem slices_disjoint (ns : List Nat) (i k : Nat) (hik : i ≠ k) (hi : i < ns.length)
    (hk : k < ns.length) (j : Nat) (hj : j < ns.getD k 0) :
    (ns.take k).sum + j < (ns.take i).sum ∨
      (ns.take i).sum + ns.getD i 0 ≤ (ns.take k).sum + j := by
  by_cases hlt : i < k
  · right
    have h1 := sum_take_le ns (i + 1) k (by omega)
    rw [sum_take_succ_getD ns i hi] at h1
    omega
  · left
    have h1 := sum_take_le ns (k + 1) i (by omega)
    rw [sum_take_succ_getD ns k hk] at h1
    omega

theorem expts_lt_of_getElem? (em : ExperimentManager) (i : Nat) (e : SimulatedExperiment)
    (h : em.expts[i]? = some e) : i < em.expts.length := by
  by_contra hcon
  rw [List.getElem?_eq_none (by omega)] at h
  exact Option.noConfusion h

/-- Copying the buffer of experiment `i` to its offset puts slice `i` in place and keeps
every slice that was in place. -/
theorem sliceDone_copyOut (em : ExperimentManager) (hreg : Registered em) (tp tm : List ℚ)
    (hlen : tm.length = em.num_expt_data) (i : Nat) (e : SimulatedExperiment)
    (hi : em.expts[i]? = some e) :
    SliceDone em tp (copyOut tm (em.data_offsets.getD i 0) (em.measured tp i e).2
        e.NumMeasuredValues) i ∧
    ∀ k, SliceDone em tp tm k →
      SliceDone em tp (copyOut tm (em.data_offsets.getD i 0) (em.measured tp i e).2
        e.NumMeasuredValues) k := by
  have hil := expts_lt_of_getElem? em i e hi
  have hcl : em.counts.length = em.expts.length := by simp [counts]
  have hni : em.counts.getD i 0 = e.NumMeasuredValues := counts_getD em i e hi
  have hfit : (em.counts.take i).sum + e.NumMeasuredValues ≤ tm.length := by
    rw [hlen, hreg.total, ← hni, ← sum_take_succ_getD em.counts i (by omega)]
    have := sum_take_le em.counts (i + 1) em.counts.length (by omega)
    rwa [List.take_length] at this
  refine ⟨?_, ?_⟩
  · intro e1 he1 j hj
    rw [hi] at he1
    obtain rfl := Option.some.inj he1
    apply copyOut_inside _ _ _ _ _ hj
    rw [registered_offset em hreg i hil]
    omega
  · intro k hk e1 he1 j hj
    by_cases hik : i = k
    · subst hik
      rw [hi] at he1
      obtain rfl := Option.some.inj he1
      apply copyOut_inside _ _ _ _ _ hj
      rw [registered_offset em hreg i hil]
      omega
    · have hkl := expts_lt_of_getElem? em k e1 he1
      have hnk : em.counts.getD k 0 = e1.NumMeasuredValues := counts_getD em k e1 he1
      rw [copyOut_outside, hk e1 he1 j hj]
      rw [registered_offset em hreg i hil, registered_offset em hreg k hkl, ← hni]
      exact slices_disjoint em.counts i k hik (by omega) (by omega) j (by omega)

theorem MasterInv.congr {em : ExperimentManager} {tp : List ℚ} {m m1 : Master}
    (h : MasterInv em tp m) (h1 : m1.em = m.em)
    (h2 : m1.test_measurements = m.test_measurements) (h3 : m1.ok = m.ok)
    (h4 : m1.Nexperiments_dispatched = m.Nexperiments_dispatched)
    (h5 : m1.workers = m.workers) : MasterInv em tp m1 :=
  ⟨by rw [h1]; exact h.expts, by rw [h1]; exact h.offsets, by rw [h1]; exact h.params,
    by rw [h1]; exact h.raw_len, by rw [h3]; exact h.ok, by rw [h2]; exact h.len,
    by rw [h4]; exact h.bound, by rw [h4, h5]; exact h.pending,
    by rw [h4, h5, h2]; exact h.done⟩

/-- Receiving the outstanding result of worker `w`, which then is no longer busy, keeps the
invariant of the master. -/
theorem masterInv_receive (em : ExperimentManager) (hreg : Registered em) (tp : List ℚ)
    (m : Master) (hinv : MasterInv em tp m) (w i : Nat) (k : Int) (b : List ℚ)
    (hw : m.workers[w]? = some (Worker.results i k b)) (s : Worker) (hs : ¬ s.busy) :
    ∃ m1, receiveResults m i k b = some m1 ∧
      MasterInv em tp { m1 with workers := m1.workers.set w s } ∧
      m1.workers = m.workers := by
  obtain ⟨hid, hk, e, he, hb⟩ := hinv.pending w i k b hw
  subst hk
  have hil := expts_lt_of_getElem? em i e he
  have hraw : i < m.em.raw_data.length := by
    rw [hinv.raw_len, registered_raw_length em hreg]; exact hil
  have hwl : w < m.workers.length := by
    by_contra hcon
    rw [List.getElem?_eq_none (by omega)] at hw
    exact Option.noConfusion hw
  have he1 : m.em.expts[i]? = some e := by rw [hinv.expts]; exact he
  have hcopy := sliceDone_copyOut em hreg tp m.test_measurements hinv.len i e he
  have hrec : receiveResults m i 1 b = some { m with
      em := { m.em with raw_data := m.em.raw_data.set i b }
      test_measurements := copyOut m.test_measurements (em.data_offsets.getD i 0)
        (em.measured tp i e).2 e.NumMeasuredValues
      intok := 1
      Nexperiments_finished := m.Nexperiments_finished + 1 } := by
    simp only [receiveResults, he1, hb, getD_set_self _ _ _ _ hraw, hinv.offsets, if_true,
      show ¬ ((1 : Int) < 0) by decide, if_false]
  refine ⟨_, hrec, ?_, rfl⟩
  refine ⟨hinv.expts, hinv.offsets, hinv.params, ?_, hinv.ok, ?_, hinv.bound, ?_, ?_⟩
  · simp only [List.length_set]; exact hinv.raw_len
  · simp only [copyOut_length]; exact hinv.len
  · intro w1 i1 k1 b1 hw1
    simp only at hw1
    by_cases hww : w = w1
    · subst hww
      rw [List.getElem?_set_self hwl] at hw1
      obtain rfl := Option.some.inj hw1
      exact absurd trivial hs
    · rw [List.getElem?_set_ne hww] at hw1
      exact hinv.pending w1 i1 k1 b1 hw1
  · intro i1 hi1
    rcases hinv.done i1 hi1 with hdone | ⟨w1, k1, b1, hw1⟩
    · exact Or.inl (hcopy.2 i1 hdone)
    · by_cases hww : w = w1
      · subst hww
        rw [hw] at hw1
        have h1 := Option.some.inj hw1
        injection h1 with h2 _ _
        subst h2
        exact Or.inl hcopy.1
      · exact Or.inr ⟨w1, k1, b1, by rw [List.getElem?_set_ne hww]; exact hw1⟩

/-- Every pass of the master loop keeps the invariant, in a round in which every plugin is
deterministic and succeeds. -/
theorem masterInv_step (em : ExperimentManager) (hreg : Registered em)
    (hdet : DeterministicPlugins em) (tp : List ℚ)
    (hsucc : ∀ (i : Nat) (e : SimulatedExperiment), em.expts[i]? = some e →
      (em.measured tp i e).1 = true)
    (wraw : Nat → List (List ℚ)) (m m1 : Master) (w : Nat) (hinv : MasterInv em tp m)
    (h : masterStep wraw m w = some m1) : MasterInv em tp m1 := by
  unfold masterStep at h
  cases hw : m.workers[w]? with
  | none => simp only [hw] at h; exact Option.noConfusion h
  | some s =>
    have hwl : w < m.workers.length := by
      by_contra hcon
      rw [List.getElem?_eq_none (by omega)] at hw
      exact Option.noConfusion hw
    cases s with
    | stopped => simp only [hw] at h; exact Option.noConfusion h
    | results i k b =>
      simp only [hw] at h
      obtain ⟨m2, hrec, hinv2, -⟩ :=
        masterInv_receive em hreg tp m hinv w i k b hw Worker.ready (fun hb => hb)
      rw [hrec, Option.map_some'] at h
      obtain rfl := Option.some.inj h
      exact hinv2
    | ready =>
      simp only [hw] at h
      cases he : m.em.expts[m.Nexperiments_dispatched]? with
      | none => simp only [he] at h; exact Option.noConfusion h
      | some e =>
        simp only [he] at h
        obtain rfl := Option.some.inj h
        have he1 : em.expts[m.Nexperiments_dispatched]? = some e := by
          rw [← hinv.expts]; exact he
        have hd := expts_lt_of_getElem? em _ e he1
        have hrun : workerRun e m.em.parameter_manager m.Nexperiments_dispatched
            ((wraw w).getD m.Nexperiments_dispatched []) =
            Worker.results m.Nexperiments_dispatched 1
              (em.measured tp m.Nexperiments_dispatched e).2 := by
          have h1 := hdet e (List.getElem?_mem he1) m.em.parameter_manager
            ((wraw w).getD m.Nexperiments_dispatched [])
            (em.raw_data.getD m.Nexperiments_dispatched [])
          have h2 := hsucc _ e he1
          rw [hinv.params] at h1
          simp only [measured] at h2 ⊢
          simp only [workerRun, hinv.params, h1, h2, if_true]
        refine ⟨hinv.expts, hinv.offsets, hinv.params, hinv.raw_len, hinv.ok, hinv.len,
          by simpa using hd, ?_, ?_⟩
        · intro w1 i1 k1 b1 hw1
          simp only [hrun] at hw1
          by_cases hww : w = w1
          · subst hww
            rw [List.getElem?_set_self hwl] at hw1
            have h1 := Option.some.inj hw1
            injection h1 with h2 h3 h4
            subst h2; subst h3; subst h4
            exact ⟨Nat.lt_succ_self _, rfl, e, he1, rfl⟩
          · rw [List.getElem?_set_ne hww] at hw1
            obtain ⟨h2, h3⟩ := hinv.pending w1 i1 k1 b1 hw1
            exact ⟨Nat.lt_succ_of_lt h2, h3⟩
        · intro i1 hi1
          simp only [hrun]
          simp only at hi1
          by_cases hid : i1 = m.Nexperiments_dispatched
          · subst hid
            exact Or.inr ⟨w, 1, _, List.getElem?_set_self hwl⟩
          · rcases hinv.done i1 (by omega) with hdone | ⟨w1, k1, b1, hw1⟩
            · exact Or.inl hdone
            · refine Or.inr ⟨w1, k1, b1, ?_⟩
              have hww : w ≠ w1 := by
                rintro rfl
                rw [hw] at hw1
                exact Worker.noConfusion (Option.some.inj hw1)
              rw [List.getElem?_set_ne hww]; exact hw1

/-- When the master loop returns in a round in which every plugin succeeds, the invariant
holds and every experiment has been dispatched. -/
theorem masterInv_dispatchLoop (em : ExperimentManager) (hreg : Registered em)
    (hdet : DeterministicPlugins em) (tp : List ℚ)
    (hsucc : ∀ (i : Nat) (e : SimulatedExperiment), em.expts[i]? = some e →
      (em.measured tp i e).1 = true)
    (wraw : Nat → List (List ℚ)) (schedule : List Nat) :
    ∀ (m m1 : Master), MasterInv em tp m → dispatchLoop wraw schedule m = some m1 →
      MasterInv em tp m1 ∧ m1.Nexperiments_dispatched = em.expts.length := by
  induction schedule with
  | nil => intro m m1 _ h; exact Option.noConfusion h
  | cons w rest ih =>
    intro m m1 hinv h
    rw [dispatchLoop] at h
    cases hstep : masterStep wraw m w with
    | none => simp only [hstep] at h; exact Option.noConfusion h
    | some m2 =>
      simp only [hstep] at h
      have hinv2 := masterInv_step em hreg hdet tp hsucc wraw m m2 w hinv hstep
      split at h
      · exact ih m2 m1 hinv2 h
      · rename_i hcond
        obtain rfl := Option.some.inj h
        refine ⟨hinv2, ?_⟩
        have hb := hinv2.bound
        simp only [hinv2.ok, hinv2.expts, Bool.and_true, decide_eq_true_eq] at hcond
        omega

/-- One pass of the clean-up loop keeps the invariant, leaves worker `i` with nothing
outstanding, and leaves the other workers as they were. -/
theorem masterInv_drainWorker (em : ExperimentManager) (hreg : Registered em) (tp : List ℚ)
    (m m1 : Master) (i : Nat) (hinv : MasterInv em tp m) (h : drainWorker m i = some m1) :
    MasterInv em tp m1 ∧ m1.workers = m.workers.set i Worker.stopped ∧
      m1.Nexperiments_dispatched = m.Nexperiments_dispatched := by
  unfold drainWorker at h
  cases hw : m.workers[i]? with
  | none => simp only [hw] at h; exact Option.noConfusion h
  | some s =>
    have hwl : i < m.workers.length := by
      by_contra hcon
      rw [List.getElem?_eq_none (by omega)] at hw
      exact Option.noConfusion hw
    cases s with
    | stopped => simp only [hw] at h; exact Option.noConfusion h
    | results j k b =>
      simp only [hw] at h
      obtain ⟨m2, hrec, hinv2, hwk⟩ :=
        masterInv_receive em hreg tp m hinv i j k b hw Worker.stopped (fun hb => hb)
      have hd : m2.Nexperiments_dispatched = m.Nexperiments_dispatched := by
        unfold receiveResults at hrec
        split at hrec
        · exact Option.noConfusion hrec
        · obtain rfl := Option.some.inj hrec; rfl
      rw [hrec, Option.map_some'] at h
      obtain rfl := Option.some.inj h
      exact ⟨hinv2.congr rfl rfl rfl rfl rfl,
        by show m2.workers.set i Worker.stopped = _; rw [hwk], hd⟩
    | ready =>
      simp only [hw] at h
      obtain rfl := Option.some.inj h
      refine ⟨⟨hinv.expts, hinv.offsets, hinv.params, hinv.raw_len, hinv.ok, hinv.len,
        hinv.bound, ?_, ?_⟩, rfl, rfl⟩
      · intro w1 i1 k1 b1 hw1
        simp only at hw1
        by_cases hww : i = w1
        · subst hww
          rw [List.getElem?_set_self hwl] at hw1
          exact Worker.noConfusion (Option.some.inj hw1)
        · rw [List.getElem?_set_ne hww] at hw1
          exact hinv.pending w1 i1 k1 b1 hw1
      · intro i1 hi1
        rcases hinv.done i1 hi1 with hdone | ⟨w1, k1, b1, hw1⟩
        · exact Or.inl hdone
        · refine Or.inr ⟨w1, k1, b1, ?_⟩
          have hww : i ≠ w1 := by
            rintro rfl
            rw [hw] at hw1
            exact Worker.noConfusion (Option.some.inj hw1)
          simp only
          rw [List.getElem?_set_ne hww]; exact hw1

/-- After the clean-up loop, the invariant holds and no listed worker has a result
outstanding, nor any worker that had none before. -/
theorem masterInv_drainLoop (em : ExperimentManager) (hreg : Registered em) (tp : List ℚ)
    (ws : List Nat) :
    ∀ (m m1 : Master), MasterInv em tp m → drainLoop ws m = some m1 →
      MasterInv em tp m1 ∧ m1.Nexperiments_dispatched = m.Nexperiments_dispatched ∧
      ∀ (w : Nat) (s : Worker), m1.workers[w]? = some s →
        (w ∈ ws ∨ ∀ s0, m.workers[w]? = some s0 → ¬ s0.busy) → ¬ s.busy := by
  induction ws with
  | nil =>
    intro m m1 hinv h
    obtain rfl := Option.some.inj h
    refine ⟨hinv, rfl, ?_⟩
    intro w s hs hor
    rcases hor with hmem | hfree
    · exact absurd hmem (List.not_mem_nil w)
    · exact hfree s hs
  | cons i rest ih =>
    intro m m1 hinv h
    rw [drainLoop] at h
    cases hstep : drainWorker m i with
    | none => simp only [hstep, Option.bind] at h; exact Option.noConfusion h
    | some m2 =>
      simp only [hstep, Option.bind] at h
      obtain ⟨hinv2, hwk, hd⟩ := masterInv_drainWorker em hreg tp m m2 i hinv hstep
      obtain ⟨hinv3, hd3, hfree3⟩ := ih m2 m1 hinv2 h
      refine ⟨hinv3, by rw [hd3, hd], ?_⟩
      intro w s hs hor
      apply hfree3 w s hs
      by_cases hwi : w = i
      · right
        intro s0 hs0
        rw [hwk, hwi] at hs0
        by_cases hil : i < m.workers.length
        · rw [List.getElem?_set_self hil] at hs0
          obtain rfl := Option.some.inj hs0
          exact fun hb => hb
        · rw [List.getElem?_eq_none (by simp only [List.length_set]; omega)] at hs0
          exact Option.noConfusion hs0
      · rcases hor with hmem | hfree
        · left
          rcases List.mem_cons.mp hmem with h1 | h1
          · exact absurd h1 hwi
          · exact h1
        · right
          intro s0 hs0
          rw [hwk, List.getElem?_set_ne (fun hcon => hwi hcon.symm)] at hs0
          exact hfree s0 hs0

/-- In the serial build, a round in which every plugin succeeds returns `true` and a vector
of `NumExptData()` entries that has every slice in place. -/
theorem serial_sliceDone (em : ExperimentManager) (hreg : Registered em)
    (tp tm : List ℚ)
    (hsucc : ∀ (i : Nat) (e : SimulatedExperiment), em.expts[i]? = some e →
      (em.measured tp i e).1 = true) :
    (em.GenerateTestMeasurements tp tm).ok = true ∧
    (em.GenerateTestMeasurements tp tm).test_measurements.length = em.num_expt_data ∧
    ∀ i, SliceDone em tp (em.GenerateTestMeasurements tp tm).test_measurements i := by
  have hrl : em.raw_data.length = em.expts.length := registered_raw_length em hreg
  have hmain := serialTasks_all_ok em.expts 0
    { em with
      parameter_manager := installParams em.parameter_manager tp
      rounds := em.rounds + 1 }
    (vresize tm em.num_expt_data 0) 0
    (by
      intro k hk
      simp only [Nat.zero_add]
      exact registered_offset em hreg k hk)
    (by simp only [Nat.zero_add]; omega)
    (by
      rw [vresize_length, hreg.total]
      simp [counts])
    (by
      intro k e hk
      simp only [Nat.zero_add]
      exact hsucc k e hk)
  obtain ⟨h1, h2, _, h4⟩ := hmain
  refine ⟨h1, ?_, ?_⟩
  · simp only [GenerateTestMeasurements, NumExptData]
    rw [h2, vresize_length]
  · intro i e hi j hj
    have hil := expts_lt_of_getElem? em i e hi
    have := h4 i e hi j hj
    simp only [Nat.zero_add] at this
    rw [registered_offset em hreg i hil]
    simp only [GenerateTestMeasurements, NumExptData, counts]
    rw [this]
    rfl

/-- Two vectors of `NumExptData()` entries that have every slice in place are equal. -/
theorem eq_of_sliceDone (em : ExperimentManager) (hreg : Registered em) (tp v1 v2 : List ℚ)
    (h1 : v1.length = em.num_expt_data) (h2 : v2.length = em.num_expt_data)
    (d1 : ∀ i, i < em.expts.length → SliceDone em tp v1 i)
    (d2 : ∀ i, i < em.expts.length → SliceDone em tp v2 i) : v1 = v2 := by
  apply List.ext_getElem?
  intro p
  by_cases hp : p < em.num_expt_data
  · have hcl : em.counts.length = em.expts.length := by simp [counts]
    have hp2 : p < (em.counts.take em.expts.length).sum := by
      rw [List.take_of_length_le (by omega), ← hreg.total]; exact hp
    obtain ⟨i, j, hi, _, hj, hpe⟩ := slice_of_lt em.counts em.expts.length p hp2
    have he : em.expts[i]? = some (em.expts.get ⟨i, hi⟩) := List.getElem?_eq_getElem hi
    rw [counts_getD em i _ he] at hj
    rw [hpe, ← registered_offset em hreg i hi, d1 i hi _ he j hj, d2 i hi _ he j hj]
  · rw [List.getElem?_eq_none (by omega), List.getElem?_eq_none (by omega)]

theorem outstanding_set (ws : List Worker) :
    ∀ (i : Nat) (s0 s : Worker), ws[i]? = some s0 →
      outstanding (ws.set i s) + outstanding [s0] = outstanding ws + outstanding [s] := by
  induction ws with
  | nil => intro i s0 s h; exact Option.noConfusion h
  | cons a rest ih =>
    intro i s0 s h
    cases i with
    | zero =>
      simp only [List.getElem?_cons_zero, Option.some.injEq] at h
      subst h
      simp only [List.set_cons_zero]
      cases a <;> cases s <;> simp only [outstanding]
    | succ i =>
      simp only [List.getElem?_cons_succ] at h
      have := ih i s0 s h
      simp only [List.set_cons_succ]
      cases a <;> simp only [outstanding] at this ⊢ <;> omega

theorem outstanding_replicate (n : Nat) : outstanding (List.replicate n Worker.ready) = 0 := by
  induction n with
  | zero => rfl
  | succ n ih => simp only [List.replicate_succ, outstanding, ih]

theorem alive_set (ws : List Worker) (h : Alive ws) (i : Nat) (s : Worker)
    (hs : s ≠ Worker.stopped) : Alive (ws.set i s) := by
  intro w hw
  by_cases hiw : i = w
  · subst hiw
    by_cases hil : i < ws.length
    · rw [List.getElem?_set_self hil] at hw
      exact hs (Option.some.inj hw)
    · rw [List.getElem?_eq_none (by simp only [List.length_set]; omega)] at hw
      exact Option.noConfusion hw
  · rw [List.getElem?_set_ne hiw] at hw
    exact h w hw

theorem alive_replicate (n : Nat) : Alive (List.replicate n Worker.ready) := by
  intro w hw
  rw [List.getElem?_replicate] at hw
  split at hw
  · exact Worker.noConfusion (Option.some.inj hw)
  · exact Option.noConfusion hw

/-- While an experiment is left to dispatch, a pass of the master loop for any worker that
has not been stopped goes through, and brings the loop one step nearer its end. -/
theorem masterStep_progress (em : ExperimentManager) (hreg : Registered em) (tp : List ℚ)
    (wraw : Nat → List (List ℚ)) (m : Master) (w : Nat) (hinv : MasterInv em tp m)
    (halive : Alive m.workers) (hw : w < m.workers.length)
    (hd : m.Nexperiments_dispatched < em.expts.length) :
    ∃ m1, masterStep wraw m w = some m1 ∧ Alive m1.workers ∧
      m1.workers.length = m.workers.length ∧
      2 * (em.expts.length - m1.Nexperiments_dispatched) + outstanding m1.workers + 1 =
        2 * (em.expts.length - m.Nexperiments_dispatched) + outstanding m.workers := by
  have hws : m.workers[w]? = some (m.workers.get ⟨w, hw⟩) := List.getElem?_eq_getElem hw
  generalize m.workers.get ⟨w, hw⟩ = s at hws
  cases s with
  | stopped => exact absurd hws (halive w)
  | ready =>
    have he : m.em.expts[m.Nexperiments_dispatched]? =
        some (em.expts.get ⟨m.Nexperiments_dispatched, hd⟩) := by
      rw [hinv.expts]; exact List.getElem?_eq_getElem hd
    cases hstep : masterStep wraw m w with
    | none =>
      unfold masterStep at hstep
      simp only [hws, he] at hstep
      exact Option.noConfusion hstep
    | some m1 =>
      unfold masterStep at hstep
      simp only [hws, he] at hstep
      obtain rfl := Option.some.inj hstep
      refine ⟨_, rfl, ?_, ?_, ?_⟩
      · exact alive_set _ halive _ _ (fun hcon => Worker.noConfusion hcon)
      · simp only [List.length_set]
      · have := outstanding_set m.workers w Worker.ready
          (workerRun (em.expts.get ⟨m.Nexperiments_dispatched, hd⟩) m.em.parameter_manager
            m.Nexperiments_dispatched ((wraw w).getD m.Nexperiments_dispatched [])) hws
        simp only [workerRun, outstanding] at this ⊢
        omega
  | results i k b =>
    obtain ⟨m2, hrec, -, hwk⟩ :=
      masterInv_receive em hreg tp m hinv w i k b hws Worker.ready (fun hb => hb)
    have hd2 : m2.Nexperiments_dispatched = m.Nexperiments_dispatched := by
      unfold receiveResults at hrec
      split at hrec
      · exact Option.noConfusion hrec
      · obtain rfl := Option.some.inj hrec; rfl
    cases hstep : masterStep wraw m w with
    | none =>
      unfold masterStep at hstep
      simp only [hws, hrec, Option.map_some'] at hstep
      exact Option.noConfusion hstep
    | some m1 =>
      unfold masterStep at hstep
      simp only [hws, hrec, Option.map_some'] at hstep
      obtain rfl := Option.some.inj hstep
      refine ⟨_, rfl, ?_, ?_, ?_⟩
      · simp only [hwk]
        exact alive_set _ halive _ _ (fun hcon => Worker.noConfusion hcon)
      · simp only [List.length_set, hwk]
      · have := outstanding_set m.workers w (Worker.results i k b) Worker.ready hws
        simp only [outstanding] at this
        simp only [hwk, hd2]
        omega

/-- The master loop returns on every schedule that names workers of the run only and lists
at least `2 * N - 1` arrivals, in a round in which every plugin succeeds. -/
theorem dispatchLoop_returns (em : ExperimentManager) (hreg : Registered em)
    (hdet : DeterministicPlugins em) (tp : List ℚ)
    (hsucc : ∀ (i : Nat) (e : SimulatedExperiment), em.expts[i]? = some e →
      (em.measured tp i e).1 = true)
    (wraw : Nat → List (List ℚ)) (schedule : List Nat) :
    ∀ (m : Master), MasterInv em tp m → Alive m.workers →
      (∀ w ∈ schedule, w < m.workers.length) →
      m.Nexperiments_dispatched < em.expts.length →
      2 * (em.expts.length - m.Nexperiments_dispatched) + outstanding m.workers
        ≤ schedule.length + 1 →
      ∃ m1, dispatchLoop wraw schedule m = some m1 ∧ Alive m1.workers ∧
        m1.workers.length = m.workers.length := by
  induction schedule with
  | nil =>
    intro m _ _ _ hd hlen
    simp only [List.length_nil] at hlen
    omega
  | cons w rest ih =>
    intro m hinv halive hsched hd hlen
    obtain ⟨m1, hstep, halive1, hlen1, hmeas⟩ :=
      masterStep_progress em hreg tp wraw m w hinv halive
        (hsched w (List.mem_cons_self w rest)) hd
    have hinv1 := masterInv_step em hreg hdet tp hsucc wraw m m1 w hinv hstep
    rw [dispatchLoop]
    simp only [hstep]
    by_cases hcond : (decide (m1.Nexperiments_dispatched < m1.em.expts.length) && m1.ok) = true
    · simp only [hcond, if_true]
      have hd1 : m1.Nexperiments_dispatched < em.expts.length := by
        simp only [hinv1.ok, hinv1.expts, Bool.and_true, decide_eq_true_eq] at hcond
        exact hcond
      obtain ⟨m2, h2, h3, h4⟩ := ih m1 hinv1 halive1
        (by
          intro v hv
          rw [hlen1]
          exact hsched v (List.mem_cons_of_mem w hv))
        hd1
        (by simp only [List.length_cons] at hlen; omega)
      exact ⟨m2, h2, h3, by rw [h4, hlen1]⟩
    · simp only [hcond, if_false]
      exact ⟨m1, rfl, halive1, hlen1⟩

/-- The clean-up loop returns when it visits, once each, workers that have not been
stopped. -/
theorem drainLoop_returns (em : ExperimentManager) (hreg : Registered em) (tp : List ℚ)
    (ws : List Nat) :
    ∀ (m : Master), MasterInv em tp m → ws.Nodup →
      (∀ w ∈ ws, w < m.workers.length ∧ m.workers[w]? ≠ some Worker.stopped) →
      ∃ m1, drainLoop ws m = some m1 := by
  induction ws with
  | nil => intro m _ _ _; exact ⟨m, rfl⟩
  | cons i rest ih =>
    intro m hinv hnd hws
    obtain ⟨hil, hns⟩ := hws i (List.mem_cons_self i rest)
    have hstep : ∃ m2, drainWorker m i = some m2 := by
      have hwi : m.workers[i]? = some (m.workers.get ⟨i, hil⟩) := List.getElem?_eq_getElem hil
      generalize m.workers.get ⟨i, hil⟩ = s at hwi
      cases hdw : drainWorker m i with
      | some m2 => exact ⟨m2, rfl⟩
      | none =>
        exfalso
        unfold drainWorker at hdw
        cases s with
        | stopped => exact absurd hwi hns
        | ready =>
          simp only [hwi] at hdw
          exact Option.noConfusion hdw
        | results j k b =>
          obtain ⟨m2, hrec, -, -⟩ :=
            masterInv_receive em hreg tp m hinv i j k b hwi Worker.stopped (fun hb => hb)
          simp only [hwi, hrec, Option.map_some'] at hdw
          exact Option.noConfusion hdw
    obtain ⟨m2, hm2⟩ := hstep
    obtain ⟨hinv2, hwk, -⟩ := masterInv_drainWorker em hreg tp m m2 i hinv hm2
    have hnd2 := List.nodup_cons.mp hnd
    obtain ⟨m3, hm3⟩ := ih m2 hinv2 hnd2.2 (by
      intro v hv
      have hvi : i ≠ v := fun hcon => hnd2.1 (hcon ▸ hv)
      obtain ⟨h1, h2⟩ := hws v (List.mem_cons_of_mem i hv)
      rw [hwk, List.length_set, List.getElem?_set_ne hvi]
      exact ⟨h1, h2⟩)
    exact ⟨m3, by rw [drainLoop, hm2]; exact hm3⟩

theorem receiveResults_workers (m m1 : Master) (i : Nat) (k : Int) (b : List ℚ)
    (h : receiveResults m i k b = some m1) : m1.workers = m.workers := by
  unfold receiveResults at h
  split at h
  · exact Option.noConfusion h
  · obtain rfl := Option.some.inj h; rfl

theorem masterStep_length (wraw : Nat → List (List ℚ)) (m m1 : Master) (w : Nat)
    (h : masterStep wraw m w = some m1) : m1.workers.length = m.workers.length := by
  unfold masterStep at h
  split at h
  · split at h
    · exact Option.noConfusion h
    · obtain rfl := Option.some.inj h
      simp only [List.length_set]
  · rename_i i k b _
    cases hrec : receiveResults m i k b with
    | none => simp only [hrec, Option.map_none'] at h; exact Option.noConfusion h
    | some m2 =>
      simp only [hrec, Option.map_some'] at h
      obtain rfl := Option.some.inj h
      simp only [List.length_set, receiveResults_workers m m2 i k b hrec]
  · exact Option.noConfusion h

theorem dispatchLoop_length (wraw : Nat → List (List ℚ)) (schedule : List Nat) :
    ∀ (m m1 : Master), dispatchLoop wraw schedule m = some m1 →
      m1.workers.length = m.workers.length := by
  induction schedule with
  | nil => intro m m1 h; exact Option.noConfusion h
  | cons w rest ih =>
    intro m m1 h
    rw [dispatchLoop] at h
    cases hstep : masterStep wraw m w with
    | none => simp only [hstep] at h; exact Option.noConfusion h
    | some m2 =>
      simp only [hstep] at h
      have hl := masterStep_length wraw m m2 w hstep
      split at h
      · rw [ih m2 m1 h, hl]
      · obtain rfl := Option.some.inj h
        exact hl

/-- The state in which the master enters its loop satisfies the invariant. -/
theorem masterInv_initial (em : ExperimentManager) (tp tm : List ℚ) (nworkers : Nat) :
    MasterInv em tp
      { em := { em with
          parameter_manager := installParams em.parameter_manager tp
          rounds := em.rounds + 1 }
        test_measurements := vresize tm em.num_expt_data 0
        ok := true
        intok := -1
        Nexperiments_dispatched := 0
        Nexperiments_finished := 0
        workers := List.replicate nworkers Worker.ready
        sent := [] } := by
  refine ⟨rfl, rfl, rfl, rfl, rfl, vresize_length _ _ _, Nat.zero_le _, ?_, ?_⟩
  · intro w i k b hw
    simp only [List.getElem?_replicate] at hw
    split at hw
    · exact Worker.noConfusion (Option.some.inj hw)
    · exact Option.noConfusion hw
  · intro i hi
    exact absurd hi (Nat.not_lt_zero i)

/-- Whenever the distributed round returns, in a round in which every plugin succeeds, it
returns `true` and the vector of the sequential round. -/
theorem mpi_agrees (em : ExperimentManager) (hreg : Registered em)
    (hdet : DeterministicPlugins em) (tp tm : List ℚ)
    (hsucc : ∀ (i : Nat) (e : SimulatedExperiment), em.expts[i]? = some e →
      (em.measured tp i e).1 = true)
    (nworkers : Nat) (wraw : Nat → List (List ℚ)) (schedule : List Nat) (r : Round)
    (hrun : em.GenerateTestMeasurementsMPI tp tm nworkers wraw schedule = some r) :
    r.ok = (em.GenerateTestMeasurements tp tm).ok ∧
    r.test_measurements = (em.GenerateTestMeasurements tp tm).test_measurements := by
  have hinv0 := masterInv_initial em tp tm nworkers
  obtain ⟨hsok, hslen, hsdone⟩ := serial_sliceDone em hreg tp tm hsucc
  unfold GenerateTestMeasurementsMPI at hrun
  simp only [NumExptData] at hrun
  split at hrun
  · exact Option.noConfusion hrun
  · rename_i m1 h1
    split at hrun
    · exact Option.noConfusion hrun
    · rename_i m2 h2
      obtain rfl := Option.some.inj hrun
      obtain ⟨hinv1, hd1⟩ :=
        masterInv_dispatchLoop em hreg hdet tp hsucc wraw schedule _ m1 hinv0 h1
      obtain ⟨hinv2, hd2, hfree⟩ :=
        masterInv_drainLoop em hreg tp (List.range nworkers) m1 m2 hinv1 h2
      have hwl : m1.workers.length = nworkers := by
        rw [dispatchLoop_length wraw schedule _ m1 h1]
        exact List.length_replicate nworkers Worker.ready
      refine ⟨by rw [hsok]; exact hinv2.ok, ?_⟩
      apply eq_of_sliceDone em hreg tp _ _ hinv2.len hslen
      · intro i hi
        rcases hinv2.done i (by rw [hd2, hd1]; exact hi) with hdone | ⟨w, k, b, hw⟩
        · exact hdone
        · exfalso
          refine hfree w _ hw ?_ trivial
          by_cases hwn : w < nworkers
          · exact Or.inl (List.mem_range.mpr hwn)
          · right
            intro s0 hs0
            rw [List.getElem?_eq_none (by omega)] at hs0
            exact Option.noConfusion hs0
      · intro i _
        exact hsdone i

/-- The distributed round returns on every schedule that names workers of the run only and
lists at least `2 * N - 1` arrivals, when there is an experiment and every plugin
succeeds. -/
theorem mpi_returns (em : ExperimentManager) (hreg : Registered em)
    (hdet : DeterministicPlugins em) (tp tm : List ℚ)
    (hsucc : ∀ (i : Nat) (e : SimulatedExperiment), em.expts[i]? = some e →
      (em.measured tp i e).1 = true)
    (nworkers : Nat) (wraw : Nat → List (List ℚ)) (schedule : List Nat)
    (hN : 0 < em.expts.length) (hsched : ∀ w ∈ schedule, w < nworkers)
    (hlen : 2 * em.expts.length ≤ schedule.length + 1) :
    ∃ r, em.GenerateTestMeasurementsMPI tp tm nworkers wraw schedule = some r := by
  have hinv0 := masterInv_initial em tp tm nworkers
  obtain ⟨m1, h1, halive1, hlen1⟩ :=
    dispatchLoop_returns em hreg hdet tp hsucc wraw schedule _ hinv0
      (alive_replicate nworkers)
      (by
        intro w hw
        simp only [List.length_replicate]
        exact hsched w hw)
      hN
      (by simp only [outstanding_replicate, Nat.sub_zero, Nat.add_zero]; exact hlen)
  obtain ⟨hinv1, -⟩ :=
    masterInv_dispatchLoop em hreg hdet tp hsucc wraw schedule _ m1 hinv0 h1
  simp only [List.length_replicate] at hlen1
  obtain ⟨m2, h2⟩ := drainLoop_returns em hreg tp (List.range nworkers) m1 hinv1
    (List.nodup_range nworkers)
    (by
      intro w hw
      exact ⟨by rw [hlen1]; exact List.mem_range.mp hw, halive1 w⟩)
  refine ⟨⟨m2.ok, m2.test_measurements, m2.em⟩, ?_⟩
  unfold GenerateTestMeasurementsMPI
  simp only [NumExptData, h1, h2]

theorem twinRegistry_registered : Registered twinRegistry :=
  (registered_AddExperiments _ _ (registered_Clear _)).1

theorem twinRegistry_mem (e : SimulatedExperiment) (he : e ∈ twinRegistry.expts) :
    e = demoPremix ∨ e = demoOnset := by
  simpa [twinRegistry, AddExperiments, AddExperiment, Clear, blank] using he

theorem twinRegistry_deterministic : DeterministicPlugins twinRegistry := by
  intro e he pm b1 b2
  rcases twinRegistry_mem e he with rfl | rfl <;> rfl

theorem twinRegistry_succeeds (p : List ℚ) (i : Nat) (e : SimulatedExperiment)
    (hi : twinRegistry.expts[i]? = some e) : (twinRegistry.measured p i e).1 = true := by
  rcases twinRegistry_mem e (List.getElem?_mem hi) with rfl | rfl
  · simp only [measured, demoPremix]
    split <;> rfl
  · simp only [measured, demoOnset]
    split
    · rfl
    · split <;> rfl

/-- C20, as the code has it: on a registry of deterministic plugins satisfying the registry
invariant, in a round in which every plugin call succeeds, whenever the distributed
(master/worker) evaluation returns, under any schedule of arrivals and any worker-local
buffers, it returns `true` and the flat vector of the sequential evaluation; and it does
return on every schedule that names workers of the run only and lists at least `2 * N - 1`
arrivals, when the registry holds `N ≥ 1` experiments. -/
theorem GenerateTestMeasurementsMPI_eq_serial (em : ExperimentManager) (hreg : Registered em)
    (hdet : DeterministicPlugins em) (tp tm : List ℚ)
    (hsucc : ∀ (i : Nat) (e : SimulatedExperiment), em.expts[i]? = some e →
      (em.measured tp i e).1 = true)
    (nworkers : Nat) (wraw : Nat → List (List ℚ)) (schedule : List Nat) :
    (∀ r, em.GenerateTestMeasurementsMPI tp tm nworkers wraw schedule = some r →
      r.ok = (em.GenerateTestMeasurements tp tm).ok ∧
      r.test_measurements = (em.GenerateTestMeasurements tp tm).test_measurements) ∧
    (0 < em.expts.length → (∀ w ∈ schedule, w < nworkers) →
      2 * em.expts.length ≤ schedule.length + 1 →
      ∃ r, em.GenerateTestMeasurementsMPI tp tm nworkers wraw schedule = some r) :=
  ⟨fun r hrun => mpi_agrees em hreg hdet tp tm hsucc nworkers wraw schedule r hrun,
    fun hN hsched hlen =>
      mpi_returns em hreg hdet tp tm hsucc nworkers wraw schedule hN hsched hlen⟩

/-- C20 as amended, at `twinRegistry` with two workers, worker `1` answered first and
never worker `0` until the last pass: the distributed round returns the vector `[5, 1]`
of the sequential round. -/
theorem GenerateTestMeasurementsMPI_eq_serial_witness :
    (twinRegistry.GenerateTestMeasurementsMPI [5] [] 2 (fun _ => []) [1, 1, 0]).map
        (·.test_measurements) = some [5, 1] ∧
    (twinRegistry.GenerateTestMeasurements [5] []).test_measurements = [5, 1] ∧
    ((∀ r, twinRegistry.GenerateTestMeasurementsMPI [5] [] 2 (fun _ => []) [1, 1, 0] = some r →
      r.ok = (twinRegistry.GenerateTestMeasurements [5] []).ok ∧
      r.test_measurements = (twinRegistry.GenerateTestMeasurements [5] []).test_measurements) ∧
    (0 < twinRegistry.expts.length → (∀ w ∈ [1, 1, 0], w < 2) →
      2 * twinRegistry.expts.length ≤ [1, 1, 0].length + 1 →
      ∃ r, twinRegistry.GenerateTestMeasurementsMPI [5] [] 2 (fun _ => []) [1, 1, 0] = some r)) :=
  ⟨by decide!, by decide!,
    GenerateTestMeasurementsMPI_eq_serial twinRegistry twinRegistry_registered
      twinRegistry_deterministic [5] [] (twinRegistry_succeeds [5]) 2 (fun _ => [])
      [1, 1, 0]⟩

/-- C20 as stated fails: at `failFirstRegistry` with the parameter value `5`, experiment `0`
fails and experiment `1` succeeds; the sequential round stops at the failure and leaves the
slice of experiment `1` at zero, while the distributed round with two workers has
dispatched experiment `1` already and copies its result. -/
theorem GenerateTestMeasurementsMPI_eq_serial_counterexample :
    Registered failFirstRegistry ∧ DeterministicPlugins failFirstRegistry ∧
    (failFirstRegistry.GenerateTestMeasurementsMPI [5] [] 2
        (fun _ => failFirstRegistry.raw_data) [0, 1]).map (·.test_measurements)
      = some [0, 0, 0, 5, 5] ∧
    (failFirstRegistry.GenerateTestMeasurements [5] []).test_measurements
      = [0, 0, 0, 0, 0] := by
  refine ⟨(registered_AddExperiments _ _ (registered_Clear _)).1, ?_, by decide!, by decide!⟩
  intro e he pm b1 b2
  have he1 : e = demoSteady 3 10 ∨ e = demoSteady 2 0 := by
    simpa [failFirstRegistry, AddExperiments, AddExperiment, Clear, blank] using he
  rcases he1 with rfl | rfl <;> rfl

/-! ## Evaluation round, frame of a failed round -/

theorem vresize_getElem? (v : List ℚ) (n p : Nat) (hp : p < n) :
    (vresize v n 0)[p]? = some (v.getD p 0) := by
  simp only [vresize]
  by_cases hv : p < v.length
  · rw [List.getElem?_append_left (by rw [List.length_take]; omega), List.getElem?_take_of_lt hp,
      List.getD_eq_getElem?_getD, List.getElem?_eq_getElem hv]
    rfl
  · have hlen : (v.take n).length = v.length := by rw [List.length_take]; omega
    rw [List.getElem?_append_right (by omega), hlen, List.getElem?_replicate,
      if_pos (by omega), List.getD_eq_getElem?_getD, List.getElem?_eq_none (by omega)]
    rfl

/-- C27: in the serial build, on a registry satisfying the registry invariant, when
experiment `f` is the first whose `GetMeasurements` call returns `false`, the round returns
`false` and a vector of `NumExptData()` entries in which the slices of the experiments
`0 … f-1` hold what those plugins produced and every entry at a position `p ≥ o[f]` is
the entry `p` of the caller's vector, or `0` where the caller's vector was shorter. -/
theorem GenerateTestMeasurements_failed_frame (em : ExperimentManager) (hreg : Registered em)
    (test_params test_measurements : List ℚ) (f : Nat) (e : SimulatedExperiment)
    (hf : em.expts[f]? = some e)
    (hfail : (em.measured test_params f e).1 = false)
    (hfirst : ∀ (i : Nat) (e1 : SimulatedExperiment), i < f → em.expts[i]? = some e1 →
      (em.measured test_params i e1).1 = true) :
    (em.GenerateTestMeasurements test_params test_measurements).ok = false ∧
    (em.GenerateTestMeasurements test_params test_measurements).test_measurements.length
      = em.NumExptData ∧
    (∀ (i : Nat) (e1 : SimulatedExperiment), i < f → em.expts[i]? = some e1 →
      ∀ j, j < e1.NumMeasuredValues →
        (em.GenerateTestMeasurements test_params test_measurements).test_measurements[
          em.data_offsets.getD i 0 + j]? = some ((em.measured test_params i e1).2.getD j 0)) ∧
    (∀ p, em.data_offsets.getD f 0 ≤ p → p < em.NumExptData →
      (em.GenerateTestMeasurements test_params test_measurements).test_measurements[p]?
        = some (test_measurements.getD p 0)) := by
  have hrl : em.raw_data.length = em.expts.length := registered_raw_length em hreg
  have hfl := expts_lt_of_getElem? em f e hf
  have hfail1 : (e.GetMeasurements (installParams em.parameter_manager test_params)
      (em.raw_data.getD (0 + f) [])).1 = false := by
    simpa only [Nat.zero_add] using hfail
  have hfirst1 : ∀ (i : Nat) (e1 : SimulatedExperiment), i < f → em.expts[i]? = some e1 →
      (e1.GetMeasurements (installParams em.parameter_manager test_params)
        (em.raw_data.getD (0 + i) [])).1 = true := by
    intro i e1 hi hi1
    simp only [Nat.zero_add]
    exact hfirst i e1 hi hi1
  have hok := (serialTasks_first_failure em.expts 0
    { em with
      parameter_manager := installParams em.parameter_manager test_params
      rounds := em.rounds + 1 }
    (vresize test_measurements em.num_expt_data 0) f e hf hfail1 hfirst1).1
  have hvec := serialTasks_first_failure_vector em.expts 0
    { em with
      parameter_manager := installParams em.parameter_manager test_params
      rounds := em.rounds + 1 }
    (vresize test_measurements em.num_expt_data 0) 0 f e
    (by
      intro i hi
      simp only [Nat.zero_add]
      exact registered_offset em hreg i hi)
    (by simp only [Nat.zero_add]; omega)
    (by
      rw [vresize_length, hreg.total]
      simp [counts])
    hf hfail1 hfirst1
  obtain ⟨hout, hin⟩ := hvec
  simp only [Nat.zero_add] at hout hin
  refine ⟨hok, GenerateTestMeasurements_length em _ _, ?_, ?_⟩
  · intro i e1 hi hi1 j hj
    have hil := expts_lt_of_getElem? em i e1 hi1
    rw [registered_offset em hreg i hil]
    exact hin i e1 hi hi1 j hj
  · intro p hp hpn
    rw [registered_offset em hreg f hfl] at hp
    have := hout p (Or.inr hp)
    simp only [GenerateTestMeasurements, NumExptData]
    rw [this]
    exact vresize_getElem? _ _ _ hpn

/-- C27 at the example registry with the parameter value `5`, where experiment `1` is the
first to fail: handed the vector `[9, 9, 9, 9]`, the round returns `[5, 5, 5, 9, 0]`, and
handed the empty vector it returns `[5, 5, 5, 0, 0]`. -/
theorem GenerateTestMeasurements_failed_frame_witness :
    ((demoRegistry.GenerateTestMeasurements [5] [9, 9, 9, 9]).ok = false ∧
    (demoRegistry.GenerateTestMeasurements [5] [9, 9, 9, 9]).test_measurements.length
      = demoRegistry.NumExptData ∧
    (∀ (i : Nat) (e1 : SimulatedExperiment), i < 1 → demoRegistry.expts[i]? = some e1 →
      ∀ j, j < e1.NumMeasuredValues →
        (demoRegistry.GenerateTestMeasurements [5] [9, 9, 9, 9]).test_measurements[
          demoRegistry.data_offsets.getD i 0 + j]?
          = some ((demoRegistry.measured [5] i e1).2.getD j 0)) ∧
    (∀ p, demoRegistry.data_offsets.getD 1 0 ≤ p → p < demoRegistry.NumExptData →
      (demoRegistry.GenerateTestMeasurements [5] [9, 9, 9, 9]).test_measurements[p]?
        = some (([9, 9, 9, 9] : List ℚ).getD p 0))) ∧
    (demoRegistry.GenerateTestMeasurements [5] [9, 9, 9, 9]).test_measurements
      = [5, 5, 5, 9, 0] ∧
    (demoRegistry.GenerateTestMeasurements [5] []).test_measurements = [5, 5, 5, 0, 0] :=
  ⟨GenerateTestMeasurements_failed_frame demoRegistry demoRegistry_registered [5] [9, 9, 9, 9]
    1 (demoExpt 2 10) rfl
    (by
      rw [demoRegistry_measured]
      norm_num [demoExpt])
    (by
      intro i e1 hi hi1
      have hi0 : i = 0 := by omega
      subst hi0
      rw [demoRegistry_expts] at hi1
      simp only [List.getElem?_cons_zero, Option.some.injEq] at hi1
      subst hi1
      rw [demoRegistry_measured]
      norm_num [demoExpt]),
    by decide!, by decide!⟩

/-! ## Bisection search, termination and range -/

theorem isgoodParamVal_rounds (em : ExperimentManager) (k : ℚ) (pvals : List ℚ) (idx : Nat) :
    (em.isgoodParamVal k pvals idx).em.rounds = em.rounds + 1 := by
  simp only [isgoodParamVal]
  exact GenerateTestMeasurements_rounds em _ _

/-- For a positive `tol` there is a least number `n + 1 ≥ 1` of halvings that brings the
width `w` down to `tol`. -/
theorem passes_exist (w tol : ℚ) (htol : 0 < tol) :
    ∃ n : Nat, w ≤ tol * 2 ^ (n + 1) ∧ (n = 0 ∨ tol * 2 ^ n < w) := by
  have hex : ∃ n : Nat, w ≤ tol * 2 ^ (n + 1) := by
    obtain ⟨N, _, hN⟩ := exists_fuel w tol htol
    exact ⟨N, hN (N + 1) (by omega)⟩
  classical
  refine ⟨Nat.find hex, Nat.find_spec hex, ?_⟩
  by_cases h0 : Nat.find hex = 0
  · exact Or.inl h0
  · right
    have hmin := Nat.find_min hex (show Nat.find hex - 1 < Nat.find hex by omega)
    rw [show Nat.find hex - 1 + 1 = Nat.find hex by omega] at hmin
    exact not_le.mp hmin

/-- The number of halvings of `passes_exist` is at most `max(1, ⌈log₂(w / tol)⌉)`. -/
theorem passes_log_bound (w tol : ℚ) (htol : 0 < tol) (n : Nat)
    (hn : n = 0 ∨ tol * 2 ^ n < w) :
    n + 1 ≤ max 1 ⌈Real.logb 2 ((w : ℝ) / (tol : ℝ))⌉₊ := by
  rcases hn with h0 | hlt
  · subst h0
    exact le_max_left _ _
  · apply le_trans _ (le_max_right _ _)
    have htolR : (0 : ℝ) < (tol : ℝ) := by exact_mod_cast htol
    have hltR : (tol : ℝ) * 2 ^ n < (w : ℝ) := by exact_mod_cast hlt
    have hq : (2 : ℝ) ^ n < (w : ℝ) / (tol : ℝ) := by
      rw [lt_div_iff₀ htolR]; linarith
    have hpos : (0 : ℝ) < (w : ℝ) / (tol : ℝ) := lt_trans (by positivity) hq
    have hlog : (n : ℝ) < Real.logb 2 ((w : ℝ) / (tol : ℝ)) := by
      rw [Real.lt_logb_iff_rpow_lt (by norm_num) hpos, Real.rpow_natCast]
      exact hq
    exact Nat.succ_le_of_lt (Nat.lt_ceil.mpr hlog)

/-- Whatever the oracle answers, the upper loop entered with the width `k2 - k1` makes
exactly the least number `n + 1` of passes that halves the width down to `tol`, one oracle
call per pass, and its bracket stays inside `[k1, k2]`. -/
theorem bisect_kmax_passes (idx : Nat) (tol : ℚ) (htol : 0 ≤ tol) :
    ∀ (n : Nat) (k1 k2 : ℚ) (p : List ℚ) (e : ExperimentManager),
    k2 - k1 ≤ tol * 2 ^ (n + 1) → (n = 0 ∨ tol * 2 ^ n < k2 - k1) →
    ∀ fuel, n + 1 ≤ fuel →
    ∃ b, bisect_kmax idx tol fuel k1 k2 p e = some b ∧ b.em.rounds = e.rounds + (n + 1) ∧
      (b.k2 - b.k1 = (k2 - k1) / 2 ^ (n + 1) ∧ b.k2 - b.k1 ≤ tol) ∧
      (k1 ≤ k2 → k1 ≤ b.k1 ∧ b.k1 ≤ b.k2 ∧ b.k2 ≤ k2) := by
  intro n
  induction n with
  | zero =>
    intro k1 k2 p e hw _ fuel hfuel
    obtain ⟨fuel, rfl⟩ : ∃ f, fuel = f + 1 := ⟨fuel - 1, by omega⟩
    have hr := isgoodParamVal_rounds e ((k2 + k1) * 0.5) p idx
    simp only [zero_add, pow_one] at hw
    rw [bisect_kmax]
    cases hres : (e.isgoodParamVal ((k2 + k1) * 0.5) p idx).res <;>
      simp only [hres, if_true, Bool.false_eq_true, if_false]
    · have hd : (k2 + k1) * 0.5 - k1 = (k2 - k1) / 2 := by norm_num; ring
      rw [if_neg (by rw [hd]; linarith)]
      refine ⟨_, rfl, hr, ⟨by simp only [hd]; norm_num, by simp only [hd]; linarith⟩, ?_⟩
      intro hle
      simp only
      refine ⟨le_refl _, ?_, ?_⟩ <;> norm_num <;> linarith
    · have hd : k2 - (k2 + k1) * 0.5 = (k2 - k1) / 2 := by norm_num; ring
      rw [if_neg (by rw [hd]; linarith)]
      refine ⟨_, rfl, hr, ⟨by simp only [hd]; norm_num, by simp only [hd]; linarith⟩, ?_⟩
      intro hle
      simp only
      refine ⟨?_, ?_, le_refl _⟩ <;> norm_num <;> linarith
  | succ n ih =>
    intro k1 k2 p e hw hlow fuel hfuel
    obtain ⟨fuel, rfl⟩ : ∃ f, fuel = f + 1 := ⟨fuel - 1, by omega⟩
    have hr := isgoodParamVal_rounds e ((k2 + k1) * 0.5) p idx
    have hlt : tol * 2 ^ (n + 1) < k2 - k1 := by
      rcases hlow with h | h
      · omega
      · exact h
    have hp1 : (1 : ℚ) ≤ 2 ^ n := one_le_pow₀ (by norm_num)
    have hhalf_gt : tol * 2 ^ n < (k2 - k1) / 2 := by rw [pow_succ] at hlt; linarith
    have hhalf_le : (k2 - k1) / 2 ≤ tol * 2 ^ (n + 1) := by
      rw [pow_succ (2 : ℚ) (n + 1)] at hw; linarith
    have hgt : tol < (k2 - k1) / 2 := by nlinarith
    rw [bisect_kmax]
    cases hres : (e.isgoodParamVal ((k2 + k1) * 0.5) p idx).res <;>
      simp only [hres, if_true, Bool.false_eq_true, if_false]
    · have hd : (k2 + k1) * 0.5 - k1 = (k2 - k1) / 2 := by norm_num; ring
      rw [if_pos (by rw [hd]; exact hgt)]
      obtain ⟨b, hb, hb1, hb2, hb3⟩ := ih k1 ((k2 + k1) * 0.5)
        (e.isgoodParamVal ((k2 + k1) * 0.5) p idx).pvals
        (e.isgoodParamVal ((k2 + k1) * 0.5) p idx).em
        (by rw [hd]; exact hhalf_le) (Or.inr (by rw [hd]; exact hhalf_gt)) fuel (by omega)
      refine ⟨b, hb, by rw [hb1, hr]; omega, ⟨by rw [hb2.1, hd, pow_succ (2 : ℚ) (n + 1)]; field_simp; left; ring, hb2.2⟩, ?_⟩
      intro hle
      obtain ⟨h1, h2, h3⟩ := hb3 (by norm_num; linarith)
      refine ⟨h1, h2, le_trans h3 ?_⟩
      norm_num; linarith
    · have hd : k2 - (k2 + k1) * 0.5 = (k2 - k1) / 2 := by norm_num; ring
      rw [if_pos (by rw [hd]; exact hgt)]
      obtain ⟨b, hb, hb1, hb2, hb3⟩ := ih ((k2 + k1) * 0.5) k2
        (e.isgoodParamVal ((k2 + k1) * 0.5) p idx).pvals
        (e.isgoodParamVal ((k2 + k1) * 0.5) p idx).em
        (by rw [hd]; exact hhalf_le) (Or.inr (by rw [hd]; exact hhalf_gt)) fuel (by omega)
      refine ⟨b, hb, by rw [hb1, hr]; omega, ⟨by rw [hb2.1, hd, pow_succ (2 : ℚ) (n + 1)]; field_simp; left; ring, hb2.2⟩, ?_⟩
      intro hle
      obtain ⟨h1, h2, h3⟩ := hb3 (by norm_num; linarith)
      refine ⟨le_trans ?_ h1, h2, h3⟩
      norm_num; linarith

/-- Whatever the oracle answers, the lower loop entered with the width `k2 - k1` makes
exactly the least number `n + 1` of passes that halves the width down to `tol`, one oracle
call per pass, and its bracket stays inside `[k1, k2]`. -/
theorem bisect_kmin_passes (idx : Nat) (tol : ℚ) (htol : 0 ≤ tol) :
    ∀ (n : Nat) (k1 k2 : ℚ) (p : List ℚ) (e : ExperimentManager),
    k2 - k1 ≤ tol * 2 ^ (n + 1) → (n = 0 ∨ tol * 2 ^ n < k2 - k1) →
    ∀ fuel, n + 1 ≤ fuel →
    ∃ b, bisect_kmin idx tol fuel k1 k2 p e = some b ∧ b.em.rounds = e.rounds + (n + 1) ∧
      (b.k2 - b.k1 = (k2 - k1) / 2 ^ (n + 1) ∧ b.k2 - b.k1 ≤ tol) ∧
      (k1 ≤ k2 → k1 ≤ b.k1 ∧ b.k1 ≤ b.k2 ∧ b.k2 ≤ k2) := by
  intro n
  induction n with
  | zero =>
    intro k1 k2 p e hw _ fuel hfuel
    obtain ⟨fuel, rfl⟩ : ∃ f, fuel = f + 1 := ⟨fuel - 1, by omega⟩
    have hr := isgoodParamVal_rounds e ((k2 + k1) * 0.5) p idx
    simp only [zero_add, pow_one] at hw
    rw [bisect_kmin]
    cases hres : (e.isgoodParamVal ((k2 + k1) * 0.5) p idx).res <;>
      simp only [hres, if_true, Bool.false_eq_true, if_false]
    · have hd : k2 - (k2 + k1) * 0.5 = (k2 - k1) / 2 := by norm_num; ring
      rw [if_neg (by rw [hd]; linarith)]
      refine ⟨_, rfl, hr, ⟨by simp only [hd]; norm_num, by simp only [hd]; linarith⟩, ?_⟩
      intro hle
      simp only
      refine ⟨?_, ?_, le_refl _⟩ <;> norm_num <;> linarith
    · have hd : (k2 + k1) * 0.5 - k1 = (k2 - k1) / 2 := by norm_num; ring
      rw [if_neg (by rw [hd]; linarith)]
      refine ⟨_, rfl, hr, ⟨by simp only [hd]; norm_num, by simp only [hd]; linarith⟩, ?_⟩
      intro hle
      simp only
      refine ⟨le_refl _, ?_, ?_⟩ <;> norm_num <;> linarith
  | succ n ih =>
    intro k1 k2 p e hw hlow fuel hfuel
    obtain ⟨fuel, rfl⟩ : ∃ f, fuel = f + 1 := ⟨fuel - 1, by omega⟩
    have hr := isgoodParamVal_rounds e ((k2 + k1) * 0.5) p idx
    have hlt : tol * 2 ^ (n + 1) < k2 - k1 := by
      rcases hlow with h | h
      · omega
      · exact h
    have hp1 : (1 : ℚ) ≤ 2 ^ n := one_le_pow₀ (by norm_num)
    have hhalf_gt : tol * 2 ^ n < (k2 - k1) / 2 := by rw [pow_succ] at hlt; linarith
    have hhalf_le : (k2 - k1) / 2 ≤ tol * 2 ^ (n + 1) := by
      rw [pow_succ (2 : ℚ) (n + 1)] at hw; linarith
    have hgt : tol < (k2 - k1) / 2 := by nlinarith
    rw [bisect_kmin]
    cases hres : (e.isgoodParamVal ((k2 + k1) * 0.5) p idx).res <;>
      simp only [hres, if_true, Bool.false_eq_true, if_false]
    · have hd : k2 - (k2 + k1) * 0.5 = (k2 - k1) / 2 := by norm_num; ring
      rw [if_pos (by rw [hd]; exact hgt)]
      obtain ⟨b, hb, hb1, hb2, hb3⟩ := ih ((k2 + k1) * 0.5) k2
        (e.isgoodParamVal ((k2 + k1) * 0.5) p idx).pvals
        (e.isgoodParamVal ((k2 + k1) * 0.5) p idx).em
        (by rw [hd]; exact hhalf_le) (Or.inr (by rw [hd]; exact hhalf_gt)) fuel (by omega)
      refine ⟨b, hb, by rw [hb1, hr]; omega, ⟨by rw [hb2.1, hd, pow_succ (2 : ℚ) (n + 1)]; field_simp; left; ring, hb2.2⟩, ?_⟩
      intro hle
      obtain ⟨h1, h2, h3⟩ := hb3 (by norm_num; linarith)
      refine ⟨le_trans ?_ h1, h2, h3⟩
      norm_num; linarith
    · have hd : (k2 + k1) * 0.5 - k1 = (k2 - k1) / 2 := by norm_num; ring
      rw [if_pos (by rw [hd]; exact hgt)]
      obtain ⟨b, hb, hb1, hb2, hb3⟩ := ih k1 ((k2 + k1) * 0.5)
        (e.isgoodParamVal ((k2 + k1) * 0.5) p idx).pvals
        (e.isgoodParamVal ((k2 + k1) * 0.5) p idx).em
        (by rw [hd]; exact hhalf_le) (Or.inr (by rw [hd]; exact hhalf_gt)) fuel (by omega)
      refine ⟨b, hb, by rw [hb1, hr]; omega, ⟨by rw [hb2.1, hd, pow_succ (2 : ℚ) (n + 1)]; field_simp; left; ring, hb2.2⟩, ?_⟩
      intro hle
      obtain ⟨h1, h2, h3⟩ := hb3 (by norm_num; linarith)
      refine ⟨h1, h2, le_trans h3 ?_⟩
      norm_num; linarith

/-- Whatever the oracle answers, the first half of `get_param_limits` returns once the fuel
covers the `n + 1` passes of its loop; it makes at most `1 + (n + 1)` oracle calls, leaves
alone a `kmax` the oracle accepts, and returns a value in `[ktyp, kmax]`. -/
theorem limit_kmax_total (e : ExperimentManager) (kmax ktyp tol : ℚ) (p : List ℚ) (idx : Nat)
    (htol : 0 ≤ tol) (n : Nat) (hw : kmax - ktyp ≤ tol * 2 ^ (n + 1))
    (hlow : n = 0 ∨ tol * 2 ^ n < kmax - ktyp) (fuel : Nat) (hfuel : n + 1 ≤ fuel) :
    ∃ out, e.limit_kmax kmax ktyp tol p idx fuel = some out ∧
      out.2.2.rounds ≤ e.rounds + 1 + (n + 1) ∧
      ((e.isgoodParamVal kmax p idx).res = true → out.1 = kmax) ∧
      (ktyp ≤ kmax → ktyp ≤ out.1 ∧ out.1 ≤ kmax) := by
  have hr := isgoodParamVal_rounds e kmax p idx
  simp only [limit_kmax]
  cases hres : (e.isgoodParamVal kmax p idx).res
  · obtain ⟨b, hb, hb1, _, hb3⟩ := bisect_kmax_passes idx tol htol n ktyp kmax
      (e.isgoodParamVal kmax p idx).pvals (e.isgoodParamVal kmax p idx).em hw hlow fuel hfuel
    simp only [Bool.not_false, if_true, hb, Option.map_some']
    refine ⟨_, rfl, by simp only [hb1, hr]; omega, fun h => absurd h (by decide), ?_⟩
    intro hle
    obtain ⟨h1, h2, h3⟩ := hb3 hle
    exact ⟨h1, le_trans h2 h3⟩
  · simp only [Bool.not_true, Bool.false_eq_true, if_false]
    exact ⟨_, rfl, by simp only [hr]; omega, fun _ => rfl, fun hle => ⟨hle, le_refl _⟩⟩

/-- Whatever the oracle answers, the second half of `get_param_limits` returns once the
fuel covers the `n + 1` passes of its loop; it makes at most `1 + (n + 1)` oracle calls,
leaves alone a `kmin` the oracle accepts, and returns a value in `[kmin, ktyp]`. -/
theorem limit_kmin_total (e : ExperimentManager) (kmin ktyp tol : ℚ) (p : List ℚ) (idx : Nat)
    (htol : 0 ≤ tol) (n : Nat) (hw : ktyp - kmin ≤ tol * 2 ^ (n + 1))
    (hlow : n = 0 ∨ tol * 2 ^ n < ktyp - kmin) (fuel : Nat) (hfuel : n + 1 ≤ fuel) :
    ∃ out, e.limit_kmin kmin ktyp tol p idx fuel = some out ∧
      out.2.2.rounds ≤ e.rounds + 1 + (n + 1) ∧
      ((e.isgoodParamVal kmin p idx).res = true → out.1 = kmin) ∧
      (kmin ≤ ktyp → kmin ≤ out.1 ∧ out.1 ≤ ktyp) := by
  have hr := isgoodParamVal_rounds e kmin p idx
  simp only [limit_kmin]
  cases hres : (e.isgoodParamVal kmin p idx).res
  · obtain ⟨b, hb, hb1, _, hb3⟩ := bisect_kmin_passes idx tol htol n kmin ktyp
      (e.isgoodParamVal kmin p idx).pvals (e.isgoodParamVal kmin p idx).em hw hlow fuel hfuel
    simp only [Bool.not_false, if_true, hb, Option.map_some']
    refine ⟨_, rfl, by simp only [hb1, hr]; omega, fun h => absurd h (by decide), ?_⟩
    intro hle
    obtain ⟨h1, h2, h3⟩ := hb3 hle
    exact ⟨le_trans h1 h2, h3⟩
  · simp only [Bool.not_true, Bool.false_eq_true, if_false]
    exact ⟨_, rfl, by simp only [hr]; omega, fun _ => rfl, fun hle => ⟨le_refl _, hle⟩⟩

/-- C25: over exact arithmetic, whatever the oracle answers, for `tol > 0` both bisection
loops of `get_param_limits` terminate.  There are pass counts `nU, nL ≥ 1` with
`nU ≤ max(1, ⌈log₂((kmax - ktyp) / tol)⌉)` and `nL ≤ max(1, ⌈log₂((ktyp - kmin) / tol)⌉)`
such that, from any state, the upper loop entered with `[ktyp, kmax]` returns after exactly
`nU` oracle calls (one evaluation round each) with the width `(kmax - ktyp) / 2 ^ nU`, the
lower loop entered with `[kmin, ktyp]` after exactly `nL`, and `get_param_limits` returns
having made at most `nU + nL` oracle calls besides its two guard calls. -/
theorem get_param_limits_terminates (em : ExperimentManager) (kmin kmax ktyp tol : ℚ)
    (pvals : List ℚ) (idx : Nat) (htol : 0 < tol) :
    ∃ nU nL : Nat,
      1 ≤ nU ∧ nU ≤ max 1 ⌈Real.logb 2 (((kmax - ktyp : ℚ) : ℝ) / (tol : ℝ))⌉₊ ∧
      1 ≤ nL ∧ nL ≤ max 1 ⌈Real.logb 2 (((ktyp - kmin : ℚ) : ℝ) / (tol : ℝ))⌉₊ ∧
      (∀ (p : List ℚ) (e : ExperimentManager) (fuel : Nat), nU ≤ fuel →
        ∃ b, bisect_kmax idx tol fuel ktyp kmax p e = some b ∧
          b.em.rounds = e.rounds + nU ∧ b.k2 - b.k1 = (kmax - ktyp) / 2 ^ nU ∧
          b.k2 - b.k1 ≤ tol) ∧
      (∀ (p : List ℚ) (e : ExperimentManager) (fuel : Nat), nL ≤ fuel →
        ∃ b, bisect_kmin idx tol fuel kmin ktyp p e = some b ∧
          b.em.rounds = e.rounds + nL ∧ b.k2 - b.k1 = (ktyp - kmin) / 2 ^ nL ∧
          b.k2 - b.k1 ≤ tol) ∧
      (∀ fuel, max nU nL ≤ fuel →
        ∃ L, em.get_param_limits kmin kmax ktyp tol pvals idx fuel = some L ∧
          L.em.rounds ≤ em.rounds + 2 + nU + nL) := by
  obtain ⟨n1, hw1, hlow1⟩ := passes_exist (kmax - ktyp) tol htol
  obtain ⟨n2, hw2, hlow2⟩ := passes_exist (ktyp - kmin) tol htol
  refine ⟨n1 + 1, n2 + 1, by omega, passes_log_bound _ tol htol n1 hlow1, by omega,
    passes_log_bound _ tol htol n2 hlow2, ?_, ?_, ?_⟩
  · intro p e fuel hfuel
    obtain ⟨b, hb, hb1, hb2, _⟩ :=
      bisect_kmax_passes idx tol (le_of_lt htol) n1 ktyp kmax p e hw1 hlow1 fuel hfuel
    exact ⟨b, hb, hb1, hb2.1, hb2.2⟩
  · intro p e fuel hfuel
    obtain ⟨b, hb, hb1, hb2, _⟩ :=
      bisect_kmin_passes idx tol (le_of_lt htol) n2 kmin ktyp p e hw2 hlow2 fuel hfuel
    exact ⟨b, hb, hb1, hb2.1, hb2.2⟩
  · intro fuel hfuel
    have h1 : n1 + 1 ≤ fuel := le_trans (le_max_left _ _) hfuel
    have h2 : n2 + 1 ≤ fuel := le_trans (le_max_right _ _) hfuel
    obtain ⟨out1, ho1, hr1, _, _⟩ :=
      limit_kmax_total em kmax ktyp tol pvals idx (le_of_lt htol) n1 hw1 hlow1 fuel h1
    obtain ⟨out2, ho2, hr2, _, _⟩ :=
      limit_kmin_total out1.2.2 kmin ktyp tol out1.2.1 idx (le_of_lt htol) n2 hw2 hlow2 fuel h2
    refine ⟨⟨out2.1, out1.1, ktyp, out2.2.1, out2.2.2⟩, ?_, ?_⟩
    · simp only [get_param_limits, ho1, ho2]
    · simp only
      omega

/-- C25 at `premixRegistry` with `kmin = 0`, `ktyp = 5`, `kmax = 20` and `tol = 1`: the
upper loop halves the width `15` four times, the lower loop halves the width `5` three
times, and with the two guard calls the search has run nine evaluation rounds. -/
theorem get_param_limits_terminates_witness :
    (premixRegistry.get_param_limits 0 20 5 1 [5] 0 4).map (·.em.rounds)
      = some (premixRegistry.rounds + 9) ∧
    ∃ nU nL : Nat,
      1 ≤ nU ∧ nU ≤ max 1 ⌈Real.logb 2 (((20 - 5 : ℚ) : ℝ) / ((1 : ℚ) : ℝ))⌉₊ ∧
      1 ≤ nL ∧ nL ≤ max 1 ⌈Real.logb 2 (((5 - 0 : ℚ) : ℝ) / ((1 : ℚ) : ℝ))⌉₊ ∧
      (∀ (p : List ℚ) (e : ExperimentManager) (fuel : Nat), nU ≤ fuel →
        ∃ b, bisect_kmax 0 1 fuel 5 20 p e = some b ∧
          b.em.rounds = e.rounds + nU ∧ b.k2 - b.k1 = (20 - 5) / 2 ^ nU ∧
          b.k2 - b.k1 ≤ 1) ∧
      (∀ (p : List ℚ) (e : ExperimentManager) (fuel : Nat), nL ≤ fuel →
        ∃ b, bisect_kmin 0 1 fuel 0 5 p e = some b ∧
          b.em.rounds = e.rounds + nL ∧ b.k2 - b.k1 = (5 - 0) / 2 ^ nL ∧
          b.k2 - b.k1 ≤ 1) ∧
      (∀ fuel, max nU nL ≤ fuel →
        ∃ L, premixRegistry.get_param_limits 0 20 5 1 [5] 0 fuel = some L ∧
          L.em.rounds ≤ premixRegistry.rounds + 2 + nU + nL) :=
  ⟨by decide!, get_param_limits_terminates premixRegistry 0 20 5 1 [5] 0 (by norm_num)⟩

/-- C26: whatever the oracle answers, for `kmin ≤ ktyp ≤ kmax` and `tol > 0`
`get_param_limits` returns (given enough fuel) with `ktyp ≤ kmax' ≤ kmax`,
`kmin ≤ kmin' ≤ ktyp` and `ktyp` as it was; a `kmax` that the guard call of line 484
accepts is returned unchanged, and so is a `kmin` that the guard call of line 500 accepts;
with a deterministic oracle that is every bound whose initial value is valid. -/
theorem get_param_limits_shrinks (em : ExperimentManager) (kmin kmax ktyp tol : ℚ)
    (pvals : List ℚ) (idx : Nat) (hlo : kmin ≤ ktyp) (hhi : ktyp ≤ kmax) (htol : 0 < tol) :
    ∃ N : Nat, ∀ fuel, N ≤ fuel →
      ∃ L, em.get_param_limits kmin kmax ktyp tol pvals idx fuel = some L ∧
        ktyp ≤ L.kmax ∧ L.kmax ≤ kmax ∧ kmin ≤ L.kmin ∧ L.kmin ≤ ktyp ∧ L.ktyp = ktyp ∧
        ((em.isgoodParamVal kmax pvals idx).res = true → L.kmax = kmax) ∧
        (∀ out, em.limit_kmax kmax ktyp tol pvals idx fuel = some out →
          (out.2.2.isgoodParamVal kmin out.2.1 idx).res = true → L.kmin = kmin) ∧
        (∀ valid : ℚ → Bool, DeterministicOracle em pvals idx valid →
          (valid kmax = true → L.kmax = kmax) ∧ (valid kmin = true → L.kmin = kmin)) := by
  obtain ⟨n1, hw1, hlow1⟩ := passes_exist (kmax - ktyp) tol htol
  obtain ⟨n2, hw2, hlow2⟩ := passes_exist (ktyp - kmin) tol htol
  refine ⟨max (n1 + 1) (n2 + 1), ?_⟩
  intro fuel hfuel
  have h1 : n1 + 1 ≤ fuel := le_trans (le_max_left _ _) hfuel
  have h2 : n2 + 1 ≤ fuel := le_trans (le_max_right _ _) hfuel
  obtain ⟨out1, ho1, _, hk1, hin1⟩ :=
    limit_kmax_total em kmax ktyp tol pvals idx (le_of_lt htol) n1 hw1 hlow1 fuel h1
  obtain ⟨out2, ho2, _, hk2, hin2⟩ :=
    limit_kmin_total out1.2.2 kmin ktyp tol out1.2.1 idx (le_of_lt htol) n2 hw2 hlow2 fuel h2
  have hreach := (limit_kmax_mono em pvals idx kmax ktyp tol em pvals Reach.start fuel out1 ho1
    fuel (le_refl _)).2
  refine ⟨⟨out2.1, out1.1, ktyp, out2.2.1, out2.2.2⟩, ?_, (hin1 hhi).1, (hin1 hhi).2,
    (hin2 hlo).1, (hin2 hlo).2, rfl, hk1, ?_, ?_⟩
  · simp only [get_param_limits, ho1, ho2]
  · intro out hout hres
    rw [ho1] at hout
    obtain rfl := Option.some.inj hout
    exact hk2 hres
  · intro valid hdet
    refine ⟨fun hv => hk1 ?_, fun hv => hk2 ?_⟩
    · rw [hdet em pvals Reach.start kmax]; exact hv
    · rw [hdet out1.2.2 out1.2.1 hreach kmin]; exact hv

/-- C26 at `premixRegistry` (valid exactly on `[1, 10]`) with `kmin = 2`, `ktyp = 5`,
`kmax = 20` and `tol = 1`: the valid `kmin` comes back unchanged and the invalid `kmax`
comes back as `155/16`, inside `[ktyp, kmax]`. -/
theorem get_param_limits_shrinks_witness :
    (premixRegistry.get_param_limits 2 20 5 1 [5] 0 4).map (fun L => (L.kmin, L.kmax, L.ktyp))
      = some (2, 155 / 16, 5) ∧
    ∃ N : Nat, ∀ fuel, N ≤ fuel →
      ∃ L, premixRegistry.get_param_limits 2 20 5 1 [5] 0 fuel = some L ∧
        5 ≤ L.kmax ∧ L.kmax ≤ 20 ∧ 2 ≤ L.kmin ∧ L.kmin ≤ 5 ∧ L.ktyp = 5 ∧
        ((premixRegistry.isgoodParamVal 20 [5] 0).res = true → L.kmax = 20) ∧
        (∀ out, premixRegistry.limit_kmax 20 5 1 [5] 0 fuel = some out →
          (out.2.2.isgoodParamVal 2 out.2.1 0).res = true → L.kmin = 2) ∧
        (∀ valid : ℚ → Bool, DeterministicOracle premixRegistry [5] 0 valid →
          (valid 20 = true → L.kmax = 20) ∧ (valid 2 = true → L.kmin = 2)) :=
  ⟨by decide!,
    get_param_limits_shrinks premixRegistry 2 20 5 1 [5] 0 (by norm_num) (by norm_num)
      (by norm_num)⟩

/-! ## Master protocol -/

/-- What the `HAVE_RESULTS` branch does with the result of a registered experiment. -/
theorem receiveResults_spec (m : Master) (exp_num : Nat) (intok : Int) (buf : List ℚ)
    (e : SimulatedExperiment) (he : m.em.expts[exp_num]? = some e) :
    ∃ m1, receiveResults m exp_num intok buf = some m1 ∧
      m1.Nexperiments_finished = m.Nexperiments_finished + 1 ∧
      m1.em.raw_data = m.em.raw_data.set exp_num buf ∧
      (intok < 0 → m1.ok = false ∧ m1.test_measurements = m.test_measurements) ∧
      (intok = 1 → m1.ok = m.ok ∧ m1.test_measurements =
        copyOut m.test_measurements (m.em.data_offsets.getD exp_num 0)
          ((m.em.raw_data.set exp_num buf).getD exp_num []) e.NumMeasuredValues) ∧
      m1.workers = m.workers ∧ m1.sent = m.sent ∧
      m1.Nexperiments_dispatched = m.Nexperiments_dispatched ∧
      m1.em.expts = m.em.expts := by
  refine ⟨{ m with
      em := { m.em with raw_data := m.em.raw_data.set exp_num buf }
      test_measurements :=
        if intok = 1 then
          copyOut m.test_measurements (m.em.data_offsets.getD exp_num 0)
            ((m.em.raw_data.set exp_num buf).getD exp_num []) e.NumMeasuredValues
        else m.test_measurements
      ok := if intok < 0 then false else m.ok
      intok := intok
      Nexperiments_finished := m.Nexperiments_finished + 1 }, ?_, rfl, rfl, ?_, ?_, rfl, rfl,
    rfl, rfl⟩
  · simp only [receiveResults, he]
  · intro hk
    have h1 : ¬ intok = 1 := by omega
    simp only [hk, h1, if_true, if_false, and_self]
  · intro hk
    subst hk
    simp only [show ¬ ((1 : Int) < 0) by decide, if_true, if_false, and_self]

theorem getElem?_lt_length {α : Type} (l : List α) (i : Nat) (x : α) (h : l[i]? = some x) :
    i < l.length := by
  by_contra hcon
  rw [List.getElem?_eq_none (by omega)] at h
  exact Option.noConfusion h

theorem workLog_append (s : List (Nat × Command)) (c : Nat × Command) :
    workLog (s ++ [c]) = workLog s ++ (c.2.index).toList := by
  simp only [workLog, List.filterMap_append]
  cases h : c.2.index <;> simp [List.filterMap_cons, h]

/-- Every pass of the master loop keeps the protocol invariant. -/
theorem masterWf_step (N : Nat) (wraw : Nat → List (List ℚ)) (m m1 : Master) (w : Nat)
    (hwf : MasterWf N m) (h : masterStep wraw m w = some m1) : MasterWf N m1 := by
  unfold masterStep at h
  cases hw : m.workers[w]? with
  | none => simp only [hw] at h; exact Option.noConfusion h
  | some s =>
    have hwl := getElem?_lt_length _ _ _ hw
    cases s with
    | stopped => simp only [hw] at h; exact Option.noConfusion h
    | results i k b =>
      simp only [hw] at h
      have hi := hwf.pending w i k b hw
      have he : m.em.expts[i]? = some (m.em.expts.get ⟨i, by rw [hwf.expts]; exact hi⟩) :=
        List.getElem?_eq_getElem _
      obtain ⟨m2, hrec, hfin, _, _, _, hwk, hsent, hd, hex⟩ :=
        receiveResults_spec m i k b _ he
      rw [hrec, Option.map_some'] at h
      obtain rfl := Option.some.inj h
      have hout := outstanding_set m.workers w (Worker.results i k b) Worker.ready hw
      simp only [outstanding] at hout
      refine ⟨by simp only [hex]; exact hwf.expts, by simp only [hd]; exact hwf.bound, ?_, ?_,
        by simp only [hsent, hd]; exact hwf.works⟩
      · intro w1 i1 k1 b1 hw1
        simp only [hwk] at hw1
        by_cases hww : w = w1
        · subst hww
          rw [List.getElem?_set_self hwl] at hw1
          exact Worker.noConfusion (Option.some.inj hw1)
        · rw [List.getElem?_set_ne hww] at hw1
          exact hwf.pending w1 i1 k1 b1 hw1
      · have hc := hwf.count
        simp only [hwk, hfin, hd]
        omega
    | ready =>
      simp only [hw] at h
      cases he : m.em.expts[m.Nexperiments_dispatched]? with
      | none => simp only [he] at h; exact Option.noConfusion h
      | some e =>
        simp only [he] at h
        obtain rfl := Option.some.inj h
        have hd : m.Nexperiments_dispatched < N := by
          rw [← hwf.expts]; exact getElem?_lt_length _ _ _ he
        have hout := outstanding_set m.workers w Worker.ready
          (workerRun e m.em.parameter_manager m.Nexperiments_dispatched
            ((wraw w).getD m.Nexperiments_dispatched [])) hw
        simp only [workerRun, outstanding] at hout
        refine ⟨hwf.expts, hd, ?_, ?_, ?_⟩
        · intro w1 i1 k1 b1 hw1
          simp only [workerRun] at hw1
          by_cases hww : w = w1
          · subst hww
            rw [List.getElem?_set_self hwl] at hw1
            have h1 := Option.some.inj hw1
            injection h1 with h2 _ _
            subst h2
            exact hd
          · rw [List.getElem?_set_ne hww] at hw1
            exact hwf.pending w1 i1 k1 b1 hw1
        · have hc := hwf.count
          simp only [workerRun]
          omega
        · simp only [workLog_append, hwf.works, Command.index, Option.toList_some,
            List.range_succ]

/-- A pass of the clean-up loop keeps the protocol invariant, stops the worker, and sends
that worker `STOP` and nothing else. -/
theorem masterWf_drainWorker (N : Nat) (m m1 : Master) (i : Nat) (hwf : MasterWf N m)
    (h : drainWorker m i = some m1) :
    MasterWf N m1 ∧ m1.workers = m.workers.set i Worker.stopped ∧
      m1.sent = m.sent ++ [(i, Command.STOP)] ∧ i < m.workers.length := by
  unfold drainWorker at h
  cases hw : m.workers[i]? with
  | none => simp only [hw] at h; exact Option.noConfusion h
  | some s =>
    have hwl := getElem?_lt_length _ _ _ hw
    cases s with
    | stopped => simp only [hw] at h; exact Option.noConfusion h
    | results j k b =>
      simp only [hw] at h
      have hj := hwf.pending i j k b hw
      have he : m.em.expts[j]? = some (m.em.expts.get ⟨j, by rw [hwf.expts]; exact hj⟩) :=
        List.getElem?_eq_getElem _
      obtain ⟨m2, hrec, hfin, _, _, _, hwk, hsent, hd, hex⟩ :=
        receiveResults_spec m j k b _ he
      rw [hrec, Option.map_some'] at h
      obtain rfl := Option.some.inj h
      have hout := outstanding_set m.workers i (Worker.results j k b) Worker.stopped hw
      simp only [outstanding] at hout
      refine ⟨⟨by simp only [hex]; exact hwf.expts, by simp only [hd]; exact hwf.bound, ?_, ?_,
        ?_⟩, by simp only [hwk], by simp only [hsent], hwl⟩
      · intro w1 i1 k1 b1 hw1
        simp only [hwk] at hw1
        by_cases hww : i = w1
        · subst hww
          rw [List.getElem?_set_self hwl] at hw1
          exact Worker.noConfusion (Option.some.inj hw1)
        · rw [List.getElem?_set_ne hww] at hw1
          exact hwf.pending w1 i1 k1 b1 hw1
      · have hc := hwf.count
        simp only [hwk, hfin, hd]
        omega
      · simp only [hsent, hd, workLog_append, Command.index, Option.toList_none,
          List.append_nil]
        exact hwf.works
    | ready =>
      simp only [hw] at h
      obtain rfl := Option.some.inj h
      have hout := outstanding_set m.workers i Worker.ready Worker.stopped hw
      simp only [outstanding] at hout
      refine ⟨⟨hwf.expts, hwf.bound, ?_, ?_, ?_⟩, rfl, rfl, hwl⟩
      · intro w1 i1 k1 b1 hw1
        simp only at hw1
        by_cases hww : i = w1
        · subst hww
          rw [List.getElem?_set_self hwl] at hw1
          exact Worker.noConfusion (Option.some.inj hw1)
        · rw [List.getElem?_set_ne hww] at hw1
          exact hwf.pending w1 i1 k1 b1 hw1
      · have hc := hwf.count
        simp only
        omega
      · simp only [workLog_append, Command.index, Option.toList_none, List.append_nil]
        exact hwf.works

/-- While an experiment is left to dispatch, a pass of the master loop for any worker that
has not been stopped goes through, whatever the plugins return, and brings the loop one
step nearer its end. -/
theorem masterStep_progress_wf (N : Nat) (wraw : Nat → List (List ℚ)) (m : Master) (w : Nat)
    (hwf : MasterWf N m) (halive : Alive m.workers) (hw : w < m.workers.length)
    (hd : m.Nexperiments_dispatched < N) :
    ∃ m1, masterStep wraw m w = some m1 ∧ Alive m1.workers ∧
      m1.workers.length = m.workers.length ∧
      2 * (N - m1.Nexperiments_dispatched) + outstanding m1.workers + 1 =
        2 * (N - m.Nexperiments_dispatched) + outstanding m.workers := by
  have hws : m.workers[w]? = some (m.workers.get ⟨w, hw⟩) := List.getElem?_eq_getElem hw
  generalize m.workers.get ⟨w, hw⟩ = s at hws
  cases s with
  | stopped => exact absurd hws (halive w)
  | ready =>
    have he : m.em.expts[m.Nexperiments_dispatched]? =
        some (m.em.expts.get ⟨m.Nexperiments_dispatched, by rw [hwf.expts]; exact hd⟩) :=
      List.getElem?_eq_getElem _
    cases hstep : masterStep wraw m w with
    | none =>
      unfold masterStep at hstep
      simp only [hws, he] at hstep
      exact Option.noConfusion hstep
    | some m1 =>
      unfold masterStep at hstep
      simp only [hws, he] at hstep
      obtain rfl := Option.some.inj hstep
      refine ⟨_, rfl, ?_, ?_, ?_⟩
      · exact alive_set _ halive _ _ (fun hcon => Worker.noConfusion hcon)
      · simp only [List.length_set]
      · have := outstanding_set m.workers w Worker.ready
          (workerRun (m.em.expts.get ⟨m.Nexperiments_dispatched, by rw [hwf.expts]; exact hd⟩)
            m.em.parameter_manager
            m.Nexperiments_dispatched ((wraw w).getD m.Nexperiments_dispatched [])) hws
        simp only [workerRun, outstanding] at this ⊢
        omega
  | results i k b =>
    have hi := hwf.pending w i k b hws
    have he : m.em.expts[i]? = some (m.em.expts.get ⟨i, by rw [hwf.expts]; exact hi⟩) :=
      List.getElem?_eq_getElem _
    obtain ⟨m2, hrec, _, _, _, _, hwk, _, hd2, _⟩ := receiveResults_spec m i k b _ he
    cases hstep : masterStep wraw m w with
    | none =>
      unfold masterStep at hstep
      simp only [hws, hrec, Option.map_some'] at hstep
      exact Option.noConfusion hstep
    | some m1 =>
      unfold masterStep at hstep
      simp only [hws, hrec, Option.map_some'] at hstep
      obtain rfl := Option.some.inj hstep
      refine ⟨_, rfl, ?_, ?_, ?_⟩
      · simp only [hwk]
        exact alive_set _ halive _ _ (fun hcon => Worker.noConfusion hcon)
      · simp only [List.length_set, hwk]
      · have := outstanding_set m.workers w (Worker.results i k b) Worker.ready hws
        simp only [outstanding] at this
        simp only [hwk, hd2]
        omega

theorem masterStep_alive (wraw : Nat → List (List ℚ)) (m m1 : Master) (w : Nat)
    (halive : Alive m.workers) (h : masterStep wraw m w = some m1) : Alive m1.workers := by
  unfold masterStep at h
  split at h
  · split at h
    · exact Option.noConfusion h
    · obtain rfl := Option.some.inj h
      exact alive_set _ halive _ _ (fun hcon => Worker.noConfusion hcon)
  · rename_i i k b _
    cases hrec : receiveResults m i k b with
    | none => simp only [hrec, Option.map_none'] at h; exact Option.noConfusion h
    | some m2 =>
      simp only [hrec, Option.map_some'] at h
      obtain rfl := Option.some.inj h
      simp only [receiveResults_workers m m2 i k b hrec]
      exact alive_set _ halive _ _ (fun hcon => Worker.noConfusion hcon)
  · exact Option.noConfusion h

/-- A pass of the master loop sends at most one command. -/
theorem masterStep_sent (wraw : Nat → List (List ℚ)) (m m1 : Master) (w : Nat)
    (h : masterStep wraw m w = some m1) :
    m1.sent = m.sent ∨
      m1.sent = m.sent ++ [(w, Command.WORK m.Nexperiments_dispatched)] := by
  unfold masterStep at h
  split at h
  · split at h
    · exact Option.noConfusion h
    · obtain rfl := Option.some.inj h
      exact Or.inr rfl
  · rename_i i k b _
    cases hrec : receiveResults m i k b with
    | none => simp only [hrec, Option.map_none'] at h; exact Option.noConfusion h
    | some m2 =>
      simp only [hrec, Option.map_some'] at h
      obtain rfl := Option.some.inj h
      left
      unfold receiveResults at hrec
      split at hrec
      · exact Option.noConfusion hrec
      · obtain rfl := Option.some.inj hrec; rfl
  · exact Option.noConfusion h

/-- The states the master loop passes through: all but the last have `ok = true`, the last
is the state `dispatchLoop` returns, and the protocol invariant holds in every one. -/
theorem dispatchTrace_shape (N : Nat) (wraw : Nat → List (List ℚ)) (schedule : List Nat) :
    ∀ (m : Master) (t : List Master), MasterWf N m → Alive m.workers →
      dispatchTrace wraw schedule m = some t →
      ∃ l last, t = l ++ [last] ∧ (∀ a ∈ l, a.ok = true) ∧
        dispatchLoop wraw schedule m = some last ∧ (∀ a ∈ t, MasterWf N a) ∧
        Alive last.workers ∧ last.workers.length = m.workers.length := by
  induction schedule with
  | nil => intro m t _ _ h; exact Option.noConfusion h
  | cons w rest ih =>
    intro m t hwf halive h
    rw [dispatchTrace] at h
    rw [dispatchLoop]
    cases hstep : masterStep wraw m w with
    | none => simp only [hstep] at h; exact Option.noConfusion h
    | some m1 =>
      simp only [hstep] at h ⊢
      have hwf1 := masterWf_step N wraw m m1 w hwf hstep
      have halive1 := masterStep_alive wraw m m1 w halive hstep
      have hlen1 := masterStep_length wraw m m1 w hstep
      by_cases hcond :
          (decide (m1.Nexperiments_dispatched < m1.em.expts.length) && m1.ok) = true
      · simp only [hcond, if_true] at h ⊢
        obtain ⟨t1, ht1, rfl⟩ := Option.map_eq_some'.mp h
        obtain ⟨l, last, hl, hok, hloop, hall, ha, hlen⟩ := ih m1 t1 hwf1 halive1 ht1
        refine ⟨m1 :: l, last, by rw [hl]; rfl, ?_, hloop, ?_, ha, by rw [hlen, hlen1]⟩
        · intro a ha1
          rcases List.mem_cons.mp ha1 with rfl | ha2
          · simp only [Bool.and_eq_true] at hcond
            exact hcond.2
          · exact hok a ha2
        · intro a ha1
          rcases List.mem_cons.mp ha1 with rfl | ha2
          · exact hwf1
          · exact hall a ha2
      · simp only [hcond, if_false] at h ⊢
        obtain rfl := Option.some.inj h
        refine ⟨[], m1, rfl, ?_, rfl, ?_, halive1, hlen1⟩
        · intro a ha1; exact absurd ha1 (List.not_mem_nil a)
        · intro a ha1
          rw [List.mem_singleton.mp ha1]
          exact hwf1

/-- The master loop returns, whatever the plugins return, on every schedule that names
workers of the run only and lists at least `2 * N - 1` arrivals. -/
theorem dispatchTrace_total (N : Nat) (wraw : Nat → List (List ℚ)) (schedule : List Nat) :
    ∀ (m : Master), MasterWf N m → Alive m.workers →
      (∀ w ∈ schedule, w < m.workers.length) →
      m.Nexperiments_dispatched < N →
      2 * (N - m.Nexperiments_dispatched) + outstanding m.workers ≤ schedule.length + 1 →
      ∃ t, dispatchTrace wraw schedule m = some t := by
  induction schedule with
  | nil =>
    intro m _ _ _ hd hlen
    simp only [List.length_nil] at hlen
    omega
  | cons w rest ih =>
    intro m hwf halive hsched hd hlen
    obtain ⟨m1, hstep, halive1, hlen1, hmeas⟩ :=
      masterStep_progress_wf N wraw m w hwf halive (hsched w (List.mem_cons_self w rest)) hd
    have hwf1 := masterWf_step N wraw m m1 w hwf hstep
    rw [dispatchTrace]
    simp only [hstep]
    by_cases hcond : (decide (m1.Nexperiments_dispatched < m1.em.expts.length) && m1.ok) = true
    · simp only [hcond, if_true]
      have hd1 : m1.Nexperiments_dispatched < N := by
        simp only [Bool.and_eq_true, decide_eq_true_eq, hwf1.expts] at hcond
        exact hcond.1
      obtain ⟨t, ht⟩ := ih m1 hwf1 halive1
        (by
          intro v hv
          rw [hlen1]
          exact hsched v (List.mem_cons_of_mem w hv))
        hd1
        (by simp only [List.length_cons] at hlen; omega)
      exact ⟨m1 :: t, by rw [ht]; rfl⟩
    · simp only [hcond, if_false]
      exact ⟨[m1], rfl⟩

theorem stopsOnly_trans (a b c : Master) (h1 : StopsOnly a b) (h2 : StopsOnly b c) :
    StopsOnly a c := by
  obtain ⟨s1, hs1, hc1⟩ := h1
  obtain ⟨s2, hs2, hc2⟩ := h2
  refine ⟨s1 ++ s2, by rw [hs2, hs1, List.append_assoc], ?_⟩
  intro c hc
  rcases List.mem_append.mp hc with h | h
  · exact hc1 c h
  · exact hc2 c h

/-- The states the clean-up loop passes through: from its entry on nothing but `STOP` is
sent, one `STOP` per pass to the worker of that pass, the last state is the one
`drainLoop` returns, and in it every worker visited is stopped. -/
theorem drainTrace_spec (N : Nat) (ws : List Nat) :
    ∀ (m : Master) (t : List Master), MasterWf N m → drainTrace ws m = some t →
      (∀ a ∈ t, StopsOnly m a) ∧ t.Pairwise StopsOnly ∧
      drainLoop ws m = some (t.getLastD m) ∧ (∀ a ∈ t, MasterWf N a) ∧
      (t.getLastD m).sent = m.sent ++ ws.map (fun i => (i, Command.STOP)) ∧
      (t.getLastD m).workers.length = m.workers.length ∧
      (∀ w, (w ∈ ws ∨ m.workers[w]? = some Worker.stopped) → w < m.workers.length →
        (t.getLastD m).workers[w]? = some Worker.stopped) := by
  induction ws with
  | nil =>
    intro m t _ h
    simp only [drainTrace, Option.some.injEq] at h
    subst h
    refine ⟨fun a ha => absurd ha (List.not_mem_nil a), List.Pairwise.nil, rfl,
      fun a ha => absurd ha (List.not_mem_nil a), by simp [List.getLastD], rfl, ?_⟩
    intro w hw _
    rcases hw with hw | hw
    · exact absurd hw (List.not_mem_nil w)
    · exact hw
  | cons i rest ih =>
    intro m t hwf h
    rw [drainTrace] at h
    cases hstep : drainWorker m i with
    | none => simp only [hstep, Option.bind] at h; exact Option.noConfusion h
    | some m1 =>
      simp only [hstep, Option.bind] at h
      obtain ⟨t1, ht1, rfl⟩ := Option.map_eq_some'.mp h
      obtain ⟨hwf1, hwk, hsent, hil⟩ := masterWf_drainWorker N m m1 i hwf hstep
      obtain ⟨h1, h2, h3, h4, h5, h6, h7⟩ := ih m1 t1 hwf1 ht1
      have hstop : StopsOnly m m1 := by
        refine ⟨[(i, Command.STOP)], hsent, ?_⟩
        intro c hc
        rw [List.mem_singleton.mp hc]
      have hlast : (m1 :: t1).getLastD m = t1.getLastD m1 := List.getLastD_cons _ _ _
      rw [hlast]
      refine ⟨?_, List.pairwise_cons.mpr ⟨h1, h2⟩, ?_, ?_, ?_, ?_, ?_⟩
      · intro a ha
        rcases List.mem_cons.mp ha with rfl | ha1
        · exact hstop
        · exact stopsOnly_trans m m1 a hstop (h1 a ha1)
      · rw [drainLoop, hstep]; exact h3
      · intro a ha
        rcases List.mem_cons.mp ha with rfl | ha1
        · exact hwf1
        · exact h4 a ha1
      · rw [h5, hsent, List.map_cons, List.append_assoc]; rfl
      · rw [h6, hwk, List.length_set]
      · intro w hw hwl
        have hwl1 : w < m1.workers.length := by rw [hwk, List.length_set]; exact hwl
        by_cases hwi : i = w
        · subst hwi
          apply h7 i (Or.inr ?_) hwl1
          rw [hwk, List.getElem?_set_self hil]
        · rcases hw with hw | hw
          · rcases List.mem_cons.mp hw with h8 | h8
            · exact absurd h8.symm hwi
            · exact h7 w (Or.inl h8) hwl1
          · apply h7 w (Or.inr ?_) hwl1
            rw [hwk, List.getElem?_set_ne hwi]; exact hw

/-- The clean-up loop returns, whatever the plugins returned, when it visits once each
workers that have not been stopped. -/
theorem drainTrace_total (N : Nat) (ws : List Nat) :
    ∀ (m : Master), MasterWf N m → ws.Nodup →
      (∀ w ∈ ws, w < m.workers.length ∧ m.workers[w]? ≠ some Worker.stopped) →
      ∃ t, drainTrace ws m = some t := by
  induction ws with
  | nil => intro m _ _ _; exact ⟨[], rfl⟩
  | cons i rest ih =>
    intro m hwf hnd hws
    obtain ⟨hil, hns⟩ := hws i (List.mem_cons_self i rest)
    have hstep : ∃ m2, drainWorker m i = some m2 := by
      have hwi : m.workers[i]? = some (m.workers.get ⟨i, hil⟩) := List.getElem?_eq_getElem hil
      generalize m.workers.get ⟨i, hil⟩ = s at hwi
      cases hdw : drainWorker m i with
      | some m2 => exact ⟨m2, rfl⟩
      | none =>
        exfalso
        unfold drainWorker at hdw
        cases s with
        | stopped => exact absurd hwi hns
        | ready =>
          simp only [hwi] at hdw
          exact Option.noConfusion hdw
        | results j k b =>
          have hj := hwf.pending i j k b hwi
          have he : m.em.expts[j]? = some (m.em.expts.get ⟨j, by rw [hwf.expts]; exact hj⟩) :=
            List.getElem?_eq_getElem _
          obtain ⟨m2, hrec, -⟩ := receiveResults_spec m j k b _ he
          simp only [hwi, hrec, Option.map_some'] at hdw
          exact Option.noConfusion hdw
    obtain ⟨m2, hm2⟩ := hstep
    obtain ⟨hwf2, hwk, -, -⟩ := masterWf_drainWorker N m m2 i hwf hm2
    have hnd2 := List.nodup_cons.mp hnd
    obtain ⟨t, ht⟩ := ih m2 hwf2 hnd2.2 (by
      intro v hv
      have hvi : i ≠ v := fun hcon => hnd2.1 (hcon ▸ hv)
      obtain ⟨h1, h2⟩ := hws v (List.mem_cons_of_mem i hv)
      rw [hwk, List.length_set, List.getElem?_set_ne hvi]
      exact ⟨h1, h2⟩)
    exact ⟨m2 :: t, by rw [drainTrace, hm2]; simp only [Option.bind, ht, Option.map_some']⟩

theorem getLastD_append {α : Type} (l1 l2 : List α) (d : α) :
    (l1 ++ l2).getLastD d = l2.getLastD (l1.getLastD d) := by
  induction l1 generalizing d with
  | nil => rfl
  | cons a l ih => rw [List.cons_append, List.getLastD_cons, List.getLastD_cons, ih]

/-- The state `dispatchLoop` returns is the last one of the trace. -/
theorem dispatchLoop_eq_trace (wraw : Nat → List (List ℚ)) (schedule : List Nat) :
    ∀ (m : Master), dispatchLoop wraw schedule m =
      (dispatchTrace wraw schedule m).map (fun t => t.getLastD m) := by
  induction schedule with
  | nil => intro m; rfl
  | cons w rest ih =>
    intro m
    rw [dispatchLoop, dispatchTrace]
    cases hstep : masterStep wraw m w with
    | none => rfl
    | some m1 =>
      simp only
      split
      · rw [ih m1, Option.map_map]
        congr 1
        funext t
        exact (List.getLastD_cons m m1 t).symm
      · rfl

/-- The state `drainLoop` returns is the last one of the trace. -/
theorem drainLoop_eq_trace (ws : List Nat) :
    ∀ (m : Master), drainLoop ws m = (drainTrace ws m).map (fun t => t.getLastD m) := by
  induction ws with
  | nil => intro m; rfl
  | cons i rest ih =>
    intro m
    rw [drainLoop, drainTrace]
    cases hstep : drainWorker m i with
    | none => rfl
    | some m1 =>
      simp only [Option.bind]
      rw [ih m1, Option.map_map]
      congr 1
      funext t
      exact (List.getLastD_cons m m1 t).symm

/-- The distributed round returns what the last state of the master's trace holds. -/
theorem GenerateTestMeasurementsMPI_eq_trace (em : ExperimentManager)
    (tp tm : List ℚ) (nworkers : Nat) (wraw : Nat → List (List ℚ)) (schedule : List Nat) :
    em.GenerateTestMeasurementsMPI tp tm nworkers wraw schedule =
      (em.masterTrace tp tm nworkers wraw schedule).map (fun t =>
        ⟨(t.getLastD (em.masterInit tp tm nworkers)).ok,
          (t.getLastD (em.masterInit tp tm nworkers)).test_measurements,
          (t.getLastD (em.masterInit tp tm nworkers)).em⟩) := by
  unfold GenerateTestMeasurementsMPI masterTrace
  simp only
  have h0 := dispatchLoop_eq_trace wraw schedule (em.masterInit tp tm nworkers)
  simp only [masterInit] at h0 ⊢
  rw [h0]
  cases h1 : dispatchTrace wraw schedule _ with
  | none => rfl
  | some t1 =>
    simp only [Option.map_some', Option.bind]
    rw [drainLoop_eq_trace]
    cases h2 : drainTrace (List.range nworkers) _ with
    | none => rfl
    | some t2 =>
      simp only [Option.map_some', List.getLastD_cons, getLastD_append]

theorem masterWf_initial (em : ExperimentManager) (tp tm : List ℚ) (nworkers : Nat) :
    MasterWf em.expts.length (em.masterInit tp tm nworkers) := by
  refine ⟨rfl, Nat.zero_le _, ?_, ?_, rfl⟩
  · intro w i k b hw
    simp only [masterInit, List.getElem?_replicate] at hw
    split at hw
    · exact Worker.noConfusion (Option.some.inj hw)
    · exact Option.noConfusion hw
  · simp only [masterInit, outstanding_replicate]

theorem outstanding_stopped (l : List Worker)
    (h : ∀ w, w < l.length → l[w]? = some Worker.stopped) : outstanding l = 0 := by
  induction l with
  | nil => rfl
  | cons a rest ih =>
    have ha : a = Worker.stopped := by
      have := h 0 (by simp)
      simpa using this
    subst ha
    simp only [outstanding]
    apply ih
    intro w hw
    have := h (w + 1) (by simp only [List.length_cons]; omega)
    simpa using this

theorem pairwise_of_forall_left {α : Type} (R : α → α → Prop) (P : α → Prop) (l : List α)
    (hP : ∀ a ∈ l, P a) (hR : ∀ a b, P a → R a b) : l.Pairwise R := by
  induction l with
  | nil => exact List.Pairwise.nil
  | cons a rest ih =>
    refine List.pairwise_cons.mpr ⟨fun b _ => hR a b (hP a (List.mem_cons_self a rest)), ?_⟩
    exact ih (fun b hb => hP b (List.mem_cons_of_mem a hb))

theorem getLastD_mem_cons {α : Type} (l : List α) (d : α) : l.getLastD d ∈ d :: l := by
  induction l generalizing d with
  | nil => exact List.mem_cons_self d []
  | cons a rest ih =>
    rw [List.getLastD_cons]
    exact List.mem_cons_of_mem d (ih a)

/-- What holds of every round of the master, whatever the plugins return: once a state has
`ok = false` nothing but `STOP` is sent from there on; the protocol invariant holds
throughout; at the end every dispatched experiment has been received, every worker is
stopped, and the log ends with one `STOP` per worker, in rank order. -/
theorem masterTrace_spec (em : ExperimentManager) (tp tm : List ℚ) (nworkers : Nat)
    (wraw : Nat → List (List ℚ)) (schedule : List Nat) (t : List Master)
    (h : em.masterTrace tp tm nworkers wraw schedule = some t) :
    t.Pairwise (fun a b => a.ok = false → StopsOnly a b) ∧
    (∀ a ∈ t, MasterWf em.expts.length a) ∧
    (t.getLastD (em.masterInit tp tm nworkers)).Nexperiments_finished =
      (t.getLastD (em.masterInit tp tm nworkers)).Nexperiments_dispatched ∧
    (∀ w, w < nworkers →
      (t.getLastD (em.masterInit tp tm nworkers)).workers[w]? = some Worker.stopped) ∧
    (∃ mid ∈ t, (t.getLastD (em.masterInit tp tm nworkers)).sent =
      mid.sent ++ (List.range nworkers).map (fun i => (i, Command.STOP))) := by
  have hwf0 := masterWf_initial em tp tm nworkers
  have halive0 : Alive (em.masterInit tp tm nworkers).workers := alive_replicate nworkers
  have hlen0 : (em.masterInit tp tm nworkers).workers.length = nworkers :=
    List.length_replicate nworkers Worker.ready
  unfold masterTrace at h
  simp only at h
  cases h1 : dispatchTrace wraw schedule (em.masterInit tp tm nworkers) with
  | none => simp only [h1, Option.bind] at h; exact Option.noConfusion h
  | some t1 =>
    simp only [h1, Option.bind] at h
    obtain ⟨t2, h2, rfl⟩ := Option.map_eq_some'.mp h
    obtain ⟨l, last, rfl, hok, _, hall1, halive, hlen⟩ :=
      dispatchTrace_shape em.expts.length wraw schedule _ _ hwf0 halive0 h1
    have hlast : (l ++ [last]).getLastD (em.masterInit tp tm nworkers) = last := by
      rw [getLastD_append]; rfl
    rw [hlast] at h2
    have hwfl : MasterWf em.expts.length last := hall1 last (by simp)
    obtain ⟨d1, d2, _, d4, d5, d6, d7⟩ := drainTrace_spec em.expts.length _ last t2 hwfl h2
    have hfinal : (em.masterInit tp tm nworkers :: (l ++ [last] ++ t2)).getLastD
        (em.masterInit tp tm nworkers) = t2.getLastD last := by
      rw [List.getLastD_cons, getLastD_append, hlast]
    have hall : ∀ a ∈ em.masterInit tp tm nworkers :: (l ++ [last] ++ t2),
        MasterWf em.expts.length a := by
      intro a ha
      rcases List.mem_cons.mp ha with rfl | ha1
      · exact hwf0
      · rcases List.mem_append.mp ha1 with ha2 | ha2
        · exact hall1 a ha2
        · exact d4 a ha2
    have hstopped : ∀ w, w < nworkers →
        (t2.getLastD last).workers[w]? = some Worker.stopped := by
      intro w hw
      exact d7 w (Or.inl (List.mem_range.mpr hw)) (by rw [hlen, hlen0]; exact hw)
    have hwff : MasterWf em.expts.length (t2.getLastD last) := by
      rcases List.mem_cons.mp (getLastD_mem_cons t2 last) with h3 | h3
      · rw [h3]; exact hwfl
      · exact d4 _ h3
    rw [hfinal]
    refine ⟨?_, hall, ?_, hstopped, ⟨last, by simp, d5⟩⟩
    · rw [show em.masterInit tp tm nworkers :: (l ++ [last] ++ t2)
          = (em.masterInit tp tm nworkers :: l) ++ (last :: t2) by simp]
      have hokl : ∀ a ∈ em.masterInit tp tm nworkers :: l, a.ok = true := by
        intro a ha
        rcases List.mem_cons.mp ha with rfl | ha1
        · rfl
        · exact hok a ha1
      refine List.pairwise_append.mpr ⟨?_, ?_, ?_⟩
      · exact pairwise_of_forall_left _ (fun a => a.ok = true) _ hokl
          (fun a b ha hb => absurd (ha.symm.trans hb) (by decide))
      · have d3 : t2.Pairwise (fun a b => a.ok = false → StopsOnly a b) :=
          @List.Pairwise.imp Master StopsOnly (fun a b => a.ok = false → StopsOnly a b)
            (fun hab _ => hab) t2 d2
        exact List.pairwise_cons.mpr ⟨fun b hb _ => d1 b hb, d3⟩
      · intro a ha b _ hb
        exact absurd ((hokl a ha).symm.trans hb) (by decide)
    · have hc := hwff.count
      rw [outstanding_stopped _ (fun w hw => hstopped w (by rw [d6, hlen, hlen0] at hw; exact hw))]
        at hc
      exact hc

/-- The master's round returns, whatever the plugins return, on every schedule that names
workers of the run only and lists at least `2 * N - 1` arrivals, when the registry holds
`N ≥ 1` experiments. -/
theorem masterTrace_total (em : ExperimentManager) (tp tm : List ℚ) (nworkers : Nat)
    (wraw : Nat → List (List ℚ)) (schedule : List Nat)
    (hN : 0 < em.expts.length) (hsched : ∀ w ∈ schedule, w < nworkers)
    (hlen : 2 * em.expts.length ≤ schedule.length + 1) :
    ∃ t, em.masterTrace tp tm nworkers wraw schedule = some t := by
  have hwf0 := masterWf_initial em tp tm nworkers
  have halive0 : Alive (em.masterInit tp tm nworkers).workers := alive_replicate nworkers
  have hlen0 : (em.masterInit tp tm nworkers).workers.length = nworkers :=
    List.length_replicate nworkers Worker.ready
  obtain ⟨t1, h1⟩ := dispatchTrace_total em.expts.length wraw schedule _ hwf0 halive0
    (by intro w hw; rw [hlen0]; exact hsched w hw) hN
    (by
      show 2 * (em.expts.length - 0) + outstanding (List.replicate nworkers Worker.ready) ≤ _
      rw [outstanding_replicate]
      omega)
  obtain ⟨l, last, rfl, _, _, hall1, halive, hlenl⟩ :=
    dispatchTrace_shape em.expts.length wraw schedule _ _ hwf0 halive0 h1
  have hlast : (l ++ [last]).getLastD (em.masterInit tp tm nworkers) = last := by
    rw [getLastD_append]; rfl
  obtain ⟨t2, h2⟩ := drainTrace_total em.expts.length (List.range nworkers) last
    (hall1 last (by simp)) (List.nodup_range nworkers)
    (by
      intro w hw
      exact ⟨by rw [hlenl, hlen0]; exact List.mem_range.mp hw, halive w⟩)
  refine ⟨em.masterInit tp tm nworkers :: (l ++ [last] ++ t2), ?_⟩
  unfold masterTrace
  simp only [h1, Option.bind, hlast, h2, Option.map_some']

/-- C22, as the code has it: when the master receives `HAVE_RESULTS` for a registered
experiment `exp_num` with a negative flag, in a pass of the master loop or of the clean-up
loop, it sets `ok = false`, counts the experiment as finished and stores the returned
buffer in `raw_data[exp_num]`, but leaves the global vector `test_measurements` as it was:
the copy loop of lines 344-346 and 392-394 runs only when `intok == 1`. -/
theorem receiveResults_failed (m : Master) (exp_num : Nat) (intok : Int) (buf : List ℚ)
    (e : SimulatedExperiment) (he : m.em.expts[exp_num]? = some e) (hk : intok < 0) :
    ∃ m1, receiveResults m exp_num intok buf = some m1 ∧
      m1.ok = false ∧
      m1.Nexperiments_finished = m.Nexperiments_finished + 1 ∧
      m1.em.raw_data = m.em.raw_data.set exp_num buf ∧
      m1.test_measurements = m.test_measurements ∧
      (∀ (wraw : Nat → List (List ℚ)) (w : Nat),
        m.workers[w]? = some (Worker.results exp_num intok buf) →
        masterStep wraw m w = some { m1 with workers := m1.workers.set w Worker.ready }) ∧
      (∀ i : Nat, m.workers[i]? = some (Worker.results exp_num intok buf) →
        drainWorker m i = some { m1 with
          workers := m1.workers.set i Worker.stopped
          sent := m1.sent ++ [(i, Command.STOP)] }) := by
  obtain ⟨m1, hrec, hfin, hraw, hfail, _⟩ := receiveResults_spec m exp_num intok buf e he
  refine ⟨m1, hrec, (hfail hk).1, hfin, hraw, (hfail hk).2, ?_, ?_⟩
  · intro wraw w hw
    simp only [masterStep, hw, hrec, Option.map_some']
  · intro i hw
    simp only [drainWorker, hw, hrec, Option.map_some']

/-- C22 as amended, at the master of `failFirstRegistry` holding the vector
`[9, 9, 9, 9, 9]`, for the failed result of experiment `0` with the buffer `[0, 0, 0]`. -/
theorem receiveResults_failed_witness :
    ∃ m1, receiveResults (failFirstRegistry.masterInit [5] [9, 9, 9, 9, 9] 1) 0 (-1) [0, 0, 0]
        = some m1 ∧
      m1.ok = false ∧
      m1.Nexperiments_finished
        = (failFirstRegistry.masterInit [5] [9, 9, 9, 9, 9] 1).Nexperiments_finished + 1 ∧
      m1.em.raw_data
        = (failFirstRegistry.masterInit [5] [9, 9, 9, 9, 9] 1).em.raw_data.set 0 [0, 0, 0] ∧
      m1.test_measurements
        = (failFirstRegistry.masterInit [5] [9, 9, 9, 9, 9] 1).test_measurements ∧
      (∀ (wraw : Nat → List (List ℚ)) (w : Nat),
        (failFirstRegistry.masterInit [5] [9, 9, 9, 9, 9] 1).workers[w]?
          = some (Worker.results 0 (-1) [0, 0, 0]) →
        masterStep wraw (failFirstRegistry.masterInit [5] [9, 9, 9, 9, 9] 1) w
          = some { m1 with workers := m1.workers.set w Worker.ready }) ∧
      (∀ i : Nat, (failFirstRegistry.masterInit [5] [9, 9, 9, 9, 9] 1).workers[i]?
          = some (Worker.results 0 (-1) [0, 0, 0]) →
        drainWorker (failFirstRegistry.masterInit [5] [9, 9, 9, 9, 9] 1) i = some { m1 with
          workers := m1.workers.set i Worker.stopped
          sent := m1.sent ++ [(i, Command.STOP)] }) :=
  receiveResults_failed (failFirstRegistry.masterInit [5] [9, 9, 9, 9, 9] 1) 0 (-1) [0, 0, 0]
    (demoSteady 3 10) rfl (by decide)

/-- C22 as stated fails: in the round of `failFirstRegistry` at the parameter value `5`
with one worker, handed the vector `[9, 9, 9, 9, 9]`, experiment `0` fails in the master
loop with the returned buffer `[0, 0, 0]`; the master reports `ok = false` and keeps the
buffer in `raw_data[0]`, but the global vector is still `[9, 9, 9, 9, 9]`, where copying
the buffer to offset `0` would have given `[0, 0, 0, 9, 9]`. -/
theorem receiveResults_failed_counterexample :
    (failFirstRegistry.GenerateTestMeasurementsMPI [5] [9, 9, 9, 9, 9] 1 (fun _ => [])
        [0, 0]).map (fun r => (r.ok, r.em.raw_data.getD 0 [], r.test_measurements))
      = some (false, [0, 0, 0], [9, 9, 9, 9, 9]) ∧
    copyOut [9, 9, 9, 9, 9] (failFirstRegistry.data_offsets.getD 0 0) [0, 0, 0] 3
      = [0, 0, 0, 9, 9] := by
  constructor <;> decide!

/-- C23, what the code does with an empty registry: the loop of lines 296-360 is a
`do … while`, so its first pass runs before `Nexperiments_dispatched < expts.size()` is
tested.  With `N = 0` every worker has sent `READY`, the master answers the first one
with `WORK` and the index `0`, and lines 325-326 index `expts[0]` of an empty registry:
the pass has no defined outcome, for every choice of worker, and neither has the round. -/
theorem masterStep_empty_registry :
    blank.Clear.expts.length = 0 ∧
    (∀ (tp tm : List ℚ) (w n : Nat) (wraw : Nat → List (List ℚ)),
      (blank.Clear.masterInit tp tm (w + 1 + n)).workers[w]? = some Worker.ready ∧
      (blank.Clear.masterInit tp tm (w + 1 + n)).Nexperiments_dispatched = 0 ∧
      masterStep wraw (blank.Clear.masterInit tp tm (w + 1 + n)) w = none) ∧
    (∀ (tp tm : List ℚ) (nworkers : Nat) (wraw : Nat → List (List ℚ)) (schedule : List Nat),
      blank.Clear.GenerateTestMeasurementsMPI tp tm nworkers wraw schedule = none) := by
  refine ⟨rfl, ?_, ?_⟩
  · intro tp tm w n wraw
    have hw : (blank.Clear.masterInit tp tm (w + 1 + n)).workers[w]? = some Worker.ready := by
      simp only [masterInit, List.getElem?_replicate]
      rw [if_pos (by omega)]
    refine ⟨hw, rfl, ?_⟩
    unfold masterStep
    rw [hw]
    rfl
  · intro tp tm nworkers wraw schedule
    rw [GenerateTestMeasurementsMPI_eq_trace]
    cases h : blank.Clear.masterTrace tp tm nworkers wraw schedule with
    | none => rfl
    | some t =>
      exfalso
      unfold masterTrace at h
      simp only at h
      cases h1 : dispatchTrace wraw schedule (blank.Clear.masterInit tp tm nworkers) with
      | none => simp only [h1, Option.bind] at h; exact Option.noConfusion h
      | some t1 =>
        cases schedule with
        | nil => exact Option.noConfusion h1
        | cons w rest =>
          rw [dispatchTrace] at h1
          cases hstep : masterStep wraw (blank.Clear.masterInit tp tm nworkers) w with
          | none => simp only [hstep] at h1; exact Option.noConfusion h1
          | some m1 =>
            unfold masterStep at hstep
            simp only [masterInit, List.getElem?_replicate] at hstep
            split at hstep
            · split at hstep
              · exact Option.noConfusion hstep
              · rename_i e he
                exact Option.noConfusion he
            · rename_i i k b hres
              split at hres
              · exact Worker.noConfusion (Option.some.inj hres)
              · exact Option.noConfusion hres
            · exact Option.noConfusion hstep

/-- C24: in every round of the master, whatever the plugins return and whatever the
order of arrivals, once a state of the master has `ok = false` every command sent from
there on is `STOP`; the clean-up pass for a worker with a result outstanding processes
that result and then sends `STOP`; at the end every dispatched experiment has been
received, every worker is stopped, and the log ends with one `STOP` per worker.  The
round is the one `GenerateTestMeasurementsMPI` returns, and on a registry of `N ≥ 1`
experiments it does return for every schedule that names workers of the run only and
lists at least `2 * N - 1` arrivals. -/
theorem master_stops_after_failure (em : ExperimentManager) (tp tm : List ℚ) (nworkers : Nat)
    (wraw : Nat → List (List ℚ)) (schedule : List Nat) (t : List Master)
    (h : em.masterTrace tp tm nworkers wraw schedule = some t) :
    t.Pairwise (fun a b => a.ok = false → StopsOnly a b) ∧
    (∀ (m : Master) (i exp_num : Nat) (intok : Int) (buf : List ℚ),
      m.workers[i]? = some (Worker.results exp_num intok buf) →
      drainWorker m i = (receiveResults m exp_num intok buf).map (fun m1 => { m1 with
        workers := m1.workers.set i Worker.stopped
        sent := m1.sent ++ [(i, Command.STOP)] })) ∧
    (t.getLastD (em.masterInit tp tm nworkers)).Nexperiments_finished =
      (t.getLastD (em.masterInit tp tm nworkers)).Nexperiments_dispatched ∧
    (∀ w, w < nworkers →
      (t.getLastD (em.masterInit tp tm nworkers)).workers[w]? = some Worker.stopped) ∧
    (∃ mid ∈ t, (t.getLastD (em.masterInit tp tm nworkers)).sent =
      mid.sent ++ (List.range nworkers).map (fun i => (i, Command.STOP))) ∧
    em.GenerateTestMeasurementsMPI tp tm nworkers wraw schedule =
      some ⟨(t.getLastD (em.masterInit tp tm nworkers)).ok,
        (t.getLastD (em.masterInit tp tm nworkers)).test_measurements,
        (t.getLastD (em.masterInit tp tm nworkers)).em⟩ ∧
    (0 < em.expts.length → ∀ schedule1 : List Nat, (∀ w ∈ schedule1, w < nworkers) →
      2 * em.expts.length ≤ schedule1.length + 1 →
      ∃ t1, em.masterTrace tp tm nworkers wraw schedule1 = some t1) := by
  obtain ⟨h1, _, h3, h4, h5⟩ := masterTrace_spec em tp tm nworkers wraw schedule t h
  refine ⟨h1, ?_, h3, h4, h5, ?_, ?_⟩
  · intro m i exp_num intok buf hw
    simp only [drainWorker, hw]
  · rw [GenerateTestMeasurementsMPI_eq_trace, h]
    rfl
  · intro hN schedule1 hsched hlen
    exact masterTrace_total em tp tm nworkers wraw schedule1 hN hsched hlen

/-- C24 at `tripleRegistry` with the parameter value `5` and two workers: experiments `0`
and `1` are dispatched, the failure of experiment `0` arrives, experiment `2` is never
dispatched, and the log is `WORK 0`, `WORK 1`, `STOP`, `STOP`, the result of experiment
`1` being received in the clean-up pass. -/
theorem master_stops_after_failure_witness :
    ((tripleRegistry.masterTrace [5] [] 2 (fun _ => []) [0, 1, 0]).map
        (fun t => t.map (fun m => (m.ok, m.Nexperiments_finished)))
      = some [(true, 0), (true, 0), (true, 0), (false, 1), (false, 1), (false, 2)] ∧
    (tripleRegistry.masterTrace [5] [] 2 (fun _ => []) [0, 1, 0]).map
        (fun t => t.map (fun m => m.sent.map (fun c => (c.1, c.2.index))))
      = some [[], [(0, some 0)], [(0, some 0), (1, some 1)], [(0, some 0), (1, some 1)],
          [(0, some 0), (1, some 1), (0, none)],
          [(0, some 0), (1, some 1), (0, none), (1, none)]] ∧
    (tripleRegistry.masterTrace [5] [] 2 (fun _ => []) [0, 1, 0]).map
        (fun t => t.map (fun m => m.test_measurements))
      = some [[0, 0, 0], [0, 0, 0], [0, 0, 0], [0, 0, 0], [0, 0, 0], [0, 5, 0]]) ∧
    ∃ t, tripleRegistry.masterTrace [5] [] 2 (fun _ => []) [0, 1, 0] = some t ∧
      t.Pairwise (fun a b => a.ok = false → StopsOnly a b) ∧
      (∀ (m : Master) (i exp_num : Nat) (intok : Int) (buf : List ℚ),
        m.workers[i]? = some (Worker.results exp_num intok buf) →
        drainWorker m i = (receiveResults m exp_num intok buf).map (fun m1 => { m1 with
          workers := m1.workers.set i Worker.stopped
          sent := m1.sent ++ [(i, Command.STOP)] })) ∧
      (t.getLastD (tripleRegistry.masterInit [5] [] 2)).Nexperiments_finished =
        (t.getLastD (tripleRegistry.masterInit [5] [] 2)).Nexperiments_dispatched ∧
      (∀ w, w < 2 →
        (t.getLastD (tripleRegistry.masterInit [5] [] 2)).workers[w]? = some Worker.stopped) ∧
      (∃ mid ∈ t, (t.getLastD (tripleRegistry.masterInit [5] [] 2)).sent =
        mid.sent ++ (List.range 2).map (fun i => (i, Command.STOP))) ∧
      tripleRegistry.GenerateTestMeasurementsMPI [5] [] 2 (fun _ => []) [0, 1, 0] =
        some ⟨(t.getLastD (tripleRegistry.masterInit [5] [] 2)).ok,
          (t.getLastD (tripleRegistry.masterInit [5] [] 2)).test_measurements,
          (t.getLastD (tripleRegistry.masterInit [5] [] 2)).em⟩ ∧
      (0 < tripleRegistry.expts.length → ∀ schedule1 : List Nat,
        (∀ w ∈ schedule1, w < 2) →
        2 * tripleRegistry.expts.length ≤ schedule1.length + 1 →
        ∃ t1, tripleRegistry.masterTrace [5] [] 2 (fun _ => []) schedule1 = some t1) := by
  refine ⟨⟨by decide!, by decide!, by decide!⟩, ?_⟩
  have hsome : (tripleRegistry.masterTrace [5] [] 2 (fun _ => []) [0, 1, 0]).isSome = true := by
    decide!
  obtain ⟨t, ht⟩ := Option.isSome_iff_exists.mp hsome
  exact ⟨t, ht, master_stops_after_failure tripleRegistry [5] [] 2 (fun _ => []) [0, 1, 0] t ht⟩

/-! ## Interesting range, the value of `kmax` and the return -/

end ExperimentManager

/-! ## The flame-speed plugin, returned flag and value -/

namespace PREMIXReactor

end PREMIXReactor

end UQ
